import Mathlib

/-!
# drlog-search: indexing and search engine of the agent

A shallow embedding of the agent's matchers (`base_searcher`, `simple_searcher`,
`boolean_searcher`), of the ranged searcher `LogSearcher` (`find_index_pos`, `parse_line`,
`search_file_txt`, `search_file_gzip`, `exec_searchers`), of the index builders and the index
table of `FileIndexer` (`scan_root`, `update_file_index`, `list_prefix`), and of the
gateway's agent registry and result merge, followed by the theorems that settle the
properties of the specification.

Conventions of the embedding.

* A `std::string` / `std::string_view` is a `List Char`; a `char` is a `Char`.
* `size_t`, `uint64_t` values that only count or index are `Nat`; a `std::time_t` is an `Int`
  and its conversion to `uint64_t` is explicit (`to_uint64`).
* A function that throws returns `Except`; a `shared_ptr` that may be null has a `null`
  constructor.
* Loops whose bound is a position in a buffer take a fuel argument initialised with the
  length of the buffer; lemmas show that this fuel is never exhausted.
* What the code gets from outside (the content of a file, the rounds of the inflate
  library, the regex engine, the clock) is an argument of the function that uses it.
* A `std::unordered_map` or `std::map` is the list of its pairs in the order of iteration.
-/

namespace drlog

/-! ## Matchers: `searchers/base_searcher.hpp`, `searchers/simple_searcher.hpp` -/

/-- The struct `matched_word` of `base_searcher.hpp`. -/
structure matched_word where
  word : List Char
  pos : Nat
deriving DecidableEq, Repr

/-- The enum `SearchType` of `base_searcher.hpp`. -/
inductive SearchType where
  | SIMPLE
  | BOOL
  | REGEX
  | ALL
deriving DecidableEq, Repr

/-- The class `base_searcher`: the virtual `search_line(line, matched, with_res)` as a function
of the line, the incoming `matched` vector and the flag, returning the result and the
outgoing `matched` vector. -/
structure base_searcher where
  search_type_ : SearchType
  search_line : List Char → List matched_word → Bool → Bool × List matched_word

/-- The call `std::string::find(word)` from position 0: the index of the first occurrence,
`none` for `npos`. -/
def find (line word : List Char) : Option Nat :=
  if word.isPrefixOf line then some 0 else
  match line with
  | [] => none
  | _ :: t => (find t word).map (· + 1)

/-- The method `simple_searcher::search_line` for the stored `pattern_`. -/
def simple_search_line (pattern_ : List Char) (line : List Char) (matched : List matched_word)
    (with_res : Bool) : Bool × List matched_word :=
  match find line pattern_ with
  | some pos => (true, if with_res then [⟨pattern_, pos⟩] else matched)
  | none => (false, matched)

/-- A `simple_searcher` after `build_pattern(pattern)`. -/
def simple_searcher (pattern : List Char) : base_searcher :=
  ⟨SearchType.SIMPLE, simple_search_line pattern⟩

/-! ## `LogSearcher::exec_searchers`: `searcher.hpp`, `searcher.cpp` -/

/-- The struct `LogLine` of `searcher.hpp`. -/
structure LogLine where
  timestamp : Nat
  line : List Char
deriving DecidableEq, Repr

/-- The struct `QueryString` of `searcher.hpp`. -/
structure QueryString where
  query : List Char
  type : List Char
deriving DecidableEq, Repr

/-- The struct `QuerySearcher` of `searcher.hpp` (the `searcher` pointer is never null once
`build_searchers` has run). -/
structure QuerySearcher where
  query_string : QueryString
  type : SearchType
  searcher : base_searcher

/-- The struct `SearchRequest` of `searcher.hpp`. -/
structure SearchRequest where
  queries : List QueryString := []
  start_time : Nat := 0
  end_time : Nat := 0
  paths : List (List Char) := []
  sort_type : List Char := []
  max_results : Nat := 500
deriving DecidableEq, Repr

/-- The struct `FileMatches` of `searcher.hpp`. -/
structure FileMatches where
  path : List Char := []
  lines : List LogLine := []
  status : Int := 0
  error_msg : List Char := []
deriving DecidableEq, Repr

/-- The fields of the struct `SearchContext` that the record pipeline reads and writes. -/
structure SearchContext where
  path : List Char
  start_time : Nat
  end_time : Nat
  index_start_pos : Nat
  index_end_pos : Nat
  tmp_line : LogLine
  log_lines : List LogLine
  matched_lines : List LogLine
  searchers : List QuerySearcher
  status : Int
  error_msg : List Char
  index_start_time : Nat := 0
  index_end_time : Nat := 0
  req : SearchRequest := {}

/-- The inner loop of `exec_searchers` over `ctx->searchers` for one line: the final value of
`be_matched`. Each call passes a freshly emptied `matched` vector and `with_res = false`, and
the loop breaks at the first searcher that fails. -/
def be_matched (line : List Char) : List QuerySearcher → Bool
  | [] => true
  | qs :: rest =>
    if (qs.searcher.search_line line [] false).1 then be_matched line rest else false

/-- The outer loop of `exec_searchers` over `ctx->log_lines`: the first component is the
batch after the loop (a matched line has been moved from, which leaves its string empty), the
second is `ctx->matched_lines`. -/
def exec_lines (searchers : List QuerySearcher) :
    List LogLine → List LogLine → List LogLine × List LogLine
  | [], matched_lines => ([], matched_lines)
  | line :: rest, matched_lines =>
    if be_matched line.line searchers then
      let r := exec_lines searchers rest (matched_lines ++ [line])
      ({ line with line := [] } :: r.1, r.2)
    else
      let r := exec_lines searchers rest matched_lines
      (line :: r.1, r.2)

/-- The method `LogSearcher::exec_searchers` on a non-null context. -/
def exec_searchers (ctx : SearchContext) : Bool × SearchContext :=
  if ctx.searchers.isEmpty then (false, ctx)
  else
    let r := exec_lines ctx.searchers ctx.log_lines ctx.matched_lines
    (true, { ctx with log_lines := r.1, matched_lines := r.2 })

/-- A context with two simple matchers and a batch of three records. -/
def sample_ctx : SearchContext :=
  { path := "app.log".toList, start_time := 0, end_time := 100,
    index_start_pos := 0, index_end_pos := 0,
    tmp_line := ⟨0, []⟩,
    log_lines := [⟨10, "foo bar".toList⟩, ⟨20, "foo".toList⟩, ⟨30, "bar foo".toList⟩],
    matched_lines := [⟨5, "old".toList⟩],
    searchers := [⟨⟨"foo".toList, "simple".toList⟩, SearchType.SIMPLE,
                    simple_searcher "foo".toList⟩,
                  ⟨⟨"bar".toList, "simple".toList⟩, SearchType.SIMPLE,
                    simple_searcher "bar".toList⟩],
    status := 0, error_msg := [] }

/-! ## `boolean_searcher`: `searchers/boolean_searcher.hpp`, `searchers/boolean_searcher.cpp` -/

/-- The enum `boolean_node::Type`. -/
inductive NodeType where
  | WORD
  | NOT
  | AND
  | OR
deriving DecidableEq, Repr

/-- A `std::shared_ptr<boolean_node>`: either `nullptr` or a node with its `type`, `word` and
`children`. -/
inductive boolean_node where
  | null : boolean_node
  | node (type : NodeType) (word : List Char) (children : List boolean_node) : boolean_node
deriving Repr

/-- The constructor `boolean_node(const std::string& w)`. -/
def boolean_node.of_word (w : List Char) : boolean_node := .node .WORD w []

/-- The constructor `boolean_node(Type t)` followed by the assignment of `children`. -/
def boolean_node.of_type (t : NodeType) (children : List boolean_node) : boolean_node :=
  .node t [] children

/-- The enum `Token::Type` local to `build_pattern`. -/
inductive TokenType where
  | WORD
  | AND
  | OR
  | NOT
  | LPAREN
  | RPAREN
deriving DecidableEq, Repr

/-- The struct `Token` local to `build_pattern`. -/
structure Token where
  type : TokenType
  value : List Char
deriving DecidableEq, Repr

/-- The exceptions thrown inside `build_pattern`, one constructor per message; `fuel` is the
exhaustion of the fuel of the embedding, which the lemmas `tokenize_fuel` and `parse_fuel`
exclude. -/
inductive BuildError where
  | unmatched_quote
  | adjacent_quoted_words
  | adjacent_unquoted_words
  | not_needs_operand
  | paren_mismatch_after_not
  | paren_mismatch
  | operators_differ
  | extra_content
  | fuel
deriving DecidableEq, Repr

/-- The function `isspace` of the C locale. -/
def isspace (c : Char) : Bool :=
  c = ' ' || c = '\t' || c = '\n' || c = '\x0b' || c = '\x0c' || c = '\r'

/-- The lambda `trim`, first half: `s.substr(find_first_not_of(" \t\r\n"))`. -/
def trim_chars (c : Char) : Bool := c = ' ' || c = '\t' || c = '\r' || c = '\n'

/-- The lambda `trim` of `build_pattern`. -/
def trim (s : List Char) : List Char :=
  ((s.dropWhile trim_chars).reverse.dropWhile trim_chars).reverse

/-- The loop that reads a quoted word: `rest` is `src` from index `i`, `word` the accumulator.
Returns the word and the rest of `src` after the loop. -/
def quoted_word (quote : Char) : List Char → List Char → List Char × List Char
  | [], word => (word, [])
  | [c], word =>
    if c = quote then (word, [])
    else quoted_word quote [] (word ++ [c])
  | c :: d :: rest, word =>
    if c = '\\' then quoted_word quote rest (word ++ [d])
    else if c = quote then (word, d :: rest)
    else quoted_word quote (d :: rest) (word ++ [c])

/-- The loop that reads an unquoted word. -/
def unquoted_word : List Char → List Char → List Char × List Char
  | [], word => (word, [])
  | [c], word =>
    if !isspace c && c != '(' && c != ')' && c != '\'' && c != '"' then
      unquoted_word [] (word ++ [c])
    else (word, [c])
  | c :: d :: rest, word =>
    if !isspace c && c != '(' && c != ')' && c != '\'' && c != '"' then
      if c = '\\' then unquoted_word rest (word ++ [d])
      else unquoted_word (d :: rest) (word ++ [c])
    else (word, c :: d :: rest)

/-- The test that follows an operator name: `i+k == n || isspace(src[i+k]) || src[i+k] == '(' ||
src[i+k] == ')'`, on the rest of `src` from index `i+k`. -/
def operator_end : List Char → Bool
  | [] => true
  | c :: _ => isspace c || c = '(' || c = ')'

/-- The test `!tokens.empty() && tokens.back().type == Token::WORD`. -/
def back_is_word (tokens : List Token) : Bool :=
  match tokens.getLast? with
  | some t => t.type = TokenType.WORD
  | none => false

/-- The lambda `tokenize`: `last` is `src[n-1]`, the list argument is `src` from index `i`. -/
def tokenize_loop (last : Option Char) :
    Nat → List Char → List Token → Except BuildError (List Token)
  | _, [], tokens => .ok tokens
  | 0, _ :: _, _ => .error .fuel
  | fuel + 1, c :: rest, tokens =>
    if isspace c then tokenize_loop last fuel rest tokens
    else if c = '(' then tokenize_loop last fuel rest (tokens ++ [⟨.LPAREN, ['(']⟩])
    else if c = ')' then tokenize_loop last fuel rest (tokens ++ [⟨.RPAREN, [')']⟩])
    else if c = '\'' || c = '"' then
      let r := quoted_word c rest []
      if r.2 = [] && last != some c then .error .unmatched_quote
      else if r.1 != [] then
        if back_is_word tokens then .error .adjacent_quoted_words
        else tokenize_loop last fuel r.2 (tokens ++ [⟨.WORD, r.1⟩])
      else tokenize_loop last fuel r.2 tokens
    else if 2 < (c :: rest).length && (c :: rest).take 3 = ['A', 'N', 'D']
        && operator_end ((c :: rest).drop 3) then
      tokenize_loop last fuel ((c :: rest).drop 3) (tokens ++ [⟨.AND, ['A', 'N', 'D']⟩])
    else if 1 < (c :: rest).length && (c :: rest).take 2 = ['O', 'R']
        && operator_end ((c :: rest).drop 2) then
      tokenize_loop last fuel ((c :: rest).drop 2) (tokens ++ [⟨.OR, ['O', 'R']⟩])
    else if 2 < (c :: rest).length && (c :: rest).take 3 = ['N', 'O', 'T']
        && operator_end ((c :: rest).drop 3) then
      tokenize_loop last fuel ((c :: rest).drop 3) (tokens ++ [⟨.NOT, ['N', 'O', 'T']⟩])
    else
      let r := unquoted_word (c :: rest) []
      if r.1 != [] then
        if back_is_word tokens then .error .adjacent_unquoted_words
        else tokenize_loop last fuel r.2 (tokens ++ [⟨.WORD, r.1⟩])
      else tokenize_loop last fuel r.2 tokens

/-- The call `tokenize(src, tokens)` with `tokens` empty. -/
def tokenize (src : List Char) : Except BuildError (List Token) :=
  tokenize_loop src.getLast? src.length src []

/-- The end of the lambda `parse_expr`: "Combine nodes and ops into a tree". -/
def combine (nodes : List boolean_node) (ops : List NodeType) : Except BuildError boolean_node :=
  match nodes with
  | [] => .ok .null
  | [n] => .ok n
  | _ :: _ :: _ =>
    match ops with
    | [] => .ok (.of_type .AND nodes)
    | op0 :: rest =>
      if rest.all (fun op => op = op0) then .ok (.of_type op0 nodes)
      else .error .operators_differ

/-- The lambda `parse_expr(tokens, pos)`: the token list is `tokens` from index `pos`, `nodes`
and `ops` are the local vectors of the running invocation. Returns the node and `tokens` from
the final value of `pos`. -/
def parse_expr : Nat → List Token → List boolean_node → List NodeType →
    Except BuildError (boolean_node × List Token)
  | _, [], nodes, ops =>
    match combine nodes ops with
    | .error e => .error e
    | .ok n => .ok (n, [])
  | 0, _ :: _, _, _ => .error .fuel
  | fuel + 1, tok :: rest, nodes, ops =>
    match tok.type with
    | .WORD => parse_expr fuel rest (nodes ++ [.of_word tok.value]) ops
    | .NOT =>
      match rest with
      | [] => .error .not_needs_operand
      | tok2 :: rest2 =>
        match tok2.type with
        | .WORD =>
          parse_expr fuel rest2 (nodes ++ [.of_type .NOT [.of_word tok2.value]]) ops
        | .LPAREN =>
          match parse_expr fuel rest2 [] [] with
          | .error e => .error e
          | .ok (child, rest3) =>
            match rest3 with
            | [] => .error .paren_mismatch_after_not
            | tok3 :: rest4 =>
              if tok3.type = .RPAREN then
                parse_expr fuel rest4 (nodes ++ [.of_type .NOT [child]]) ops
              else .error .paren_mismatch_after_not
        | _ => .error .not_needs_operand
    | .AND => parse_expr fuel rest nodes (ops ++ [.AND])
    | .OR => parse_expr fuel rest nodes (ops ++ [.OR])
    | .LPAREN =>
      match parse_expr fuel rest [] [] with
      | .error e => .error e
      | .ok (sub, rest3) =>
        match rest3 with
        | [] => .error .paren_mismatch
        | tok3 :: rest4 =>
          if tok3.type = .RPAREN then parse_expr fuel rest4 (nodes ++ [sub]) ops
          else .error .paren_mismatch
    | .RPAREN =>
      match combine nodes ops with
      | .error e => .error e
      | .ok n => .ok (n, tok :: rest)

/-- The method `boolean_searcher::build_pattern`: the value stored in `pattern_` on success,
the cause of the exception otherwise. -/
def build_pattern (pattern : List Char) : Except BuildError boolean_node :=
  match tokenize (trim pattern) with
  | .error e => .error e
  | .ok tokens =>
    match parse_expr tokens.length tokens [] [] with
    | .error e => .error e
    | .ok (root, rest) => if rest = [] then .ok root else .error .extra_content

mutual
/-- The lambda `match_node(node, out)` of `boolean_searcher::search_line`: the result and the
final value of `out`. -/
def match_node (line : List Char) (with_res : Bool) :
    boolean_node → List matched_word → Bool × List matched_word
  | .null, out => (false, out)
  | .node .WORD word _, out =>
    match find line word with
    | some pos => (true, if with_res then out ++ [⟨word, pos⟩] else out)
    | none => (false, out)
  | .node .NOT _ children, out =>
    match children with
    | [] => (false, out)
    | child :: _ => (!(match_node line with_res child []).1, out)
  | .node .AND _ children, out =>
    match match_and line with_res children [] with
    | some tmp => (true, out ++ tmp)
    | none => (false, out)
  | .node .OR _ children, out => match_or line with_res children out
/-- The loop of the `AND` case: `tmp` after the loop, `none` when a child fails. -/
def match_and (line : List Char) (with_res : Bool) :
    List boolean_node → List matched_word → Option (List matched_word)
  | [], tmp => some tmp
  | child :: rest, tmp =>
    match match_node line with_res child [] with
    | (true, child_matched) => match_and line with_res rest (tmp ++ child_matched)
    | (false, _) => none
/-- The loop of the `OR` case. -/
def match_or (line : List Char) (with_res : Bool) :
    List boolean_node → List matched_word → Bool × List matched_word
  | [], out => (false, out)
  | child :: rest, out =>
    match match_node line with_res child out with
    | (true, out2) => (true, out2)
    | (false, out2) => match_or line with_res rest out2
end

/-- The method `boolean_searcher::search_line` for the stored `pattern_`. -/
def search_line (pattern_ : boolean_node) (line : List Char) (matched : List matched_word)
    (with_res : Bool) : Bool × List matched_word :=
  match_node line with_res pattern_ (if with_res then [] else matched)

/-- A `boolean_searcher` whose `pattern_` is `root`. -/
def boolean_searcher (root : boolean_node) : base_searcher :=
  ⟨SearchType.BOOL, search_line root⟩

mutual
/-- The recursive truth value that the specification gives to a tree on a line: a `WORD` is
true iff its word occurs in the line, a `NOT` is the negation of its child, an `AND` is true
iff all children are, an `OR` iff at least one child is. An absent subtree (an empty pair of
parentheses) is false. -/
def truth_value (line : List Char) : boolean_node → Bool
  | .null => false
  | .node .WORD word _ => decide (word <:+: line)
  | .node .NOT _ [child] => !truth_value line child
  | .node .NOT _ _ => false
  | .node .AND _ children => truth_all line children
  | .node .OR _ children => truth_any line children
/-- All the nodes of a list are true. -/
def truth_all (line : List Char) : List boolean_node → Bool
  | [] => true
  | child :: rest => truth_value line child && truth_all line rest
/-- One node of a list is true. -/
def truth_any (line : List Char) : List boolean_node → Bool
  | [] => false
  | child :: rest => truth_value line child || truth_any line rest
end

mutual
/-- The shape of the trees that `parse_expr` builds: every `NOT` node has exactly one child. -/
def well_formed : boolean_node → Bool
  | .null => true
  | .node .NOT _ [child] => well_formed child
  | .node .NOT _ _ => false
  | .node _ _ children => well_formed_all children
/-- Every node of a list is well formed. -/
def well_formed_all : List boolean_node → Bool
  | [] => true
  | child :: rest => well_formed child && well_formed_all rest
end

/-- A character that may stand in a bareword of a boolean pattern: not white space, not a
parenthesis, not a quote. -/
def word_char (c : Char) : Bool :=
  !isspace c && c != '(' && c != ')' && c != '\'' && c != '"'

/-- A bareword of a boolean pattern: a non-empty word of word characters that is not one of
the keywords `AND`, `OR`, `NOT`. -/
def bareword (w : List Char) : Prop :=
  w ≠ [] ∧ (∀ c ∈ w, word_char c = true) ∧
  w ≠ ['A', 'N', 'D'] ∧ w ≠ ['O', 'R'] ∧ w ≠ ['N', 'O', 'T']

/-- The pattern `(A AND B) OR NOT C`. -/
def and_or_not_pattern (A B C : List Char) : List Char :=
  '(' :: (A ++ (" AND ".toList ++ (B ++ (") OR NOT ".toList ++ C))))

/-- The syntax of what stands at one nesting level of a boolean pattern, as far as the types
of the tokens show it: words, negated words, operators, and parenthesised groups (negated or
not) that hold a nesting level of their own. -/
inductive Item where
  | word : Item
  | not_word : Item
  | and_op : Item
  | or_op : Item
  | group (items : List Item) : Item
  | not_group (items : List Item) : Item

mutual
/-- The token types an item is written with. -/
def Item.render : Item → List TokenType
  | .word => [.WORD]
  | .not_word => [.NOT, .WORD]
  | .and_op => [.AND]
  | .or_op => [.OR]
  | .group items => .LPAREN :: (render_level items ++ [.RPAREN])
  | .not_group items => .NOT :: .LPAREN :: (render_level items ++ [.RPAREN])
/-- The token types a nesting level is written with. -/
def render_level : List Item → List TokenType
  | [] => []
  | item :: rest => item.render ++ render_level rest
end

/-- The number of operands that stand at a nesting level. -/
def operands : List Item → Nat
  | [] => 0
  | .and_op :: rest => operands rest
  | .or_op :: rest => operands rest
  | _ :: rest => operands rest + 1

/-- The operators that stand at a nesting level, in order. -/
def level_ops : List Item → List NodeType
  | [] => []
  | .and_op :: rest => .AND :: level_ops rest
  | .or_op :: rest => .OR :: level_ops rest
  | _ :: rest => level_ops rest

/-- What may stand before a nesting level: nothing (top level) or tokens that end with an
opening parenthesis. -/
def opens_level (pre : List TokenType) : Prop := pre = [] ∨ pre.getLast? = some .LPAREN

/-- What may stand after a nesting level: nothing or tokens that start with a closing
parenthesis. -/
def closes_level (post : List TokenType) : Prop := post = [] ∨ post.head? = some .RPAREN

/-- The list `items` is one nesting level of the token sequence: the whole sequence between
the start or an opening parenthesis and the end or the closing parenthesis that follows. -/
def is_level (tokens : List Token) (items : List Item) : Prop :=
  ∃ pre post, tokens.map (fun t => t.type) = pre ++ (render_level items ++ post) ∧
    opens_level pre ∧ closes_level post

/-- Two different operators stand in a list of operators. -/
def mixed_ops (ops : List NodeType) : Prop := ∃ a ∈ ops, ∃ b ∈ ops, a ≠ b

/-- The shape of a result `r` of `parse_expr` on tokens of the types `tokens`, started with
the operators `ops` already read at its level: a returned position stands at the end of a
nesting level, and the exception "operators must be the same" comes from a nesting level whose
operators differ, the running one or one further on behind an opening parenthesis. -/
def level_shape (tokens : List TokenType) (ops : List NodeType)
    (r : Except BuildError (boolean_node × List Token)) : Prop :=
  (∀ n rest, r = .ok (n, rest) →
    ∃ items, tokens = render_level items ++ rest.map (fun t => t.type) ∧
      closes_level (rest.map (fun t => t.type))) ∧
  (r = .error .operators_differ →
    (∃ items post, tokens = render_level items ++ post ∧ closes_level post ∧
      mixed_ops (ops ++ level_ops items)) ∨
    (∃ pre items post, tokens = pre ++ (render_level items ++ post) ∧
      pre.getLast? = some .LPAREN ∧ closes_level post ∧ mixed_ops (level_ops items)))

/-! ## `FileIndexer`: `indexer.hpp`, `indexer.cpp` -/

/-- The struct `TimeIndex`. -/
structure TimeIndex where
  timestamp : Nat
  offset : Nat
deriving DecidableEq, Repr

/-- The struct `FileIndex`. -/
structure FileIndex where
  index_etag : List Char := []
  last_index_time : Int := 0
  time_indexes : List TimeIndex := []
deriving DecidableEq, Repr

/-- A `std::regex` object: default-constructed, or compiled from a pattern. -/
inductive regex where
  | default_constructed : regex
  | compiled (pattern : List Char) : regex
deriving DecidableEq, Repr

/-- The struct `RootPath`, with the members `prefix_pattern` and `prefix_regex` that
`indexer.cpp` reads and writes. -/
structure RootPath where
  path : List Char := []
  path_pattern : List Char := []
  filename_pattern : List Char := []
  time_format_pattern : List Char := []
  prefix_pattern : List Char := []
  path_regex : regex := .default_constructed
  filename_regex : regex := .default_constructed
  time_format_regex : regex := .default_constructed
  prefix_regex : regex := .default_constructed
  max_days : Int := 30
deriving DecidableEq, Repr

/-- The struct `FileInfo`. -/
structure FileInfo where
  name : List Char := []
  dir : List Char := []
  fullpath : List Char := []
  size : Nat := 0
  mtime : Int := 0
  file_type : List Char := []
  etag : List Char := []
  inode : Nat := 0
  file_index : Option FileIndex := none
  root_path : RootPath := {}
deriving DecidableEq, Repr

/-- The struct `time_format`. The compiled `regex_pattern` is represented by what
`std::regex_search` finds with it in a string (`matches[0]` of the leftmost match), and
`parse` is `date::parse(format, tp)` on a string: the seconds since the epoch of the parsed
time point, or `none` when the stream fails. -/
structure time_format where
  format : List Char
  regex_search : List Char → Option (List Char)
  parse : List Char → Option Int

/-- The members of the class `FileIndexer` that the index builders read. The interval is
positive: the builders divide by it. -/
structure FileIndexer where
  time_formats_ : List time_format
  index_interval_seconds_ : Nat
  index_count_threshold_ : Nat

/-- The loop of `get_timestamp_from_log_line` over `time_formats_` for the first 50 bytes
`pre50` of the line. -/
def get_timestamp_loop (pre50 : List Char) : List time_format → Int
  | [] => 0
  | tf :: rest =>
    match tf.regex_search pre50 with
    | some matched_time =>
      match tf.parse matched_time with
      | some secs => secs
      | none => get_timestamp_loop pre50 rest
    | none => get_timestamp_loop pre50 rest

/-- The method `FileIndexer::get_timestamp_from_log_line` (both overloads). -/
def FileIndexer.get_timestamp_from_log_line (ix : FileIndexer) (line : List Char) : Int :=
  get_timestamp_loop (line.take 50) ix.time_formats_

/-- The conversion `static_cast<uint64_t>` of a `std::time_t`. -/
def to_uint64 (x : Int) : Nat := (x % 2 ^ 64).toNat

/-- The conversion `static_cast<std::time_t>` of a `uint64_t`. -/
def to_time_t (n : Nat) : Int :=
  if n % 2 ^ 64 < 2 ^ 63 then (n % 2 ^ 64 : Nat) else (n % 2 ^ 64 : Nat) - 2 ^ 64

/-- The bucket `ts - (ts % interval)` of a time stamp; `%` of C++ truncates towards zero. -/
def FileIndexer.bucket (ix : FileIndexer) (ts : Int) : Int :=
  ts - Int.tmod ts ix.index_interval_seconds_

/-- The local variables of `update_file_index_txt_mmap` during its loop; `line_start` is the
offset `line_start - data`. -/
structure IndexState where
  entries : List TimeIndex
  last_recorded_bucket : Int
  lines_since_last : Nat
  skipped_lines : Nat
  last_line : List Char
  last_offset : Nat
  line_start : Nat
deriving DecidableEq, Repr

/-- The call `memchr(line_start, '\n', end - line_start)` on the bytes from `line_start` to
`end`: the distance `line_end - line_start`, `none` for a null pointer. -/
def memchr_newline : List Char → Option Nat
  | [] => none
  | c :: rest => if c = '\n' then some 0 else (memchr_newline rest).map (· + 1)

/-- The body of the loop of `update_file_index_txt_mmap` for a line that ends with `'\n'`. -/
def index_line (ix : FileIndexer) (st : IndexState) (line : List Char) : IndexState :=
  let offset := st.line_start
  let ts := ix.get_timestamp_from_log_line line
  if ts = 0 then
    { st with last_line := line, last_offset := offset,
              skipped_lines := st.skipped_lines + 1,
              line_start := st.line_start + line.length + 1 }
  else
    let bucket := ix.bucket ts
    if st.last_recorded_bucket = 0 ∨
        bucket ≥ st.last_recorded_bucket + ix.index_interval_seconds_ ∨
        st.lines_since_last ≥ ix.index_count_threshold_ then
      { st with last_line := line, last_offset := offset,
                entries := st.entries ++ [⟨to_uint64 bucket, offset⟩],
                last_recorded_bucket := bucket,
                lines_since_last := 0 + 1,
                line_start := st.line_start + line.length + 1 }
    else
      { st with last_line := line, last_offset := offset,
                lines_since_last := st.lines_since_last + 1,
                line_start := st.line_start + line.length + 1 }

/-- The loop `while (line_start < end)` of `update_file_index_txt_mmap`; `rest` holds the
bytes from `line_start` to `end`. A last line without `'\n'` leaves the loop unread. -/
def index_loop (ix : FileIndexer) : Nat → List Char → IndexState → IndexState
  | 0, _, st => st
  | fuel + 1, rest, st =>
    match rest with
    | [] => st
    | _ :: _ =>
      match memchr_newline rest with
      | none => st
      | some n => index_loop ix fuel (rest.drop (n + 1)) (index_line ix st (rest.take n))

/-- The block "add the last index entry" of `update_file_index_txt_mmap`: the final value of
`entries`. -/
def final_entries (ix : FileIndexer) (st : IndexState) : List TimeIndex :=
  if st.entries ≠ [] ∧ st.last_line ≠ [] then
    let offset := if st.line_start ≠ 0 then st.last_offset else 0
    let bucket := ix.get_timestamp_from_log_line st.last_line
    if bucket ≠ 0 then st.entries ++ [⟨to_uint64 bucket, offset⟩] else st.entries
  else st.entries

/-- The local variables of `update_file_index_txt_mmap` as they are declared. -/
def scratch_state : IndexState :=
  { entries := [], last_recorded_bucket := 0, lines_since_last := 0, skipped_lines := 0,
    last_line := [], last_offset := 0, line_start := 0 }

/-- The state before the loop of `update_file_index_txt_mmap`: from scratch, or resumed from
the last entry of an existing index when its offset lies inside the file. -/
def initial_state (file_size : Nat) (file_index : Option FileIndex) : IndexState :=
  match file_index with
  | none => scratch_state
  | some fi =>
    match fi.time_indexes.getLast? with
    | none => scratch_state
    | some last_index =>
      if last_index.offset < file_size then
        { scratch_state with line_start := last_index.offset,
                             entries := fi.time_indexes.dropLast,
                             last_recorded_bucket := to_time_t last_index.timestamp }
      else scratch_state

/-- The entries that `update_file_index_txt_mmap` computes for the content `data` of a mapped
file. -/
def txt_entries (ix : FileIndexer) (data : List Char) (file_index : Option FileIndex) :
    List TimeIndex :=
  let st0 := initial_state data.length file_index
  final_entries ix (index_loop ix data.length (data.drop st0.line_start) st0)

/-- The method `FileIndexer::update_file_index_txt_mmap`; `file` is the content of the file
at `path`, `none` when it cannot be opened. Mapping an empty file fails. -/
def update_file_index_txt_mmap (ix : FileIndexer) (file : Option (List Char))
    (file_info : FileInfo) : FileInfo :=
  match file with
  | none => file_info
  | some data =>
    if data = [] then file_info
    else
      { file_info with
        file_index := some { (file_info.file_index.getD {}) with
          time_indexes := txt_entries ix data file_info.file_index } }

/-- Indexing a text file from scratch: the entries of the index that
`update_file_index_txt_mmap` stores for a file that has no index yet. -/
def index_from_scratch (ix : FileIndexer) (data : List Char) : List TimeIndex :=
  match (update_file_index_txt_mmap ix (some data) {}).file_index with
  | some fi => fi.time_indexes
  | none => []

/-! ### The first built-in time format -/

/-- The value of a decimal digit. -/
def digit_value (c : Char) : Nat := c.toNat - '0'.toNat

/-- Modelled from the spec: the regex `\d{4}-\d{2}-\d{2} \d{2}:\d{2}:\d{2}` of the first
built-in pattern (the regex engine is a library outside `src/`); whether a string starts with
a match. -/
def ymd_hms_at : List Char → Bool
  | y1 :: y2 :: y3 :: y4 :: a :: m1 :: m2 :: b :: d1 :: d2 :: sp :: h1 :: h2 :: c1 :: n1 :: n2
      :: c2 :: s1 :: s2 :: _ =>
    y1.isDigit && y2.isDigit && y3.isDigit && y4.isDigit && a = '-' && m1.isDigit && m2.isDigit
      && b = '-' && d1.isDigit && d2.isDigit && sp = ' ' && h1.isDigit && h2.isDigit
      && c1 = ':' && n1.isDigit && n2.isDigit && c2 = ':' && s1.isDigit && s2.isDigit
  | _ => false

/-- Modelled from the spec: `std::regex_search` with the regex of the first built-in pattern:
the leftmost match. -/
def ymd_hms_search : List Char → Option (List Char)
  | [] => none
  | c :: rest =>
    if ymd_hms_at (c :: rest) then some ((c :: rest).take 19) else ymd_hms_search rest

/-- Modelled from the spec: the number of days from 1970-01-01 to a day of the proleptic
Gregorian calendar (the date library is outside `src/`). -/
def days_from_civil (y m d : Nat) : Int :=
  let y2 : Int := if m ≤ 2 then (y : Int) - 1 else y
  let era : Int := Int.tdiv (if y2 ≥ 0 then y2 else y2 - 399) 400
  let yoe : Int := y2 - era * 400
  let mp : Int := if m > 2 then (m : Int) - 3 else (m : Int) + 9
  let doy : Int := Int.tdiv (153 * mp + 2) 5 + d - 1
  let doe : Int := yoe * 365 + Int.tdiv yoe 4 - Int.tdiv yoe 100 + doy
  era * 146097 + doe - 719468

/-- Modelled from the spec: the number of days of a month. -/
def last_day_of_month (y m : Nat) : Nat :=
  if m = 2 then (if y % 4 = 0 ∧ (y % 100 ≠ 0 ∨ y % 400 = 0) then 29 else 28)
  else if m = 4 ∨ m = 6 ∨ m = 9 ∨ m = 11 then 30 else 31

/-- Modelled from the spec: `date::parse("%Y-%m-%d %H:%M:%S", tp)` on a match of the regex:
the seconds since the epoch (the time is read as UTC), or `none` for an invalid date or
time. -/
def ymd_hms_parse : List Char → Option Int
  | [y1, y2, y3, y4, _, m1, m2, _, d1, d2, _, h1, h2, _, n1, n2, _, s1, s2] =>
    let y := digit_value y1 * 1000 + digit_value y2 * 100 + digit_value y3 * 10 + digit_value y4
    let m := digit_value m1 * 10 + digit_value m2
    let d := digit_value d1 * 10 + digit_value d2
    let h := digit_value h1 * 10 + digit_value h2
    let n := digit_value n1 * 10 + digit_value n2
    let s := digit_value s1 * 10 + digit_value s2
    if 1 ≤ m ∧ m ≤ 12 ∧ 1 ≤ d ∧ d ≤ last_day_of_month y m ∧ h ≤ 23 ∧ n ≤ 59 ∧ s ≤ 59 then
      some (days_from_civil y m d * 86400 + h * 3600 + n * 60 + s)
    else none
  | _ => none

/-- Modelled from the spec: the first entry `%Y-%m-%d %H:%M:%S` of `time_formats_`. -/
def ymd_hms_format : time_format :=
  { format := "%Y-%m-%d %H:%M:%S".toList, regex_search := ymd_hms_search,
    parse := ymd_hms_parse }

/-- An indexer with the first built-in time format and the given policy. -/
def indexer_with (interval threshold : Nat) : FileIndexer :=
  { time_formats_ := [ymd_hms_format], index_interval_seconds_ := interval,
    index_count_threshold_ := threshold }

/-- The file of scenario 1. -/
def scenario_file : List Char :=
  ("2025-01-01 00:00:00 a\n" ++ "2025-01-01 00:04:59 b\n" ++ "2025-01-01 00:05:00 c\n"
    ++ "2025-01-01 01:00:00 d\n").toList

/-! ### Files as sequences of lines -/

/-- The content of a text file whose lines are `lines`, each one ended by `'\n'`. -/
def join_lines : List (List Char) → List Char
  | [] => []
  | line :: rest => line ++ '\n' :: join_lines rest

/-- The lines of a content that end with `'\n'`, and the bytes after the last `'\n'`. -/
def split_lines : List Char → List (List Char) × List Char
  | [] => ([], [])
  | c :: cs =>
    if c = '\n' then ([] :: (split_lines cs).1, (split_lines cs).2)
    else
      match (split_lines cs).1 with
      | [] => ([], c :: (split_lines cs).2)
      | line :: rest => ((c :: line) :: rest, (split_lines cs).2)

/-- The start offsets of the lines of a file, the first line starting at `off`. -/
def line_starts : Nat → List (List Char) → List Nat
  | _, [] => []
  | off, line :: rest => off :: line_starts (off + line.length + 1) rest

/-- The entries that the interval policy of the specification describes for the lines of a
file that all carry a time stamp: one for the first line, then one for each line whose bucket
is at least one interval past the bucket of the last emitted entry. `last` is the bucket of the
last emitted entry, `off` the offset of the first of the lines. -/
def interval_entries (ix : FileIndexer) : Option Int → Nat → List (List Char) → List TimeIndex
  | _, _, [] => []
  | none, off, line :: rest =>
    let b := ix.bucket (ix.get_timestamp_from_log_line line)
    ⟨to_uint64 b, off⟩ :: interval_entries ix (some b) (off + line.length + 1) rest
  | some lb, off, line :: rest =>
    let b := ix.bucket (ix.get_timestamp_from_log_line line)
    if b ≥ lb + ix.index_interval_seconds_ then
      ⟨to_uint64 b, off⟩ :: interval_entries ix (some b) (off + line.length + 1) rest
    else interval_entries ix (some lb) (off + line.length + 1) rest

/-- The count threshold is never reached where it could make an entry: at each line to which
the interval policy gives no entry, the number `n` of lines read since the last emitted entry
(the line of that entry included) is below `index_count_threshold_`. At the first line and at
a line whose bucket is at least one interval past the last emitted bucket the entry is made
in any case and the count starts again. `last` is the bucket of the last emitted entry, as
in `interval_entries`. -/
def threshold_not_reached (ix : FileIndexer) : Option Int → Nat → List (List Char) → Bool
  | _, _, [] => true
  | none, _, line :: rest =>
    threshold_not_reached ix (some (ix.bucket (ix.get_timestamp_from_log_line line))) 1 rest
  | some lb, n, line :: rest =>
    let b := ix.bucket (ix.get_timestamp_from_log_line line)
    if b ≥ lb + ix.index_interval_seconds_ then threshold_not_reached ix (some b) 1 rest
    else decide (n < ix.index_count_threshold_) && threshold_not_reached ix (some lb) (n + 1) rest

/-- The entries that the count policy of the specification describes for lines that all
carry the bucket `b`: the line number `i` (counted from 0) has an entry iff `i` is a multiple
of the threshold, so that an entry follows each time `threshold` lines have accumulated since
the last one (with threshold 0, every line has an entry). `starts` holds the start offsets of
the lines from number `i` on. -/
def threshold_entries (b threshold : Nat) : Nat → List Nat → List TimeIndex
  | _, [] => []
  | i, off :: rest =>
    if threshold = 0 ∨ threshold ∣ i then ⟨b, off⟩ :: threshold_entries b threshold (i + 1) rest
    else threshold_entries b threshold (i + 1) rest

/-! ### Offsets and lines of a content -/

/-- The offset `o` is the start of a line of `data`: it is 0 or the byte before it is a
newline. -/
def is_line_start (data : List Char) (o : Nat) : Prop :=
  o = 0 ∨ (0 < o ∧ data[o - 1]? = some '\n')

instance (data : List Char) (o : Nat) : Decidable (is_line_start data o) := by
  unfold is_line_start; exact inferInstance

/-- The line of `data` that starts at the offset `o`, without its newline. -/
def line_at (data : List Char) (o : Nat) : List Char :=
  (data.drop o).takeWhile (fun c => c != '\n')

/-! ### `update_file_index_igzip` -/

/-- What one round of the loop `while (!done)` of `update_file_index_igzip` gets from the file
and from the inflate library once input is available: either `isal_inflate` fails, or it
returns `ISAL_DECOMP_OK` after writing `bytes` (at most `OUT_BUF_SIZE` of them, possibly none)
to the output buffer; `finish` tells whether the block state is then `ISAL_BLOCK_FINISH`, and
`next_member` whether another gzip member follows whose header is read without error. The end
of the list of rounds is the end of the file (`read` returns 0 when input is needed). -/
inductive InflateRound where
  | failed : InflateRound
  | output (bytes : List Char) (finish : Bool) (next_member : Bool) : InflateRound
deriving DecidableEq, Repr

/-- The constant `OUT_BUF_SIZE` of `update_file_index_igzip`. -/
def OUT_BUF_SIZE : Nat := 16 * 1024

/-- The local variables of `update_file_index_igzip` during its loop. The `string_view`
`last_line` is represented by the bytes it viewed when it was assigned. -/
structure GzState where
  carry : List Char
  entries : List TimeIndex
  total_uncompressed : Nat
  last_recorded_bucket : Int
  lines_since_last : Nat
  skipped_lines : Nat
  last_offset : Nat
  last_bucket : Int
  last_line : List Char
deriving DecidableEq, Repr

/-- The body of the inner loop of `update_file_index_igzip` for the line `line` that starts at
the offset `line_start_offset` of the uncompressed stream. -/
def igzip_line (ix : FileIndexer) (st : GzState) (line_start_offset : Nat) (line : List Char) :
    GzState :=
  let ts := ix.get_timestamp_from_log_line line
  if ts = 0 then { st with skipped_lines := st.skipped_lines + 1 }
  else
    let bucket := ix.bucket ts
    if st.last_recorded_bucket = 0 then
      { st with last_bucket := bucket, last_offset := line_start_offset, last_line := line,
                entries := st.entries ++ [⟨to_uint64 bucket, line_start_offset⟩],
                last_recorded_bucket := bucket, lines_since_last := 0 }
    else if bucket ≥ st.last_recorded_bucket + ix.index_interval_seconds_ ∨
        st.lines_since_last + 1 ≥ ix.index_count_threshold_ then
      { st with last_bucket := bucket, last_offset := line_start_offset, last_line := line,
                entries := st.entries ++ [⟨to_uint64 bucket, line_start_offset⟩],
                last_recorded_bucket := bucket, lines_since_last := 0 }
    else
      { st with last_bucket := bucket, last_offset := line_start_offset, last_line := line,
                lines_since_last := st.lines_since_last + 1 }

/-- The inner loop `while (true)` of `update_file_index_igzip` over the lines of `carry`:
`rest` holds `carry` from the index `pos`. Returns the state and the final value of `pos`
(`processed_up_to`). The offsets are `uint64_t` values. -/
def igzip_lines (ix : FileIndexer) (base_offset : Nat) :
    Nat → List Char → Nat → GzState → GzState × Nat
  | 0, _, pos, st => (st, pos)
  | fuel + 1, rest, pos, st =>
    match memchr_newline rest with
    | none => (st, pos)
    | some n =>
      igzip_lines ix base_offset fuel (rest.drop (n + 1)) (pos + n + 1)
        (igzip_line ix st ((base_offset + pos) % 2 ^ 64) (rest.take n))

/-- One round of the loop of `update_file_index_igzip` after `isal_inflate` has returned
`ISAL_DECOMP_OK` with `bytes` written behind the carry. The carry is first resized by
`OUT_BUF_SIZE` and is cut back to the bytes written only when there are some. -/
def igzip_round (ix : FileIndexer) (st : GzState) (bytes : List Char) : GzState :=
  if 0 < bytes.length then
    let carry := st.carry ++ bytes
    let previous_carry_size := carry.length - bytes.length
    let base_offset := (st.total_uncompressed + 2 ^ 64 - previous_carry_size % 2 ^ 64) % 2 ^ 64
    let r := igzip_lines ix base_offset (carry.length + 1) carry 0 st
    { r.1 with carry := carry.drop r.2,
               total_uncompressed := st.total_uncompressed + bytes.length }
  else
    { st with carry := st.carry ++ List.replicate OUT_BUF_SIZE '\x00' }

/-- The block "Last index entry" of `update_file_index_igzip`. The time stamp is read through
`last_line` after the carry it viewed has been reassigned; `stale` gives the bytes that are
found there. -/
def igzip_last_entry (ix : FileIndexer) (stale : List Char → List Char) (st : GzState) :
    GzState :=
  let last_bucket := ix.get_timestamp_from_log_line (stale st.last_line)
  { st with last_bucket := last_bucket,
            entries := st.entries ++ [⟨to_uint64 last_bucket, st.last_offset⟩] }

/-- The loop `while (!done)` of `update_file_index_igzip`. -/
def igzip_loop (ix : FileIndexer) (stale : List Char → List Char) :
    List InflateRound → GzState → GzState
  | [], st =>
    if st.entries ≠ [] ∧ st.last_offset ≠ 0 then igzip_last_entry ix stale st else st
  | .failed :: _, st => st
  | .output bytes finish next_member :: rest, st =>
    let st1 := igzip_round ix st bytes
    if finish then
      let st2 := if st1.entries ≠ [] ∧ st1.last_offset ≠ 0 ∧ 0 < bytes.length then
        igzip_last_entry ix stale st1 else st1
      if next_member then igzip_loop ix stale rest st2 else st2
    else igzip_loop ix stale rest st1

/-- The local variables of `update_file_index_igzip` as they are declared. -/
def gz_initial : GzState :=
  { carry := [], entries := [], total_uncompressed := 0, last_recorded_bucket := 0,
    lines_since_last := 0, skipped_lines := 0, last_offset := 0, last_bucket := 0,
    last_line := [] }

/-- The entries that `update_file_index_igzip` stores for a gzip file whose header is read
without error and whose decompression goes through the rounds `rounds`. -/
def igzip_entries (ix : FileIndexer) (stale : List Char → List Char)
    (rounds : List InflateRound) : List TimeIndex :=
  (igzip_loop ix stale rounds gz_initial).entries

/-- The uncompressed content that the rounds deliver. -/
def rounds_content : List InflateRound → List Char
  | [] => []
  | .failed :: _ => []
  | .output bytes _ _ :: rest => bytes ++ rounds_content rest

/-- The line `l` of `data` starts at the offset `o`: `o` is 0 or follows a newline, `l` holds
no newline and is followed by one. -/
def line_begins (data : List Char) (o : Nat) (l : List Char) : Prop :=
  ∃ before rest, data = before ++ (l ++ '\n' :: rest) ∧ before.length = o ∧
    (before = [] ∨ before.getLast? = some '\n') ∧ '\n' ∉ l

/-- The time stamps of the lines of a list that carry one, in order. -/
def stamps (ix : FileIndexer) (lines : List (List Char)) : List Int :=
  (lines.map ix.get_timestamp_from_log_line).filter (fun t => t != 0)

/-- The pending partial line of the failing run of `update_file_index_igzip`: a time-stamped
line that the first round of output leaves unfinished. -/
def pending_line : List Char :=
  "2025-01-01 00:10:00 request started, waiting for the".toList

/-- A run of `update_file_index_igzip` in which `isal_inflate` once returns without output
while a partial line is pending. -/
def padded_rounds : List InflateRound :=
  [.output ("2025-01-01 00:00:00 a\n".toList ++ pending_line) false false,
   .output [] false false,
   .output " backend\n2025-01-01 00:20:00 next\n".toList true false]

/-- Indexing a text file of content `old` from scratch and re-indexing it, starting from that
index, after `appended` has been appended: the entries of the second index. -/
def index_then_append (ix : FileIndexer) (old appended : List Char) : List TimeIndex :=
  match (update_file_index_txt_mmap ix (some (old ++ appended))
      (update_file_index_txt_mmap ix (some old) {})).file_index with
  | some fi => fi.time_indexes
  | none => []

/-- A round of `update_file_index_igzip` in which `isal_inflate`, when it succeeds, writes at
least one byte. -/
def yields_output : InflateRound → Prop
  | .failed => True
  | .output bytes _ _ => bytes ≠ []

/-- The invariant of the loop of `update_file_index_igzip` on the offsets: the entries are
sorted by offset, none lies behind `last_offset`, and `last_offset` does not lie behind the
offset `bound`. -/
def offsets_below (st : GzState) (bound : Nat) : Prop :=
  st.entries.Pairwise (fun a b => a.offset ≤ b.offset) ∧
  (∀ e ∈ st.entries, e.offset ≤ st.last_offset) ∧ st.last_offset ≤ bound

/-- The invariant of the outer loop of `update_file_index_igzip`: the carry is not longer
than the bytes uncompressed so far, and the offsets of the entries are sorted and do not lie
behind the offset at which the carry starts. -/
def gz_invariant (st : GzState) : Prop :=
  st.carry.length ≤ st.total_uncompressed ∧
  offsets_below st (st.total_uncompressed - st.carry.length)

/-! ## Ranged searcher: `LogSearcher::find_index_pos` -/

/-- The method `LogSearcher::timestamp_covers`. -/
def timestamp_covers (idx_satrt idx_end start_time end_time : Nat) : Bool :=
  decide (idx_satrt ≤ end_time) && decide (idx_end ≥ start_time)

/-- The loop of `find_index_pos` over the pairs `time_indexes[i]`, `time_indexes[i + 1]`,
from the index `i` on; `time_indexes` holds the entries from `i` on. The state is
`(start_idx, end_idx, be_fount)`. The indexes are `int` values; an index has fewer than
`2 ^ 31` entries. -/
def find_index_loop (start_time end_time : Nat) :
    List TimeIndex → Nat → Int × Int × Bool → Int × Int × Bool
  | a :: b :: rest, i, (start_idx, end_idx, be_fount) =>
    if timestamp_covers a.timestamp b.timestamp start_time end_time then
      find_index_loop start_time end_time (b :: rest) (i + 1)
        (if (i : Int) < start_idx then (i : Int) else start_idx,
         if (i : Int) + 1 > end_idx then (i : Int) + 1 else end_idx, true)
    else
      find_index_loop start_time end_time (b :: rest) (i + 1) (start_idx, end_idx, be_fount)
  | _, _, s => s

/-- The method `LogSearcher::find_index_pos` on a non-null context; `index_file_info` is
`ctx->index_file_info`, `none` for a null pointer. -/
def find_index_pos (index_file_info : Option FileInfo) (ctx : SearchContext) :
    Bool × SearchContext :=
  match index_file_info with
  | none => (false, ctx)
  | some info =>
    match info.file_index with
    | none => (false, ctx)
    | some file_index =>
      let time_indexes := file_index.time_indexes
      if time_indexes = [] then (false, ctx)
      else
        let r := find_index_loop ctx.start_time ctx.end_time time_indexes 0
          (0x7FFFFFFF, -1, false)
        if !r.2.2 || r.1 = 0x7FFFFFFF || r.2.1 = -1 then (false, ctx)
        else
          match time_indexes[r.1.toNat]?, time_indexes[r.2.1.toNat]? with
          | some s, some e =>
            (true, { ctx with index_start_time := s.timestamp, index_start_pos := s.offset,
                              index_end_time := e.timestamp, index_end_pos := e.offset })
          | _, _ => (false, ctx)

/-- The pair of entries `k`, `k + 1` of an index overlaps the window: the property that
`timestamp_covers` tests. -/
def pair_overlaps (entries : List TimeIndex) (start_time end_time k : Nat) : Prop :=
  ∃ a b, entries[k]? = some a ∧ entries[k + 1]? = some b ∧
    a.timestamp ≤ end_time ∧ b.timestamp ≥ start_time

/-- A file info that carries the index `entries`. -/
def info_with (entries : List TimeIndex) : FileInfo :=
  { file_index := some { time_indexes := entries } }

/-- A search context for the window from `start_time` to `end_time`, as `LogSearcher::search`
creates it before `build_searchers`. -/
def context_for (path : List Char) (start_time end_time : Nat) : SearchContext :=
  { path := path, start_time := start_time, end_time := end_time,
    index_start_pos := 0, index_end_pos := 0, tmp_line := ⟨0, []⟩, log_lines := [],
    matched_lines := [], searchers := [], status := 0, error_msg := [] }

/-! ## Ranged searcher: record assembly and the search of one file -/

/-- The block `if (!ctx->tmp_line.line.empty())` of `parse_line`, `search_file_txt` and
`search_file_gzip`: the pending record is moved to the batch. -/
def push_pending (ctx : SearchContext) : SearchContext :=
  if ctx.tmp_line.line ≠ [] then
    { ctx with
      log_lines := ctx.log_lines ++ [⟨ctx.tmp_line.timestamp, ctx.tmp_line.line⟩],
      tmp_line := { ctx.tmp_line with line := [] } }
  else ctx

/-- The method `LogSearcher::parse_line` with an indexer that is not null. The time stamp is a
`std::time_t` and is compared with the `uint64_t` bounds of the window after conversion to
`uint64_t`. -/
def parse_line (ix : FileIndexer) (ctx : SearchContext) (line : List Char) :
    Bool × SearchContext :=
  let ts := ix.get_timestamp_from_log_line line
  if ts = 0 then
    if ctx.tmp_line.line ≠ [] then
      (true, { ctx with
        tmp_line := { ctx.tmp_line with line := ctx.tmp_line.line ++ '\n' :: line } })
    else (true, ctx)
  else
    if to_uint64 ts < ctx.start_time then (true, ctx)
    else
      let ctx1 := push_pending ctx
      if to_uint64 ts > ctx.end_time then (true, ctx1)
      else (true, { ctx1 with tmp_line := ⟨to_uint64 ts, line⟩ })

/-- The macro `MAX_BATCH_MATCHES`. -/
def MAX_BATCH_MATCHES : Nat := 500

/-- How the block that searches a full batch ends. -/
inductive BatchResult where
  | not_full
  | searched
  | failed
  | capped
deriving DecidableEq, Repr

/-- The block `if (ctx->log_lines.size() >= MAX_BATCH_MATCHES)` that the loops of
`search_file_txt` and `search_file_gzip` share: the searchers run on the batch, the batch is
emptied, and the block reports a failure of `exec_searchers` or that `matched_lines` has
reached `req->max_results`. -/
def batch_step (ctx : SearchContext) : BatchResult × SearchContext :=
  if ctx.log_lines.length ≥ MAX_BATCH_MATCHES then
    let e := exec_searchers ctx
    let ctx2 : SearchContext := { e.2 with log_lines := [] }
    if !e.1 then
      (.failed, { ctx2 with error_msg := "Failed to execute searchers for file".toList,
                            status := 1 })
    else if ctx2.matched_lines.length ≥ ctx2.req.max_results then (.capped, ctx2)
    else (.searched, ctx2)
  else (.not_full, ctx)

/-- The code after the loop of `search_file_txt` and of `search_file_gzip`: the pending
record is moved to the batch and the searchers run on what the batch holds. -/
def final_flush (ctx : SearchContext) : SearchContext :=
  let ctx1 := push_pending ctx
  if ctx1.log_lines ≠ [] then
    let e := exec_searchers ctx1
    if !e.1 then
      { e.2 with error_msg := "Failed to execute searchers for file".toList, status := 1 }
    else { e.2 with log_lines := [] }
  else ctx1

/-- The loop `while (std::getline(ifs, line))` of `search_file_txt`; `rest` holds the bytes
of the file from the read position `pos` on. `std::getline` fails at the end of the file;
after a last line without `'\n'` the stream is at its end and `tellg()` returns -1, which is
compared as a `uint64_t`. -/
def search_txt_loop (ix : FileIndexer) :
    Nat → List Char → Nat → SearchContext → SearchContext
  | 0, _, _, ctx => ctx
  | fuel + 1, rest, pos, ctx =>
    if rest = [] then ctx
    else
      let nl := memchr_newline rest
      let line := match nl with
        | some n => rest.take n
        | none => rest
      let tellg := match nl with
        | some n => pos + n + 1
        | none => 2 ^ 64 - 1
      let r := parse_line ix ctx line
      if !r.1 then r.2
      else if tellg > r.2.index_end_pos then r.2
      else
        match batch_step r.2 with
        | (.failed, c) => c
        | (.capped, c) => c
        | (_, c) =>
          search_txt_loop ix fuel
            (match nl with
              | some n => rest.drop (n + 1)
              | none => [])
            tellg c

/-- The method `LogSearcher::search_file_txt`; `file` is the content of the file at
`ctx->path`, `none` when it cannot be opened. -/
def search_file_txt (ix : FileIndexer) (file : Option (List Char)) (ctx : SearchContext) :
    SearchContext :=
  match file with
  | none => { ctx with error_msg := "Failed to open file for reading".toList, status := 1 }
  | some data =>
    let file_size := data.length
    if ctx.index_start_pos ≥ file_size then
      { ctx with error_msg := "Index start position is out of file range".toList, status := 1 }
    else if ctx.index_end_pos ≥ file_size then
      { ctx with error_msg := "Index end position is out of file range".toList, status := 1 }
    else
      final_flush (search_txt_loop ix (file_size + 1) (data.drop ctx.index_start_pos)
        ctx.index_start_pos ctx)

/-- An open `gzFile` of zlib: the uncompressed bytes that can still be read, and whether the
compressed data is damaged after them. -/
structure gzFile where
  rest : List Char
  corrupt : Bool
deriving DecidableEq, Repr

/-- The library call `gzread(gz, buf, len)` as the zlib manual describes it: the number of
bytes read (fewer than `len` only at the end of the file, 0 for `len = 0`, -1 for an error or
for a length that does not fit an `int`), the bytes, and the file after the call. -/
def gzread (gz : gzFile) (len : Int) : Int × List Char × gzFile :=
  if len < 0 then (-1, [], gz)
  else if len = 0 then (0, [], gz)
  else if gz.rest = [] then (if gz.corrupt then -1 else 0, [], gz)
  else
    ((gz.rest.take len.toNat).length, gz.rest.take len.toNat,
      { gz with rest := gz.rest.drop len.toNat })

/-- The constant `BUF_SIZE` of `search_file_gzip`. -/
def BUF_SIZE : Nat := 8192

/-- The conversion `static_cast<int>` of a `uint64_t`. -/
def to_int32 (n : Nat) : Int :=
  if n % 2 ^ 32 < 2 ^ 31 then (n % 2 ^ 32 : Nat) else (n % 2 ^ 32 : Nat) - 2 ^ 32

/-- The loop "Precisely position to start position" of `search_file_gzip`: the file and
`total_uncompressed` after it, or the error message with which the function returns. -/
def gzip_skip (index_start_pos : Nat) :
    Nat → gzFile → Nat → Except (List Char) (gzFile × Nat)
  | 0, gz, total_uncompressed => .ok (gz, total_uncompressed)
  | fuel + 1, gz, total_uncompressed =>
    if total_uncompressed < index_start_pos then
      let remaining := index_start_pos - total_uncompressed
      let read_size : Int := min (BUF_SIZE : Int) (to_int32 remaining)
      let r := gzread gz read_size
      if r.1 < 0 then .error "Error reading gzip file".toList
      else if r.1 = 0 then .error "Index start position is out of file range".toList
      else if r.1 < read_size then .error "Index start position is out of file range".toList
      else gzip_skip index_start_pos fuel r.2.2 (total_uncompressed + r.1.toNat)
    else .ok (gz, total_uncompressed)

/-- The method `LogSearcher::get_lines_gzip(carry, lines, 0)`: the lines of `carry` that end
with `'\n'` and the carry that is left. -/
def get_lines_gzip : Nat → List Char → List (List Char) × List Char
  | 0, carry => ([], carry)
  | fuel + 1, carry =>
    match memchr_newline carry with
    | none => ([], carry)
    | some n =>
      let r := get_lines_gzip fuel (carry.drop (n + 1))
      (carry.take n :: r.1, r.2)

/-- How the loop over the lines of one chunk ends in `search_file_gzip`. -/
inductive LinesResult where
  | done
  | befaild
  | exec_failed
deriving DecidableEq, Repr

/-- The loop `for (auto &line : lines)` of `search_file_gzip`. When `matched_lines` has
reached `req->max_results` the loop is left and the rest of the lines is dropped. -/
def gzip_lines_loop (ix : FileIndexer) :
    List (List Char) → SearchContext → LinesResult × SearchContext
  | [], ctx => (.done, ctx)
  | line :: rest, ctx =>
    let r := parse_line ix ctx line
    if !r.1 then (.befaild, r.2)
    else
      match batch_step r.2 with
      | (.failed, c) => (.exec_failed, c)
      | (.capped, c) => (.done, c)
      | (_, c) => gzip_lines_loop ix rest c

/-- How a loop of `search_file_gzip` is left: the function goes on after the loop, or it
returns. -/
inductive LoopEnd where
  | ended (ctx : SearchContext)
  | returned (ctx : SearchContext)

/-- The context with which a loop of `search_file_gzip` is left. -/
def LoopEnd.ctx : LoopEnd → SearchContext
  | .ended c => c
  | .returned c => c

/-- The loop "Read and process file content until end position" of `search_file_gzip`. -/
def search_gzip_loop (ix : FileIndexer) :
    Nat → gzFile → List Char → Nat → SearchContext → LoopEnd
  | 0, _, _, _, ctx => .ended ctx
  | fuel + 1, gz, carry, total_uncompressed, ctx =>
    if total_uncompressed < ctx.index_end_pos then
      let r := gzread gz BUF_SIZE
      if r.1 < 0 then
        .returned { ctx with error_msg := "Error reading gzip file".toList, status := 1 }
      else if r.1 = 0 then .ended ctx
      else
        let carry1 := carry ++ r.2.1
        let total1 := total_uncompressed + r.1.toNat
        let ls := get_lines_gzip (carry1.length + 1) carry1
        match gzip_lines_loop ix ls.1 ctx with
        | (.exec_failed, c) => .returned c
        | (.befaild, c) => .ended c
        | (.done, c) =>
          if total1 ≥ c.index_end_pos then .ended c
          else search_gzip_loop ix fuel r.2.2 ls.2 total1 c
    else .ended ctx

/-- The method `LogSearcher::search_file_gzip`; `file` is what `gzopen` gives for
`ctx->path`, `none` when the file cannot be opened. -/
def search_file_gzip (ix : FileIndexer) (file : Option gzFile) (ctx : SearchContext) :
    SearchContext :=
  match file with
  | none =>
    { ctx with error_msg := "Failed to open gzip file for reading".toList, status := 1 }
  | some gz =>
    match gzip_skip ctx.index_start_pos (ctx.index_start_pos + 1) gz 0 with
    | .error msg => { ctx with error_msg := msg, status := 1 }
    | .ok (gz1, total_uncompressed) =>
      if total_uncompressed ≠ ctx.index_start_pos then
        { ctx with
          error_msg := "Could not reach exact start position in gzip file".toList,
          status := 1 }
      else
        match search_gzip_loop ix (ctx.index_end_pos + 1) gz1 [] total_uncompressed ctx with
        | .returned c => c
        | .ended c => final_flush c

/-- What the file system gives for a path: the content that `std::ifstream` and `mmap` read,
the stream that `gzopen` opens, and the rounds of `isal_inflate` over the file once its gzip
header has been read; each is `none` when the file cannot be opened or read so far. -/
structure DiskFile where
  text : Option (List Char) := none
  gzip : Option gzFile := none
  inflate : Option (List InflateRound) := none
deriving DecidableEq, Repr

/-- The method `LogSearcher::search_file`. -/
def search_file (ix : FileIndexer) (disk : DiskFile) (index_file_info : FileInfo)
    (ctx : SearchContext) : SearchContext :=
  if index_file_info.file_type = "gzip".toList then search_file_gzip ix disk.gzip ctx
  else search_file_txt ix disk.text ctx

/-- The body of the loop of `LogSearcher::search` for the path `p` once `build_searchers` has
built `searchers`: `fi` is what `get_file_index_by_path` finds (`none` when the path is not in
the index table), and the result is the `FileMatches` pushed to `result.matches`. -/
def search_path (ix : FileIndexer) (disk : DiskFile) (req : SearchRequest)
    (searchers : List QuerySearcher) (fi : Option FileInfo) (p : List Char) : FileMatches :=
  let ctx : SearchContext :=
    { path := p, start_time := req.start_time, end_time := req.end_time,
      index_start_pos := 0, index_end_pos := 0, tmp_line := ⟨0, []⟩, log_lines := [],
      matched_lines := [], searchers := searchers, status := 0, error_msg := [],
      req := req }
  match fi with
  | none => { path := p, status := 1, error_msg := "File not found in index list".toList }
  | some info =>
    if info.file_index = none then
      { path := p, status := 1, error_msg := "File not found in index list".toList }
    else
      let r := find_index_pos (some info) ctx
      if !r.1 then
        { path := p, status := 1, error_msg := "Time range not covered by index".toList }
      else
        let c := search_file ix disk info r.2
        { path := p, status := c.status, error_msg := c.error_msg, lines := c.matched_lines }

/-- A simple matcher for the query `q`, as `build_searchers` builds it. -/
def simple_query (q : List Char) : QuerySearcher :=
  ⟨⟨q, "simple".toList⟩, SearchType.SIMPLE, simple_searcher q⟩

/-- The index of scenario 1 as the specification gives it. -/
def scenario_index : List TimeIndex :=
  [⟨1735689600, 0⟩, ⟨1735689900, 44⟩, ⟨1735693200, 66⟩]

/-- The file info of the gzip file of scenario 4, with the index of scenario 1. -/
def scenario_gzip_info : FileInfo :=
  { file_type := "gzip".toList, file_index := some { time_indexes := scenario_index } }

/-- The file info of the text file of scenario 1 with the index that
`update_file_index_txt_mmap` builds for it. -/
def scenario_text_info : FileInfo :=
  update_file_index_txt_mmap (indexer_with 300 1000000) (some scenario_file)
    { file_type := "text".toList }

/-- The time stamp of a record lies in the window from `s` to `e`. -/
def in_window (s e : Nat) (l : LogLine) : Prop := s ≤ l.timestamp ∧ l.timestamp ≤ e

/-- The invariant of the record pipeline for the window from `s` to `e`: the window of the
context is unchanged, and the records of the batch, the matched records and the pending
record (when there is one) have their time stamps in the window. -/
def window_inv (s e : Nat) (ctx : SearchContext) : Prop :=
  ctx.start_time = s ∧ ctx.end_time = e ∧
  (∀ l ∈ ctx.log_lines, in_window s e l) ∧ (∀ l ∈ ctx.matched_lines, in_window s e l) ∧
  (ctx.tmp_line.line ≠ [] → in_window s e ctx.tmp_line)

/-! ## The index table of `FileIndexer`: `scan_root`, `update_file_index`, `list_prefix` -/

/-- The constant `mul` of `util::MurMurHash64`. -/
def MURMUR_MUL : Nat := (0xc6a4a793 <<< 32) + 0x5bd1e995

/-- The constant `DEFAULT_MURMUR_SEED` of `util.cpp`. -/
def DEFAULT_MURMUR_SEED : Nat := 3339675888

/-- The value of up to 8 bytes read as a little-endian `unsigned long long`. -/
def load_le : List Char → Nat
  | [] => 0
  | c :: rest => c.toNat % 256 + 256 * load_le rest

/-- The loop of `util::MurMurHash64` over the blocks of 8 bytes: the hash after the loop and
the bytes behind the last block. -/
def murmur_blocks : List Char → Nat → Nat × List Char
  | a :: b :: c :: d :: e :: f :: g :: h :: rest, hash =>
    let data0 := (load_le [a, b, c, d, e, f, g, h] * MURMUR_MUL) % 2 ^ 64
    let data := ((data0 ^^^ (data0 >>> 47)) * MURMUR_MUL) % 2 ^ 64
    murmur_blocks rest (((hash ^^^ data) * MURMUR_MUL) % 2 ^ 64)
  | tail, hash => (hash, tail)

/-- The function `util::MurMurHash64` on the bytes `buf` (on a little-endian machine); the
arithmetic is that of `unsigned long long`. -/
def MurMurHash64 (buf : List Char) (seed : Nat) : Nat :=
  let r := murmur_blocks buf (seed ^^^ ((buf.length * MURMUR_MUL) % 2 ^ 64))
  let hash1 := if r.2 ≠ [] then ((r.1 ^^^ load_le r.2) * MURMUR_MUL) % 2 ^ 64 else r.1
  let hash2 := ((hash1 ^^^ (hash1 >>> 47)) * MURMUR_MUL) % 2 ^ 64
  hash2 ^^^ (hash2 >>> 47)

/-- The 8 bytes of a `uint64_t` in memory, little-endian. -/
def bytes_le (n : Nat) : List Char :=
  (List.range 8).map (fun k => Char.ofNat ((n >>> (8 * k)) % 256))

/-- The output of `oss << std::hex << std::setfill('0') << std::setw(16)` for an
`unsigned long long`. -/
def hex16 (n : Nat) : List Char :=
  List.replicate (16 - (Nat.toDigits 16 n).length) '0' ++ Nat.toDigits 16 n

/-- The function `util::etag_from_size_mtime`. -/
def etag_from_size_mtime (size : Nat) (mtime : Int) : List Char :=
  hex16 (MurMurHash64 (bytes_le (size % 2 ^ 64) ++ bytes_le (to_uint64 mtime))
    DEFAULT_MURMUR_SEED)

/-- The regex library as far as the indexer uses it: whether the constructor `std::regex`
accepts a pattern, and whether `std::regex_match` finds that a compiled pattern matches a
whole string. -/
structure regex_engine where
  valid : List Char → Bool
  regex_match : List Char → List Char → Bool

/-- The call `std::regex_match(s, re)`: a default-constructed `std::regex` matches no
string. -/
def std_regex_match (eng : regex_engine) (s : List Char) : regex → Bool
  | .default_constructed => false
  | .compiled pattern => eng.regex_match pattern s

/-- The statement `try { re = std::regex(pattern); } catch (...) { warn }` of `add_root`: the
regex stays as it is when the constructor throws. -/
def try_compile (eng : regex_engine) (pattern : List Char) (re : regex) : regex :=
  if eng.valid pattern then .compiled pattern else re

/-- The method `FileIndexer::add_root`: the root list after the call. -/
def add_root (eng : regex_engine) (roots_ : List RootPath)
    (root_path filename_pattern time_format_pattern path_pattern prefix_pattern : List Char)
    (max_days : Int) : List RootPath :=
  let rp0 : RootPath := { path := root_path }
  let rp1 : RootPath :=
    if filename_pattern ≠ [] then
      { rp0 with filename_pattern := filename_pattern,
                 filename_regex := try_compile eng filename_pattern rp0.filename_regex }
    else rp0
  let rp2 : RootPath :=
    if time_format_pattern ≠ [] then
      { rp1 with time_format_pattern := time_format_pattern,
                 time_format_regex :=
                   try_compile eng time_format_pattern rp1.time_format_regex }
    else rp1
  let rp3 : RootPath :=
    if path_pattern ≠ [] then
      { rp2 with path_pattern := path_pattern,
                 path_regex := try_compile eng path_pattern rp2.path_regex }
    else rp2
  let rp4 : RootPath :=
    if prefix_pattern ≠ [] then
      { rp3 with prefix_pattern := prefix_pattern,
                 prefix_regex := try_compile eng prefix_pattern rp3.prefix_regex }
    else rp3
  roots_ ++ [{ rp4 with max_days := max_days }]

/-- The member `index_` of `FileIndexer`, a `std::unordered_map` from the full path to the
`FileInfo`: the pairs in the order of iteration, each key once. -/
abbrev FileTable := List (List Char × FileInfo)

/-- The call `index_.emplace(key, info)`: nothing is inserted when the key is present. -/
def emplace (index_ : FileTable) (key : List Char) (info : FileInfo) : FileTable :=
  match index_.lookup key with
  | some _ => index_
  | none => index_ ++ [(key, info)]

/-- The assignment `itmap->second = info` for the iterator that `index_.find(key)` gives. -/
def assign (index_ : FileTable) (key : List Char) (info : FileInfo) : FileTable :=
  index_.map (fun kv => if kv.1 = key then (kv.1, info) else kv)

/-- The block "insert or update under unique lock" of `scan_root` for the `FileInfo` that
the scan has filled in. -/
def upsert (index_ : FileTable) (info : FileInfo) : FileTable :=
  match index_.lookup info.fullpath with
  | none => emplace index_ info.fullpath info
  | some old =>
    if old.inode ≠ info.inode then emplace index_ info.fullpath info
    else if old.size ≠ info.size ∨ old.mtime ≠ info.mtime then
      assign index_ info.fullpath { info with file_index := old.file_index }
    else index_

/-- What the directory iterator, `stat` and the file system give for one entry under a
root. -/
structure DirEntry where
  path : List Char
  filename : List Char
  parent_path : List Char
  is_symlink : Bool := false
  stat_ok : Bool := true
  is_regular_file : Bool := true
  file_size : Nat := 0
  st_ino : Nat := 0
  mtime : Int := 0
deriving DecidableEq, Repr

/-- The `FileInfo` that `scan_root` fills in for an entry. -/
def scanned_info (rp : RootPath) (e : DirEntry) : FileInfo :=
  let lower := e.filename.map Char.toLower
  { name := e.filename, dir := e.parent_path, fullpath := e.path,
    size := e.file_size % 2 ^ 64, inode := e.st_ino % 2 ^ 64, mtime := e.mtime,
    file_type :=
      if lower.length ≥ 3 ∧ lower.drop (lower.length - 3) = ".gz".toList then "gzip".toList
      else "text".toList,
    etag := etag_from_size_mtime (e.file_size % 2 ^ 64) e.mtime,
    root_path := rp }

/-- The body of the loop of `scan_root` for one directory entry. -/
def scan_entry (eng : regex_engine) (rp : RootPath) (index_ : FileTable) (e : DirEntry) :
    FileTable :=
  if e.is_symlink then index_
  else if !e.stat_ok then index_
  else if !e.is_regular_file then index_
  else if rp.path_pattern ≠ [] ∧ !std_regex_match eng e.path rp.path_regex then index_
  else if rp.filename_pattern ≠ [] ∧ !std_regex_match eng e.filename rp.filename_regex then
    index_
  else upsert index_ (scanned_info rp e)

/-- The method `FileIndexer::scan_root`; `entries` is what the recursive directory iterator
yields, `none` when the root does not exist or is not a directory. -/
def scan_root (eng : regex_engine) (rp : RootPath) (entries : Option (List DirEntry))
    (index_ : FileTable) : FileTable :=
  match entries with
  | none => index_
  | some es => es.foldl (scan_entry eng rp) index_

/-- The method `FileIndexer::update_file_index_igzip`; `file` holds the rounds of the
inflate loop, `none` when the file cannot be opened, the first read fails or the gzip header
cannot be read. -/
def update_file_index_igzip (ix : FileIndexer) (stale : List Char → List Char)
    (file : Option (List InflateRound)) (file_info : FileInfo) : FileInfo :=
  match file with
  | none => file_info
  | some rounds =>
    { file_info with
      file_index := some { (file_info.file_index.getD {}) with
        time_indexes := igzip_entries ix stale rounds } }

/-- The body of the second loop of `update_file_index` for one pair of the snapshot, the
snapshot holding a copy of the index of the entry (an empty index when it has none). -/
def update_entry (ix : FileIndexer) (stale : List Char → List Char)
    (disk : List Char → DiskFile) (now : Int) (index_ : FileTable)
    (kv : List Char × FileInfo) : FileTable :=
  let path := kv.1
  let info : FileInfo := { kv.2 with file_index := some (kv.2.file_index.getD {}) }
  let need_update :=
    match info.file_index with
    | none => true
    | some file_index => decide (file_index.index_etag ≠ info.etag)
  if !need_update then index_
  else
    let info1 :=
      if info.file_type = "gzip".toList then
        update_file_index_igzip ix stale (disk path).inflate info
      else update_file_index_txt_mmap ix (disk path).text info
    match index_.lookup path with
    | none => index_
    | some cur =>
      assign index_ path
        { cur with
          file_index := info1.file_index.map (fun file_index =>
            { file_index with index_etag := info.etag, last_index_time := now }) }

/-- The method `FileIndexer::update_file_index`: the index table after the pass. -/
def update_file_index (ix : FileIndexer) (stale : List Char → List Char)
    (disk : List Char → DiskFile) (now : Int) (index_ : FileTable) : FileTable :=
  index_.foldl (update_entry ix stale disk now) index_

/-- The method `FileIndexer::list_prefix` for the request parameter `pfx`. -/
def list_prefix (eng : regex_engine) : FileTable → List Char → List FileInfo
  | [], _ => []
  | (path, info) :: rest, pfx =>
    if !std_regex_match eng pfx info.root_path.prefix_regex then list_prefix eng rest pfx
    else if find pfx info.root_path.path ≠ some 0 then list_prefix eng rest pfx
    else if find path pfx ≠ some 0 then list_prefix eng rest pfx
    else info :: list_prefix eng rest pfx

/-- A root without patterns, as `add_root` builds it for the directory `/var/log`. -/
def plain_root : RootPath := { path := "/var/log".toList }

/-- The entry of the text file of scenario 1 after a scan and an index pass. -/
def indexed_info : FileInfo :=
  { name := "app.log".toList, dir := "/var/log".toList,
    fullpath := "/var/log/app.log".toList, size := 88, mtime := 1735693200,
    file_type := "text".toList, etag := etag_from_size_mtime 88 1735693200, inode := 1,
    file_index := some { index_etag := etag_from_size_mtime 88 1735693200,
                         last_index_time := 1735693260,
                         time_indexes := [⟨1735689600, 0⟩, ⟨1735689900, 44⟩,
                                          ⟨1735693200, 66⟩, ⟨1735693200, 66⟩] },
    root_path := plain_root }

/-- An index table that holds the entry `indexed_info`. -/
def indexed_table : FileTable := [("/var/log/app.log".toList, indexed_info)]

/-- The directory entry of the same path after a rotation: a new file with a new inode. -/
def rotated_entry : DirEntry :=
  { path := "/var/log/app.log".toList, filename := "app.log".toList,
    parent_path := "/var/log".toList, file_size := 22, st_ino := 2, mtime := 1735700000 }

/-- The directory entry of the same file after 22 bytes have been appended. -/
def grown_entry : DirEntry :=
  { path := "/var/log/app.log".toList, filename := "app.log".toList,
    parent_path := "/var/log".toList, file_size := 110, st_ino := 1, mtime := 1735700000 }

/-- The index table after the scan has found that the file of `indexed_table` has grown: the
entry carries the new size, mtime and etag and the old index. -/
def grown_table : FileTable := scan_entry ⟨fun _ => false, fun _ _ => false⟩ plain_root
  indexed_table grown_entry

/-- A file system in which no file can be opened. -/
def unreadable_disk : List Char → DiskFile := fun _ => {}

/-- A file system in which every path holds the text file of scenario 1 followed by one more
line. -/
def readable_disk : List Char → DiskFile := fun _ =>
  { text := some (scenario_file ++ "2025-01-01 02:00:00 e\n".toList) }

/-! ## Gateway: `AgentManager` -/

/-- The struct `agent_info` (without the cache of file listings, which the announce and
cleanup code does not touch). -/
structure agent_info where
  address : List Char
  agent_id : List Char
  last_announce : Nat
deriving DecidableEq, Repr

/-- The macro `AGENT_TIMEOUT_SECONDS`. -/
def AGENT_TIMEOUT_SECONDS : Nat := 60

/-- The difference `a - b` of two `uint64_t` values. -/
def uint64_sub (a b : Nat) : Nat := (a % 2 ^ 64 + 2 ^ 64 - b % 2 ^ 64) % 2 ^ 64

/-- The member `agents_` of `AgentManager`, a `std::map` from the agent id to the agent: the
pairs in the order of the keys. -/
abbrev AgentTable := List (List Char × agent_info)

/-- The comparison `operator<` of two `std::string` values. -/
def string_lt : List Char → List Char → Bool
  | [], [] => false
  | [], _ :: _ => true
  | _ :: _, [] => false
  | a :: as, b :: bs =>
    if a.toNat < b.toNat then true
    else if b.toNat < a.toNat then false
    else string_lt as bs

/-- The insertion of a new key into the `std::map` `agents_`. -/
def map_insert (key : List Char) (agent : agent_info) : AgentTable → AgentTable
  | [] => [(key, agent)]
  | (k, a) :: rest =>
    if string_lt key k then (key, agent) :: (k, a) :: rest
    else (k, a) :: map_insert key agent rest

/-- The method `AgentManager::add_agent` at the time `now`. -/
def add_agent (now : Nat) (agents_ : AgentTable) (agent_addr : List Char) : AgentTable :=
  let agent_id := Nat.toDigits 10 (MurMurHash64 agent_addr 0)
  match agents_.lookup agent_id with
  | some _ =>
    agents_.map (fun kv =>
      if kv.1 = agent_id then (kv.1, { kv.2 with last_announce := now }) else kv)
  | none => map_insert agent_id ⟨agent_addr, agent_id, now⟩ agents_

/-- The method `AgentManager::get_active_agents` at the time `now`. -/
def get_active_agents (now : Nat) : AgentTable → List agent_info
  | [] => []
  | (_, agent) :: rest =>
    if uint64_sub now agent.last_announce ≤ AGENT_TIMEOUT_SECONDS then
      agent :: get_active_agents now rest
    else get_active_agents now rest

/-- The method `AgentManager::cleanup_expired_agents` at the time `now`: the table after the
call. -/
def cleanup_expired_agents (now : Nat) : AgentTable → AgentTable
  | [] => []
  | (id, agent) :: rest =>
    if uint64_sub now agent.last_announce > AGENT_TIMEOUT_SECONDS then
      cleanup_expired_agents now rest
    else (id, agent) :: cleanup_expired_agents now rest

/-! ## Gateway: merge of the search results in `GTHandler::search` -/

/-- A JSON number as `nlohmann::json` stores it after parsing: a signed or an unsigned
64-bit integer. Floating-point numbers are not modelled. -/
inductive json_number where
  | number_integer (v : Int)
  | number_unsigned (v : Nat)
deriving DecidableEq, Repr

/-- The number that a JSON number denotes. -/
def json_number.value : json_number → Int
  | .number_integer v => v
  | .number_unsigned v => v

/-- The call `get<int64_t>()` on a JSON number: an unsigned value is converted with
`static_cast<int64_t>`. -/
def json_number.get_int64 : json_number → Int
  | .number_integer v => v
  | .number_unsigned v => to_time_t v

/-- A record of the array `records` of an agent response: `start_time` is the number under
the key `start_time`, `none` when the key is missing or its value is not a number; `agent` is
the member that the gateway adds; `body` stands for the other members. -/
structure json_record where
  start_time : Option json_number
  agent : List Char := []
  body : List Char := []
deriving DecidableEq, Repr

/-- The response body of one agent after `nlohmann::json::parse`: `status` is the value of
`jfm["status"].get<int>()` when the member is a number, `records` the array under the key
`records` when there is one. -/
structure agent_response where
  status : Option Int
  records : Option (List json_record)
deriving DecidableEq, Repr

/-- The loop of `GTHandler::search` over `agent_records` (a `std::map` from the agent id to
the response body, `none` for a body that is not JSON): the array `jres["records"]` before
it is sorted. -/
def collect_records : List (List Char × Option agent_response) → List json_record
  | [] => []
  | (_, none) :: rest => collect_records rest
  | (agent, some jfm) :: rest =>
    if jfm.status ≠ some 0 then collect_records rest
    else
      match jfm.records with
      | none => collect_records rest
      | some records =>
        records.map (fun record => { record with agent := agent }) ++ collect_records rest

/-- The comparison function that `GTHandler::search` passes to `std::sort`. -/
def start_time_less (a b : json_record) : Bool :=
  match a.start_time with
  | none => true
  | some x =>
    match b.start_time with
    | none => false
    | some y => decide (x.get_int64 < y.get_int64)

/-- The requirement of `std::sort` on its comparison function, for the elements of the
range: `comp` is a strict weak ordering (irreflexive, transitive, with a transitive
incomparability). -/
def strict_weak_on {α : Type} (comp : α → α → Bool) (xs : List α) : Bool :=
  xs.all (fun a => !comp a a) &&
  xs.all (fun a => xs.all (fun b => xs.all (fun c => !(comp a b && comp b c) || comp a c))) &&
  xs.all (fun a => xs.all (fun b => xs.all (fun c =>
    !((!comp a b && !comp b a) && (!comp b c && !comp c b)) || (!comp a c && !comp c a))))

/-- The postcondition of `std::sort(first, last, comp)` in the C++ standard: when `comp` is
a strict weak ordering on the elements, the range afterwards holds the same elements and no
element is less than an element before it. Nothing is guaranteed otherwise. -/
def sort_result {α : Type} (comp : α → α → Bool) (xs out : List α) : Prop :=
  strict_weak_on comp xs = true →
    out.Perm xs ∧ out.Pairwise (fun a b => comp b a = false)

/-- Insertion of an element into a sorted list, before the first element that it is less
than. -/
def ordered_insert {α : Type} (comp : α → α → Bool) (a : α) : List α → List α
  | [] => [a]
  | b :: l => if comp a b then a :: b :: l else b :: ordered_insert comp a l

/-- Sorting by insertion. -/
def insertion_sort {α : Type} (comp : α → α → Bool) : List α → List α
  | [] => []
  | a :: l => ordered_insert comp a (insertion_sort comp l)

/-- One function that meets the postcondition of `std::sort`: the sorted range when `comp`
is a strict weak ordering on the elements, `none` (undefined behaviour) otherwise. -/
def std_sort {α : Type} (comp : α → α → Bool) (xs : List α) : Option (List α) :=
  if strict_weak_on comp xs then some (insertion_sort comp xs) else none

/-- The number under `start_time` can be read as an `int64_t` without change. -/
def fits_int64 : json_number → Prop
  | .number_integer v => -(2 ^ 63) ≤ v ∧ v < 2 ^ 63
  | .number_unsigned v => v < 2 ^ 63

/-- The record `b` does not come before the record `a` by the numbers under
`start_time`. -/
def start_time_le (a b : json_record) : Prop :=
  ∃ x y, a.start_time = some x ∧ b.start_time = some y ∧ x.value ≤ y.value

/-- A record with the unsigned number `t` under `start_time`. -/
def record_at (t : Nat) : json_record := { start_time := some (.number_unsigned t) }

/-- The responses of scenario 6: one agent returns records with the start times 20 and 10,
another one a record with the start time 15. -/
def merge_scenario : List (List Char × Option agent_response) :=
  [("101".toList, some ⟨some 0, some [record_at 20, record_at 10]⟩),
   ("202".toList, some ⟨some 0, some [record_at 15]⟩)]

/-! ## The second built-in time format -/

/-- Modelled from the spec: the regex `\d{4}/\d{2}/\d{2} \d{2}:\d{2}:\d{2}` of the second
built-in pattern; whether a string starts with a match. -/
def ymd_slash_at : List Char → Bool
  | y1 :: y2 :: y3 :: y4 :: a :: m1 :: m2 :: b :: d1 :: d2 :: sp :: h1 :: h2 :: c1 :: n1 :: n2
      :: c2 :: s1 :: s2 :: _ =>
    y1.isDigit && y2.isDigit && y3.isDigit && y4.isDigit && a = '/' && m1.isDigit && m2.isDigit
      && b = '/' && d1.isDigit && d2.isDigit && sp = ' ' && h1.isDigit && h2.isDigit
      && c1 = ':' && n1.isDigit && n2.isDigit && c2 = ':' && s1.isDigit && s2.isDigit
  | _ => false

/-- Modelled from the spec: `std::regex_search` with the regex of the second built-in
pattern: the leftmost match. -/
def ymd_slash_search : List Char → Option (List Char)
  | [] => none
  | c :: rest =>
    if ymd_slash_at (c :: rest) then some ((c :: rest).take 19) else ymd_slash_search rest

/-- Modelled from the spec: the second entry `%Y/%m/%d %H:%M:%S` of `time_formats_`; the
fields are read as in the first format, between other separators. -/
def ymd_slash_format : time_format :=
  { format := "%Y/%m/%d %H:%M:%S".toList, regex_search := ymd_slash_search,
    parse := ymd_hms_parse }

/-- An indexer with the first two built-in time formats, in the order of `time_formats_`,
and the default policy. -/
def two_format_indexer : FileIndexer :=
  { time_formats_ := [ymd_hms_format, ymd_slash_format], index_interval_seconds_ := 300,
    index_count_threshold_ := 50000 }

/-- A line whose first 50 bytes hold a match of the first regex that is no date (month 13)
and, after it, a date in the second format. -/
def two_dates_line : List Char := "2025-13-01 00:00:00 2025/01/01 00:00:00 x".toList

/-! ## Ranged searcher: the records of the assembly -/

/-- The text of a record that starts with the line `first` and takes up the lines `conts`:
the code appends `"\n"` and the line, once for each of them. -/
def record_text (first : List Char) (conts : List (List Char)) : List Char :=
  conts.foldl (fun acc c => acc ++ '\n' :: c) first

/-- A record as the specification describes it: it starts with a line `first` for which the
time stamp extractor returns a non-zero value, it carries that value (as a `uint64_t`), and
its text is `first` followed by lines without time stamp, each after one `"\n"`. -/
def is_record (ix : FileIndexer) (r : LogLine) : Prop :=
  ∃ (first : List Char) (conts : List (List Char)),
    ix.get_timestamp_from_log_line first ≠ 0 ∧
    r.timestamp = to_uint64 (ix.get_timestamp_from_log_line first) ∧
    (∀ c ∈ conts, ix.get_timestamp_from_log_line c = 0) ∧
    r.line = record_text first conts

/-- The invariant of the record pipeline for the shape of the records: the records of the
batch, the matched records and the pending record (when there is one) are records in the
sense of `is_record`. -/
def record_inv (ix : FileIndexer) (ctx : SearchContext) : Prop :=
  (∀ l ∈ ctx.log_lines, is_record ix l) ∧ (∀ l ∈ ctx.matched_lines, is_record ix l) ∧
  (ctx.tmp_line.line ≠ [] → is_record ix ctx.tmp_line)

/-- The record assembly on a sequence of lines: `parse_line` on each line in turn, then the
block of the final flush that moves the pending record to the batch. The batch `log_lines`
of the result holds the records that the assembly emits, before any matcher runs. -/
def assemble (ix : FileIndexer) (ctx : SearchContext) (lines : List (List Char)) :
    SearchContext :=
  push_pending (lines.foldl (fun c line => (parse_line ix c line).2) ctx)

/-- A file whose second line is older than the first one and is followed by a line without
time stamp. -/
def unordered_file : List Char :=
  ("2025-01-01 00:04:59 b\n" ++ "2024-12-31 23:59:59 old\n" ++ "  at old frame\n"
    ++ "2025-01-01 00:05:00 c\n").toList

/-! ## Boolean matcher: the tokens of a pattern -/

/-- The tokens that a pattern consists of: the lambda `tokenize` without its two tests for a
word that follows a word. It reads white space, parentheses, quoted words, the operator
names and unquoted words exactly as `tokenize_loop` does. -/
def lexemes_loop (last : Option Char) :
    Nat → List Char → List Token → Except BuildError (List Token)
  | _, [], tokens => .ok tokens
  | 0, _ :: _, _ => .error .fuel
  | fuel + 1, c :: rest, tokens =>
    if isspace c then lexemes_loop last fuel rest tokens
    else if c = '(' then lexemes_loop last fuel rest (tokens ++ [⟨.LPAREN, ['(']⟩])
    else if c = ')' then lexemes_loop last fuel rest (tokens ++ [⟨.RPAREN, [')']⟩])
    else if c = '\'' || c = '"' then
      let r := quoted_word c rest []
      if r.2 = [] && last != some c then .error .unmatched_quote
      else if r.1 != [] then lexemes_loop last fuel r.2 (tokens ++ [⟨.WORD, r.1⟩])
      else lexemes_loop last fuel r.2 tokens
    else if 2 < (c :: rest).length && (c :: rest).take 3 = ['A', 'N', 'D']
        && operator_end ((c :: rest).drop 3) then
      lexemes_loop last fuel ((c :: rest).drop 3) (tokens ++ [⟨.AND, ['A', 'N', 'D']⟩])
    else if 1 < (c :: rest).length && (c :: rest).take 2 = ['O', 'R']
        && operator_end ((c :: rest).drop 2) then
      lexemes_loop last fuel ((c :: rest).drop 2) (tokens ++ [⟨.OR, ['O', 'R']⟩])
    else if 2 < (c :: rest).length && (c :: rest).take 3 = ['N', 'O', 'T']
        && operator_end ((c :: rest).drop 3) then
      lexemes_loop last fuel ((c :: rest).drop 3) (tokens ++ [⟨.NOT, ['N', 'O', 'T']⟩])
    else
      let r := unquoted_word (c :: rest) []
      if r.1 != [] then lexemes_loop last fuel r.2 (tokens ++ [⟨.WORD, r.1⟩])
      else lexemes_loop last fuel r.2 tokens

/-- The tokens of the trimmed pattern `src`. -/
def lexemes (src : List Char) : Except BuildError (List Token) :=
  lexemes_loop src.getLast? src.length src []

/-- Two `WORD` tokens stand next to each other in a token list, with no operator,
parenthesis or `NOT` between them. -/
def adjacent_words : List Token → Bool
  | a :: b :: rest =>
    (decide (a.type = TokenType.WORD) && decide (b.type = TokenType.WORD))
      || adjacent_words (b :: rest)
  | _ => false

/-! ## Boolean matcher: patterns with `NOT` and with misplaced operators -/

/-- The pattern `NOT NOT w`. -/
def not_not_pattern (w : List Char) : List Char := "NOT NOT ".toList ++ w

/-- The pattern `NOT (NOT w)`. -/
def not_paren_not_pattern (w : List Char) : List Char :=
  "NOT (NOT ".toList ++ (w ++ [')'])

/-- The pattern `AND w`: an operator with no atom before it. -/
def leading_and_pattern (w : List Char) : List Char := "AND ".toList ++ w

/-- The pattern `w AND`: an operator with no atom after it. -/
def trailing_and_pattern (w : List Char) : List Char := w ++ " AND".toList

/-- The pattern `w AND AND v`: two operators between two atoms. -/
def doubled_and_pattern (w v : List Char) : List Char := w ++ (" AND AND ".toList ++ v)

/-! ## Search of a file indexed with a count threshold -/

/-- A file of four lines with non-decreasing time stamps; the first three lie in one
interval of 300 seconds. -/
def busy_file : List Char :=
  ("2025-01-01 00:00:00 a\n" ++ "2025-01-01 00:02:00 b\n" ++ "2025-01-01 00:03:00 c\n"
    ++ "2025-01-01 00:05:00 d\n").toList

/-- The file info of `busy_file` with the index that `update_file_index_txt_mmap` builds for
it from scratch with the interval 300 and the count threshold 2. -/
def busy_file_info : FileInfo :=
  update_file_index_txt_mmap (indexer_with 300 2) (some busy_file) { file_type := "text".toList }

/-- A record of an agent response without the member `start_time`. -/
def record_without_time : json_record := { start_time := none }

/-! ## `util::url_encode`, `util::url_decode` and the announce of an agent -/

/-- The function `isalnum` of the C locale on a byte. -/
def isalnum (c : Char) : Bool :=
  ('0' ≤ c && c ≤ '9') || ('a' ≤ c && c ≤ 'z') || ('A' ≤ c && c ≤ 'Z')

/-- The upper-case hexadecimal digit of a value below 16. -/
def upper_hex_digit (n : Nat) : Char :=
  if n < 10 then Char.ofNat ('0'.toNat + n) else Char.ofNat ('A'.toNat + (n - 10))

/-- The output of `<< std::uppercase << std::setw(2) << std::setfill('0') << std::hex <<
static_cast<int>(c)` for the value `n` of an `unsigned char`, which is below 256: two
digits. -/
def hex_byte (n : Nat) : List Char := [upper_hex_digit (n / 16), upper_hex_digit (n % 16)]

/-- The function `util::url_encode`. The loop variable is an `unsigned char`. -/
def url_encode : List Char → List Char
  | [] => []
  | c :: rest =>
    (if isalnum c || c = '-' || c = '_' || c = '.' || c = '~' then [c]
      else '%' :: hex_byte (c.toNat % 256)) ++ url_encode rest

/-- The value of a hexadecimal digit, `none` for another character. -/
def hex_digit_value (c : Char) : Option Nat :=
  if '0' ≤ c ∧ c ≤ '9' then some (c.toNat - '0'.toNat)
  else if 'a' ≤ c ∧ c ≤ 'f' then some (c.toNat - 'a'.toNat + 10)
  else if 'A' ≤ c ∧ c ≤ 'F' then some (c.toNat - 'A'.toNat + 10)
  else none

/-- The value of `value` after `ss << std::hex << s; ss >> value;` for the two characters
`a`, `b` of `s`, by the rules of the formatted extraction of an `int`: two digits give their
value; a digit followed by another character gives the value of the digit; leading white
space is skipped and a sign is read; an extraction that fails stores 0. -/
def stream_hex (a b : Char) : Int :=
  match hex_digit_value a, hex_digit_value b with
  | some x, some y => (16 * x + y : Nat)
  | some x, none => (x : Nat)
  | none, some y => if isspace a || a = '+' then (y : Nat) else if a = '-' then -(y : Nat) else 0
  | none, none => 0

/-- The conversion `static_cast<char>` of an `int`, as a byte. -/
def to_char (value : Int) : Char := Char.ofNat (value % 256).toNat

/-- The function `util::url_decode`. The test `i + 2 < encoded_url.length()` holds when two
characters follow the one at `i`. -/
def url_decode : List Char → List Char
  | c :: a :: b :: rest =>
    if c = '%' then to_char (stream_hex a b) :: url_decode rest
    else c :: url_decode (a :: b :: rest)
  | c :: rest => c :: url_decode rest
  | [] => []

/-- The member `find(c)` of a string view: the index of the first `c`, `none` for `npos`. -/
def string_find (c : Char) : List Char → Option Nat
  | [] => none
  | d :: rest => if d = c then some 0 else (string_find c rest).map (· + 1)

/-- The parameters of a request, a `std::map` from the key to the value. -/
abbrev Params := List (List Char × List Char)

/-- The member `emplace` of the map of parameters: nothing is stored for a key that is
present. -/
def params_emplace (params : Params) (key value : List Char) : Params :=
  match params.lookup key with
  | some _ => params
  | none => params ++ [(key, value)]

/-- The loop `while (!query.empty())` of `util::parse_request` of `bst-http`. -/
def parse_query : Nat → List Char → Params → Params
  | 0, _, params => params
  | fuel + 1, query, params =>
    if query = [] then params
    else
      let amp := string_find '&' query
      let pair := match amp with
        | some n => query.take n
        | none => query
      let params1 := match string_find '=' pair with
        | some eq => params_emplace params (pair.take eq) (pair.drop (eq + 1))
        | none => params_emplace params pair []
      match amp with
      | none => params1
      | some n => parse_query fuel (query.drop (n + 1)) params1

/-- The function `util::parse_request` of `bst-http` on an empty path and an empty map: the
return value, the path and the parameters. -/
def parse_request (request_uri : List Char) : Bool × List Char × Params :=
  if request_uri = [] then (false, [], [])
  else
    match string_find '?' request_uri with
    | none => (true, request_uri, [])
    | some pos =>
      let query := request_uri.drop (pos + 1)
      (true, request_uri.take pos, parse_query (query.length + 1) query [])

/-- The member `get_param(key)` of the request context. -/
def get_param (params : Params) (key : List Char) : List Char :=
  match params.lookup key with
  | some value => value
  | none => []

/-- The target of the request that `run_announce_task` sends for the agent address
`registry_agent_address`: the part of `req.url` after the address of the gateway. -/
def announce_target (registry_agent_address : List Char) : List Char :=
  "/agent/announce?agent_addr=".toList ++ url_encode registry_agent_address

/-- The method `GTHandler::announce` for a `GET` request with the target `target`, at the
time `now`: the status of the response and the agent table after the call. -/
def announce (now : Nat) (agents_ : AgentTable) (target : List Char) : Nat × AgentTable :=
  let agent_addr := get_param (parse_request target).2.2 "agent_addr".toList
  if agent_addr = [] then (400, agents_)
  else (200, add_agent now agents_ (url_decode agent_addr))

/-! # Theorems -/

set_option maxRecDepth 100000

/-! ## `exec_searchers` -/

theorem be_matched_eq_all (line : List Char) (searchers : List QuerySearcher) :
    be_matched line searchers
      = searchers.all (fun qs => (qs.searcher.search_line line [] false).1) := by
  induction searchers with
  | nil => rfl
  | cons qs rest ih =>
    simp only [be_matched, List.all_cons, ih]
    cases (qs.searcher.search_line line [] false).1 <;> simp

theorem exec_lines_matched (searchers : List QuerySearcher) (log_lines : List LogLine) :
    ∀ matched_lines : List LogLine,
      (exec_lines searchers log_lines matched_lines).2
        = matched_lines ++ log_lines.filter (fun l => be_matched l.line searchers) := by
  induction log_lines with
  | nil => intro m; simp [exec_lines]
  | cons l rest ih =>
    intro m
    by_cases h : be_matched l.line searchers = true
    · simp [exec_lines, h, ih]
    · simp [exec_lines, h, ih]

/-- C1. With a non-empty matcher list `exec_searchers` succeeds and `matched_lines` becomes the
old `matched_lines` followed by exactly the records of the batch on whose text every matcher's
`search_line` returns true, in batch order. -/
theorem exec_searchers_appends_exactly_matching (ctx : SearchContext)
    (h : ctx.searchers ≠ []) :
    (exec_searchers ctx).1 = true ∧
    (exec_searchers ctx).2.matched_lines
      = ctx.matched_lines ++ ctx.log_lines.filter (fun l =>
          ctx.searchers.all (fun qs => (qs.searcher.search_line l.line [] false).1)) := by
  have he : ctx.searchers.isEmpty = false := by
    cases hs : ctx.searchers with
    | nil => exact absurd hs h
    | cons a b => rfl
  simp only [exec_searchers, he, Bool.false_eq_true, if_false, exec_lines_matched,
    be_matched_eq_all, and_self]

theorem exec_searchers_appends_exactly_matching_witness :
    sample_ctx.searchers ≠ [] ∧
    (exec_searchers sample_ctx).2.matched_lines
      = [⟨5, "old".toList⟩, ⟨10, "foo bar".toList⟩, ⟨30, "bar foo".toList⟩] :=
  ⟨by simp [sample_ctx], by
    rw [(exec_searchers_appends_exactly_matching sample_ctx (by simp [sample_ctx])).2]
    decide⟩
theorem find_eq_none_iff (word : List Char) : ∀ line : List Char,
    find line word = none ↔ ¬ word <:+: line := by
  intro line
  induction line with
  | nil =>
    unfold find
    by_cases h : word.isPrefixOf [] = true
    · have : word <+: [] := List.isPrefixOf_iff_prefix.mp h
      simp [h, this.isInfix]
    · have h2 : ¬ word <+: [] := fun hp => h (List.isPrefixOf_iff_prefix.mpr hp)
      simp only [h, if_false, true_iff, Bool.false_eq_true]
      intro hi
      apply h2
      have := List.eq_nil_of_infix_nil hi
      simp [this]
  | cons c t ih =>
    unfold find
    by_cases h : word.isPrefixOf (c :: t) = true
    · have : word <+: (c :: t) := List.isPrefixOf_iff_prefix.mp h
      simp [h, this.isInfix]
    · have h2 : ¬ word <+: (c :: t) := fun hp => h (List.isPrefixOf_iff_prefix.mpr hp)
      simp only [h, if_false, Bool.false_eq_true, Option.map_eq_none', ih]
      rw [List.infix_cons_iff]
      tauto
mutual
theorem match_node_fst (line : List Char) (with_res : Bool) :
    ∀ (n : boolean_node) (out : List matched_word), well_formed n = true →
      (match_node line with_res n out).1 = truth_value line n
  | .null, out, _ => by simp [match_node, truth_value]
  | .node .WORD word cs, out, _ => by
    simp only [match_node, truth_value]
    cases hf : find line word with
    | none =>
      have := (find_eq_none_iff word line).mp hf
      simp [this]
    | some pos =>
      have : word <:+: line := by
        by_contra hc
        rw [(find_eq_none_iff word line).mpr hc] at hf
        cases hf
      simp [this]
  | .node .NOT word [], out, h => by simp [well_formed] at h
  | .node .NOT word [c], out, h => by
    simp only [well_formed] at h
    simp only [match_node, truth_value, match_node_fst line with_res c [] h]
  | .node .NOT word (c :: d :: cs), out, h => by simp [well_formed] at h
  | .node .AND word cs, out, h => by
    simp only [well_formed] at h
    have := match_and_isSome line with_res cs [] h
    simp only [match_node, truth_value, ← this]
    cases match_and line with_res cs [] <;> simp
  | .node .OR word cs, out, h => by
    simp only [well_formed] at h
    simp only [match_node, truth_value, match_or_fst line with_res cs out h]
theorem match_and_isSome (line : List Char) (with_res : Bool) :
    ∀ (cs : List boolean_node) (tmp : List matched_word), well_formed_all cs = true →
      (match_and line with_res cs tmp).isSome = truth_all line cs
  | [], tmp, _ => by simp [match_and, truth_all]
  | c :: cs, tmp, h => by
    simp only [well_formed_all, Bool.and_eq_true] at h
    have h1 := match_node_fst line with_res c [] h.1
    simp only [match_and, truth_all, ← h1]
    rcases hm : match_node line with_res c [] with ⟨b, cm⟩
    cases b
    · simp
    · simp [match_and_isSome line with_res cs (tmp ++ cm) h.2]
theorem match_or_fst (line : List Char) (with_res : Bool) :
    ∀ (cs : List boolean_node) (out : List matched_word), well_formed_all cs = true →
      (match_or line with_res cs out).1 = truth_any line cs
  | [], out, _ => by simp [match_or, truth_any]
  | c :: cs, out, h => by
    simp only [well_formed_all, Bool.and_eq_true] at h
    have h1 := match_node_fst line with_res c out h.1
    simp only [match_or, truth_any, ← h1]
    rcases hm : match_node line with_res c out with ⟨b, out2⟩
    cases b
    · simp [match_or_fst line with_res cs out2 h.2]
    · simp
end

theorem combine_well_formed (nodes : List boolean_node) (ops : List NodeType) (n : boolean_node)
    (hn : well_formed_all nodes = true) (hops : ∀ op ∈ ops, op = .AND ∨ op = .OR)
    (h : combine nodes ops = .ok n) : well_formed n = true := by
  unfold combine at h
  split at h
  · cases h; rfl
  · cases h
    simpa [well_formed_all] using hn
  · split at h
    · cases h
      simpa [boolean_node.of_type, well_formed] using hn
    · split at h
      · cases h
        rename_i op0 rest _
        have h0 := hops op0 (by simp)
        rcases h0 with h0 | h0 <;> subst h0 <;>
          simpa [boolean_node.of_type, well_formed] using hn
      · cases h

theorem well_formed_all_append (xs ys : List boolean_node) :
    well_formed_all (xs ++ ys) = (well_formed_all xs && well_formed_all ys) := by
  induction xs with
  | nil => simp [well_formed_all]
  | cons x xs ih => simp [well_formed_all, ih, Bool.and_assoc]

theorem parse_expr_well_formed : ∀ (fuel : Nat) (tokens : List Token) (nodes : List boolean_node)
    (ops : List NodeType) (n : boolean_node) (rest : List Token),
    well_formed_all nodes = true → (∀ op ∈ ops, op = .AND ∨ op = .OR) →
    parse_expr fuel tokens nodes ops = .ok (n, rest) →
    well_formed n = true := by
  intro fuel
  induction fuel with
  | zero =>
    intro tokens nodes ops n rest hn hops h
    cases tokens with
    | nil =>
      simp only [parse_expr] at h
      split at h
      · cases h
      · rename_i m hm
        cases h
        exact combine_well_formed _ _ _ hn hops hm
    | cons t ts => simp [parse_expr] at h
  | succ fuel ih =>
    intro tokens nodes ops n rest hn hops h
    cases tokens with
    | nil =>
      simp only [parse_expr] at h
      split at h
      · cases h
      · rename_i m hm
        cases h
        exact combine_well_formed _ _ _ hn hops hm
    | cons t ts =>
      simp only [parse_expr] at h
      split at h
      · exact ih _ _ _ _ _ (by simp [well_formed_all_append, hn, well_formed_all, boolean_node.of_word, well_formed]) hops h
      · split at h
        · cases h
        · split at h
          · exact ih _ _ _ _ _ (by simp [well_formed_all_append, hn, well_formed_all, boolean_node.of_word, boolean_node.of_type, well_formed]) hops h
          · split at h
            · cases h
            · rename_i child rest3 hc
              have hw := ih _ _ _ _ _ (by rfl) (by simp) hc
              split at h
              · cases h
              · split at h
                · exact ih _ _ _ _ _ (by simp [well_formed_all_append, hn, well_formed_all, boolean_node.of_type, well_formed, hw]) hops h
                · cases h
          · cases h
      · exact ih _ _ _ _ _ hn (by intro op hop; simp at hop; rcases hop with hop | hop; exact hops op hop; simp [hop]) h
      · exact ih _ _ _ _ _ hn (by intro op hop; simp at hop; rcases hop with hop | hop; exact hops op hop; simp [hop]) h
      · split at h
        · cases h
        · rename_i sub rest3 hc
          have hw := ih _ _ _ _ _ (by rfl) (by simp) hc
          split at h
          · cases h
          · split at h
            · exact ih _ _ _ _ _ (by simp [well_formed_all_append, hn, well_formed_all, hw]) hops h
            · cases h
      · split at h
        · cases h
        · rename_i m hm
          cases h
          exact combine_well_formed _ _ _ hn hops hm
theorem build_pattern_well_formed (pattern : List Char) (root : boolean_node)
    (hb : build_pattern pattern = .ok root) : well_formed root = true := by
  unfold build_pattern at hb
  split at hb
  · cases hb
  · split at hb
    · cases hb
    · rename_i tokens _ r rest hp
      split at hb
      · cases hb
        exact parse_expr_well_formed _ _ _ _ _ _ (by rfl) (by simp) hp
      · cases hb

/-- C2. For every tree built by `build_pattern` and every line, `search_line` returns the
recursive truth value of the tree (`WORD`: the word occurs in the line; `NOT`: negation of the
child; `AND`: all children; `OR`: at least one child), whatever the `with_res` flag and the
incoming `matched` vector. -/
theorem search_line_is_truth_value (pattern : List Char) (root : boolean_node)
    (hb : build_pattern pattern = .ok root) (line : List Char) (matched : List matched_word)
    (with_res : Bool) :
    (search_line root line matched with_res).1 = truth_value line root ∧
    ∀ (matched2 : List matched_word) (with_res2 : Bool),
      (search_line root line matched2 with_res2).1 = (search_line root line matched with_res).1 := by
  have hw := build_pattern_well_formed pattern root hb
  refine ⟨?_, ?_⟩
  · exact match_node_fst line with_res root _ hw
  · intro matched2 with_res2
    unfold search_line
    rw [match_node_fst line with_res root _ hw, match_node_fst line with_res2 root _ hw]

theorem search_line_is_truth_value_witness :
    build_pattern "(foo AND bar) OR NOT baz".toList
      = .ok (.node .OR [] [.node .AND [] [.node .WORD "foo".toList [], .node .WORD "bar".toList []],
                           .node .NOT [] [.node .WORD "baz".toList []]]) ∧
    (search_line (.node .OR [] [.node .AND [] [.node .WORD "foo".toList [], .node .WORD "bar".toList []],
                           .node .NOT [] [.node .WORD "baz".toList []]])
        "foo baz".toList [] true).1 = false :=
  ⟨by rfl, by
    rw [(search_line_is_truth_value "(foo AND bar) OR NOT baz".toList _ (by rfl)
      "foo baz".toList [] true).1]
    decide⟩
theorem unquoted_word_bare (w : List Char) :
    ∀ (rest acc : List Char), (∀ c ∈ w, word_char c = true ∧ c ≠ '\\') →
      operator_end rest = true →
      unquoted_word (w ++ rest) acc = (acc ++ w, rest) := by
  induction w with
  | nil =>
    intro rest acc _ hr
    cases rest with
    | nil => simp [unquoted_word]
    | cons d rest =>
      have hd : word_char d = false := by
        simp only [operator_end, Bool.or_eq_true, decide_eq_true_eq] at hr
        rcases hr with (hr | hr) | hr
        · simp [word_char, hr]
        · subst hr; decide
        · subst hr; decide
      cases rest with
      | nil =>
        simp only [word_char] at hd
        simp [unquoted_word, hd]
      | cons e rest =>
        simp only [word_char] at hd
        simp [unquoted_word, hd]
  | cons c w ih =>
    intro rest acc hw hr
    have hc := hw c (by simp)
    have hc1 : word_char c = true := hc.1
    simp only [word_char] at hc1
    have hw2 : ∀ x ∈ w, word_char x = true ∧ x ≠ '\\' := fun x hx => hw x (by simp [hx])
    cases hwr : w ++ rest with
    | nil =>
      have h1 : w = [] := (List.append_eq_nil.mp hwr).1
      have h2 : rest = [] := (List.append_eq_nil.mp hwr).2
      subst h1; subst h2
      simp [unquoted_word, hc1]
    | cons d tl =>
      have := ih rest (acc ++ [c]) hw2 hr
      rw [hwr] at this
      simp only [List.cons_append, hwr, unquoted_word, hc1, if_true, hc.2, if_false, this]
      simp
theorem operator_end_of_word_char (c : Char) (rest : List Char) (h : word_char c = true) :
    operator_end (c :: rest) = false := by
  simp only [word_char, Bool.and_eq_true, bne_iff_ne, ne_eq, Bool.not_eq_true'] at h
  simp [operator_end, h.1.1.1.1, h.1.1.1.2, h.1.1.2]

theorem keyword_not_taken (rest : List Char) (hr : operator_end rest = true) :
    ∀ (kw w : List Char), (∀ c ∈ kw, word_char c = true) → (∀ c ∈ w, word_char c = true) →
      w ≠ kw → (w ++ rest).take kw.length = kw →
      operator_end ((w ++ rest).drop kw.length) = false := by
  intro kw
  induction kw with
  | nil =>
    intro w _ hw hne _
    cases w with
    | nil => exact absurd rfl hne
    | cons c w =>
      exact operator_end_of_word_char c _ (hw c (by simp))
  | cons k kw ih =>
    intro w hkw hw hne ht
    cases w with
    | nil =>
      cases rest with
      | nil => simp at ht
      | cons d rest =>
        simp only [List.nil_append, List.length_cons, List.take_succ_cons, List.cons.injEq] at ht
        have hk := operator_end_of_word_char k rest (hkw k (by simp))
        rw [ht.1, hk] at hr
        cases hr
    | cons c w =>
      simp only [List.cons_append, List.length_cons, List.take_succ_cons, List.cons.injEq] at ht
      simp only [List.cons_append, List.length_cons, List.drop_succ_cons]
      apply ih w (fun x hx => hkw x (by simp [hx])) (fun x hx => hw x (by simp [hx])) _ ht.2
      intro hwk
      apply hne
      rw [ht.1, hwk]

theorem back_is_word_append (tokens : List Token) (t : Token) :
    back_is_word (tokens ++ [t]) = decide (t.type = TokenType.WORD) := by
  simp [back_is_word]

/-- One round of the tokenizer on a bareword without backslash that is followed by the end
of the pattern, white space or a parenthesis. -/
theorem tokenize_loop_bareword (last : Option Char) (fuel : Nat) (w rest : List Char)
    (tokens : List Token) (hw : bareword w) (hb : ∀ c ∈ w, c ≠ '\\')
    (hr : operator_end rest = true) (ht : back_is_word tokens = false) :
    tokenize_loop last (fuel + 1) (w ++ rest) tokens
      = tokenize_loop last fuel rest (tokens ++ [⟨.WORD, w⟩]) := by
  obtain ⟨hne, hchars, hand, hor, hnot⟩ := hw
  have hu := unquoted_word_bare w rest [] (fun c hc => ⟨hchars c hc, hb c hc⟩) hr
  have k1 := keyword_not_taken rest hr ['A', 'N', 'D'] w (by decide) hchars hand
  have k2 := keyword_not_taken rest hr ['O', 'R'] w (by decide) hchars hor
  have k3 := keyword_not_taken rest hr ['N', 'O', 'T'] w (by decide) hchars hnot
  cases w with
  | nil => exact absurd rfl hne
  | cons c w =>
    have hc := hchars c (by simp)
    simp only [word_char, Bool.and_eq_true, bne_iff_ne, ne_eq, Bool.not_eq_true'] at hc
    obtain ⟨⟨⟨⟨h1, h2⟩, h3⟩, h4⟩, h5⟩ := hc
    simp only [List.cons_append] at hu k1 k2 k3 ⊢
    simp only [tokenize_loop, h1, h2, h3, h4, h5, Bool.false_eq_true, if_false, decide_False,
      Bool.or_self, hu, ht]
    have e1 : ¬ ((decide (2 < (c :: (w ++ rest)).length) &&
        decide (List.take 3 (c :: (w ++ rest)) = ['A', 'N', 'D']) &&
        operator_end (List.drop 3 (c :: (w ++ rest)))) = true) := by
      intro h
      simp only [Bool.and_eq_true, decide_eq_true_eq] at h
      have := k1 h.1.2
      simp only [List.length_cons, List.length_nil] at this
      rw [this] at h
      exact absurd h.2 (by simp)
    have e2 : ¬ ((decide (1 < (c :: (w ++ rest)).length) &&
        decide (List.take 2 (c :: (w ++ rest)) = ['O', 'R']) &&
        operator_end (List.drop 2 (c :: (w ++ rest)))) = true) := by
      intro h
      simp only [Bool.and_eq_true, decide_eq_true_eq] at h
      have := k2 h.1.2
      simp only [List.length_cons, List.length_nil] at this
      rw [this] at h
      exact absurd h.2 (by simp)
    have e3 : ¬ ((decide (2 < (c :: (w ++ rest)).length) &&
        decide (List.take 3 (c :: (w ++ rest)) = ['N', 'O', 'T']) &&
        operator_end (List.drop 3 (c :: (w ++ rest)))) = true) := by
      intro h
      simp only [Bool.and_eq_true, decide_eq_true_eq] at h
      have := k3 h.1.2
      simp only [List.length_cons, List.length_nil] at this
      rw [this] at h
      exact absurd h.2 (by simp)
    rw [if_neg e1, if_neg e2, if_neg e3]
    simp
theorem tokenize_loop_space (last : Option Char) (fuel : Nat) (rest : List Char)
    (tokens : List Token) :
    tokenize_loop last (fuel + 1) (' ' :: rest) tokens = tokenize_loop last fuel rest tokens := by
  simp [tokenize_loop, isspace]

theorem tokenize_loop_lparen (last : Option Char) (fuel : Nat) (rest : List Char)
    (tokens : List Token) :
    tokenize_loop last (fuel + 1) ('(' :: rest) tokens
      = tokenize_loop last fuel rest (tokens ++ [⟨.LPAREN, ['(']⟩]) := by
  simp [tokenize_loop, isspace]

theorem tokenize_loop_rparen (last : Option Char) (fuel : Nat) (rest : List Char)
    (tokens : List Token) :
    tokenize_loop last (fuel + 1) (')' :: rest) tokens
      = tokenize_loop last fuel rest (tokens ++ [⟨.RPAREN, [')']⟩]) := by
  simp [tokenize_loop, isspace]

theorem tokenize_loop_and (last : Option Char) (fuel : Nat) (rest : List Char)
    (tokens : List Token) (hr : operator_end rest = true) :
    tokenize_loop last (fuel + 1) ('A' :: 'N' :: 'D' :: rest) tokens
      = tokenize_loop last fuel rest (tokens ++ [⟨.AND, ['A', 'N', 'D']⟩]) := by
  simp [tokenize_loop, isspace, hr]

theorem tokenize_loop_or (last : Option Char) (fuel : Nat) (rest : List Char)
    (tokens : List Token) (hr : operator_end rest = true) :
    tokenize_loop last (fuel + 1) ('O' :: 'R' :: rest) tokens
      = tokenize_loop last fuel rest (tokens ++ [⟨.OR, ['O', 'R']⟩]) := by
  simp [tokenize_loop, isspace, hr]

theorem tokenize_loop_not (last : Option Char) (fuel : Nat) (rest : List Char)
    (tokens : List Token) (hr : operator_end rest = true) :
    tokenize_loop last (fuel + 1) ('N' :: 'O' :: 'T' :: rest) tokens
      = tokenize_loop last fuel rest (tokens ++ [⟨.NOT, ['N', 'O', 'T']⟩]) := by
  simp [tokenize_loop, isspace, hr]

theorem tokenize_and_or_not (last : Option Char) (k : Nat) (A B C : List Char)
    (hA : bareword A) (hB : bareword B) (hC : bareword C)
    (hAb : ∀ c ∈ A, c ≠ '\\') (hBb : ∀ c ∈ B, c ≠ '\\') (hCb : ∀ c ∈ C, c ≠ '\\') :
    tokenize_loop last (k + 13) (and_or_not_pattern A B C) []
      = .ok [⟨.LPAREN, ['(']⟩, ⟨.WORD, A⟩, ⟨.AND, ['A', 'N', 'D']⟩, ⟨.WORD, B⟩,
             ⟨.RPAREN, [')']⟩, ⟨.OR, ['O', 'R']⟩, ⟨.NOT, ['N', 'O', 'T']⟩, ⟨.WORD, C⟩] := by
  have e : and_or_not_pattern A B C
      = '(' :: (A ++ (' ' :: 'A' :: 'N' :: 'D' :: ' ' :: (B ++ (')' :: ' ' :: 'O' :: 'R' :: ' ' ::
          'N' :: 'O' :: 'T' :: ' ' :: (C ++ []))))) := by
    simp [and_or_not_pattern]
  rw [e, tokenize_loop_lparen,
    tokenize_loop_bareword last (k + 11) A _ _ hA hAb (by rfl) (by rfl),
    tokenize_loop_space, tokenize_loop_and _ _ _ _ (by rfl), tokenize_loop_space,
    tokenize_loop_bareword last (k + 7) B _ _ hB hBb (by rfl) (by rfl),
    tokenize_loop_rparen, tokenize_loop_space, tokenize_loop_or _ _ _ _ (by rfl),
    tokenize_loop_space, tokenize_loop_not _ _ _ _ (by rfl), tokenize_loop_space,
    tokenize_loop_bareword last k C _ _ hC hCb (by rfl) (by rfl)]
  cases k <;> simp [tokenize_loop]
theorem trim_chars_of_word_char (c : Char) (h : word_char c = true) : trim_chars c = false := by
  simp only [word_char, Bool.and_eq_true, bne_iff_ne, ne_eq, Bool.not_eq_true', isspace,
    Bool.or_eq_false_iff, decide_eq_false_iff_not] at h
  simp [trim_chars, h.1.1.1.1]

theorem trim_and_or_not (A B C : List Char) (hC : bareword C) :
    trim (and_or_not_pattern A B C) = and_or_not_pattern A B C := by
  obtain ⟨hne, hchars, -⟩ := hC
  obtain ⟨C2, l, rfl⟩ : ∃ C2 l, C = C2 ++ [l] := by
    rcases List.eq_nil_or_concat C with h | ⟨C2, l, h⟩
    · exact absurd h hne
    · exact ⟨C2, l, by simpa using h⟩
  have hl : trim_chars l = false := trim_chars_of_word_char l (hchars l (by simp))
  have h1 : trim_chars '(' = false := by decide
  unfold trim and_or_not_pattern
  rw [List.dropWhile_cons_of_neg (by simp [h1])]
  have : ('(' :: (A ++ (" AND ".toList ++ (B ++ (") OR NOT ".toList ++ (C2 ++ [l])))))).reverse
      = l :: ('(' :: (A ++ (" AND ".toList ++ (B ++ (") OR NOT ".toList ++ C2))))).reverse := by
    simp
  rw [this, List.dropWhile_cons_of_neg (by simp [hl]), ← this, List.reverse_reverse]

theorem build_and_or_not (A B C : List Char)
    (hA : bareword A) (hB : bareword B) (hC : bareword C)
    (hAb : ∀ c ∈ A, c ≠ '\\') (hBb : ∀ c ∈ B, c ≠ '\\') (hCb : ∀ c ∈ C, c ≠ '\\') :
    build_pattern (and_or_not_pattern A B C)
      = .ok (.node .OR [] [.node .AND [] [.node .WORD A [], .node .WORD B []],
                            .node .NOT [] [.node .WORD C []]]) := by
  unfold build_pattern
  rw [trim_and_or_not A B C hC]
  unfold tokenize
  obtain ⟨k, hk⟩ : ∃ k, (and_or_not_pattern A B C).length = k + 13 := by
    refine ⟨(and_or_not_pattern A B C).length - 13, ?_⟩
    simp [and_or_not_pattern]
    omega
  rw [hk, tokenize_and_or_not _ k A B C hA hB hC hAb hBb hCb]
  rfl
/-- C3 (amended). For all barewords `A`, `B`, `C` that contain no backslash,
`build_pattern("(A AND B) OR NOT C")` succeeds and the resulting matcher matches a line iff
`A` and `B` both occur in it or `C` does not occur in it; with `foo`, `bar`, `baz` it matches
"foo and bar in one" and "just foo" and rejects "baz only" and "foo baz". -/
theorem and_or_not_pattern_matches (A B C : List Char)
    (hA : bareword A) (hB : bareword B) (hC : bareword C)
    (hAb : ∀ c ∈ A, c ≠ '\\') (hBb : ∀ c ∈ B, c ≠ '\\') (hCb : ∀ c ∈ C, c ≠ '\\') :
    (∃ root, build_pattern (and_or_not_pattern A B C) = .ok root ∧
      ∀ (line : List Char) (matched : List matched_word) (with_res : Bool),
        (search_line root line matched with_res).1 = true
          ↔ ((A <:+: line ∧ B <:+: line) ∨ ¬ C <:+: line)) ∧
    (∃ root, build_pattern "(foo AND bar) OR NOT baz".toList = .ok root ∧
      (search_line root "foo and bar in one".toList [] false).1 = true ∧
      (search_line root "just foo".toList [] false).1 = true ∧
      (search_line root "baz only".toList [] false).1 = false ∧
      (search_line root "foo baz".toList [] false).1 = false) := by
  refine ⟨⟨_, build_and_or_not A B C hA hB hC hAb hBb hCb, ?_⟩, ⟨_, rfl, ?_⟩⟩
  · intro line matched with_res
    have hw := build_pattern_well_formed _ _ (build_and_or_not A B C hA hB hC hAb hBb hCb)
    unfold search_line
    rw [match_node_fst line with_res _ _ hw]
    simp [truth_value, truth_all, truth_any]
  · refine ⟨?_, ?_, ?_, ?_⟩ <;> decide

theorem and_or_not_pattern_matches_witness :
    bareword "foo".toList ∧ bareword "bar".toList ∧ bareword "baz".toList ∧
    ∃ root, build_pattern (and_or_not_pattern "foo".toList "bar".toList "baz".toList) = .ok root ∧
      ((search_line root "foo baz bar".toList [] true).1 = true
        ↔ (("foo".toList <:+: "foo baz bar".toList ∧ "bar".toList <:+: "foo baz bar".toList)
            ∨ ¬ "baz".toList <:+: "foo baz bar".toList)) :=
  have hA : bareword "foo".toList := by unfold bareword; decide
  have hB : bareword "bar".toList := by unfold bareword; decide
  have hC : bareword "baz".toList := by unfold bareword; decide
  have h := (and_or_not_pattern_matches "foo".toList "bar".toList "baz".toList hA hB hC
    (by decide) (by decide) (by decide)).1
  ⟨hA, hB, hC, h.choose, h.choose_spec.1, h.choose_spec.2 _ _ _⟩

/-- C3 as stated fails for a bareword with a backslash: the tokenizer takes the backslash as
an escape, so the pattern `(a\b AND x) OR NOT y` searches for `ab`; it matches the line
`ab x y`, in which `a\b` does not occur and `y` occurs. -/
theorem bareword_backslash_counterexample :
    bareword "a\\b".toList ∧ bareword "x".toList ∧ bareword "y".toList ∧
    ∃ root, build_pattern (and_or_not_pattern "a\\b".toList "x".toList "y".toList) = .ok root ∧
      (search_line root "ab x y".toList [] false).1 = true ∧
      ¬ (("a\\b".toList <:+: "ab x y".toList ∧ "x".toList <:+: "ab x y".toList)
          ∨ ¬ "y".toList <:+: "ab x y".toList) := by
  refine ⟨by unfold bareword; decide, by unfold bareword; decide, by unfold bareword; decide,
    _, rfl, by decide, by decide⟩
theorem quoted_word_length (quote : Char) : ∀ (n : Nat) (rest word : List Char),
    rest.length ≤ n → (quoted_word quote rest word).2.length ≤ rest.length := by
  intro n
  induction n with
  | zero =>
    intro rest word h
    cases rest with
    | nil => simp [quoted_word]
    | cons c r => simp at h
  | succ n ih =>
    intro rest word h
    match rest with
    | [] => simp [quoted_word]
    | [c] =>
      simp only [quoted_word]
      split <;> simp
    | c :: d :: r =>
      simp only [quoted_word]
      simp only [List.length_cons] at h
      split
      · have := ih r (word ++ [d]) (by omega)
        simp only [List.length_cons]; omega
      · split
        · simp
        · have := ih (d :: r) (word ++ [c]) (by simp only [List.length_cons]; omega)
          simp only [List.length_cons] at this ⊢; omega

theorem unquoted_word_length : ∀ (n : Nat) (rest word : List Char),
    rest.length ≤ n → (unquoted_word rest word).2.length ≤ rest.length := by
  intro n
  induction n with
  | zero =>
    intro rest word h
    cases rest with
    | nil => simp [unquoted_word]
    | cons c r => simp at h
  | succ n ih =>
    intro rest word h
    match rest with
    | [] => simp [unquoted_word]
    | [c] =>
      simp only [unquoted_word]
      split <;> simp
    | c :: d :: r =>
      simp only [unquoted_word]
      simp only [List.length_cons] at h
      split
      · split
        · have := ih r (word ++ [d]) (by omega)
          simp only [List.length_cons]; omega
        · have := ih (d :: r) (word ++ [c]) (by simp only [List.length_cons]; omega)
          simp only [List.length_cons] at this ⊢; omega
      · simp

/-- The first character of an unquoted word is consumed. -/
theorem unquoted_word_progress (c : Char) (rest : List Char) (hc : word_char c = true) :
    (unquoted_word (c :: rest) []).2.length ≤ rest.length := by
  simp only [word_char] at hc
  cases rest with
  | nil => simp [unquoted_word, hc]
  | cons d r =>
    simp only [unquoted_word, hc, if_true]
    split
    · have := unquoted_word_length r.length r ([] ++ [d]) (le_refl _)
      simp only [List.length_cons]; omega
    · exact unquoted_word_length _ (d :: r) _ (le_refl _)

/-- The fuel of the tokenizer is never exhausted when it is at least the length of the
pattern. -/
theorem tokenize_fuel (last : Option Char) : ∀ (fuel : Nat) (rest : List Char)
    (tokens : List Token), rest.length ≤ fuel →
    tokenize_loop last fuel rest tokens ≠ .error .fuel := by
  intro fuel
  induction fuel with
  | zero =>
    intro rest tokens h
    cases rest with
    | nil => simp [tokenize_loop]
    | cons c r => simp at h
  | succ fuel ih =>
    intro rest tokens h
    cases rest with
    | nil => simp [tokenize_loop]
    | cons c r =>
      simp only [List.length_cons, Nat.add_le_add_iff_right] at h
      simp only [tokenize_loop]
      split
      · exact ih _ _ h
      split
      · exact ih _ _ h
      split
      · exact ih _ _ h
      split
      · have hq := quoted_word_length c r.length r [] (le_refl _)
        split
        · simp
        · split
          · split
            · simp
            · exact ih _ _ (by omega)
          · exact ih _ _ (by omega)
      split
      · exact ih _ _ (by simp only [List.drop_succ_cons, List.length_drop]; omega)
      split
      · exact ih _ _ (by simp only [List.drop_succ_cons, List.length_drop]; omega)
      split
      · exact ih _ _ (by simp only [List.drop_succ_cons, List.length_drop]; omega)
      · rename_i h1 h2 h3 h4 _ _ _
        have hc : word_char c = true := by
          simp only [Bool.or_eq_true, decide_eq_true_eq, not_or] at h4
          simp only [word_char, Bool.and_eq_true, bne_iff_ne, ne_eq, Bool.not_eq_true']
          simp only [Bool.not_eq_true] at h1
          exact ⟨⟨⟨⟨h1, h2⟩, h3⟩, h4.1⟩, h4.2⟩
        have hu := unquoted_word_progress c r hc
        split
        · split
          · simp
          · exact ih _ _ (by omega)
        · exact ih _ _ (by omega)
theorem combine_ne_fuel (nodes : List boolean_node) (ops : List NodeType) :
    combine nodes ops ≠ .error .fuel := by
  unfold combine
  split
  · simp
  · simp
  · split
    · simp
    · split <;> simp

/-- The fuel of the parser is never exhausted when it is at least the number of tokens, and
the parser returns a position that is not before the one it started from. -/
theorem parse_fuel : ∀ (fuel : Nat) (tokens : List Token) (nodes : List boolean_node)
    (ops : List NodeType), tokens.length ≤ fuel →
    parse_expr fuel tokens nodes ops ≠ .error .fuel ∧
    ∀ n rest, parse_expr fuel tokens nodes ops = .ok (n, rest) → rest.length ≤ tokens.length := by
  intro fuel
  induction fuel with
  | zero =>
    intro tokens nodes ops h
    cases tokens with
    | nil =>
      simp only [parse_expr]
      have := combine_ne_fuel nodes ops
      split
      · rename_i e he
        refine ⟨?_, by simp⟩
        intro h2; cases h2; exact this he
      · refine ⟨by simp, ?_⟩
        intro n rest h2; cases h2; simp
    | cons t ts => simp at h
  | succ fuel ih =>
    intro tokens nodes ops h
    cases tokens with
    | nil =>
      simp only [parse_expr]
      have := combine_ne_fuel nodes ops
      split
      · rename_i e he
        refine ⟨?_, by simp⟩
        intro h2; cases h2; exact this he
      · refine ⟨by simp, ?_⟩
        intro n rest h2; cases h2; simp
    | cons t ts =>
      simp only [List.length_cons, Nat.add_le_add_iff_right] at h
      simp only [parse_expr]
      split
      · have := ih ts (nodes ++ [.of_word t.value]) ops h
        exact ⟨this.1, fun n rest hr => by have := this.2 n rest hr; simp only [List.length_cons]; omega⟩
      · split
        · exact ⟨by simp, by simp⟩
        · rename_i t2 ts2
          simp only [List.length_cons] at h
          split
          · have := ih ts2 (nodes ++ [.of_type .NOT [.of_word t2.value]]) ops (by omega)
            exact ⟨this.1, fun n rest hr => by have := this.2 n rest hr; simp only [List.length_cons]; omega⟩
          · have hin := ih ts2 [] [] (by omega)
            split
            · rename_i e he
              refine ⟨?_, by simp⟩
              intro h2; cases h2; exact hin.1 he
            · rename_i child rest3 hc
              have hl := hin.2 _ _ hc
              split
              · exact ⟨by simp, by simp⟩
              · rename_i t3 rest4
                simp only [List.length_cons] at hl
                split
                · have := ih rest4 (nodes ++ [.of_type .NOT [child]]) ops (by omega)
                  exact ⟨this.1, fun n rest hr => by have := this.2 n rest hr; simp only [List.length_cons]; omega⟩
                · exact ⟨by simp, by simp⟩
          · exact ⟨by simp, by simp⟩
      · have := ih ts nodes (ops ++ [.AND]) h
        exact ⟨this.1, fun n rest hr => by have := this.2 n rest hr; simp only [List.length_cons]; omega⟩
      · have := ih ts nodes (ops ++ [.OR]) h
        exact ⟨this.1, fun n rest hr => by have := this.2 n rest hr; simp only [List.length_cons]; omega⟩
      · have hin := ih ts [] [] h
        split
        · rename_i e he
          refine ⟨?_, by simp⟩
          intro h2; cases h2; exact hin.1 he
        · rename_i sub rest3 hc
          have hl := hin.2 _ _ hc
          split
          · exact ⟨by simp, by simp⟩
          · rename_i t3 rest4
            simp only [List.length_cons] at hl
            split
            · have := ih rest4 (nodes ++ [sub]) ops (by omega)
              exact ⟨this.1, fun n rest hr => by have := this.2 n rest hr; simp only [List.length_cons]; omega⟩
            · exact ⟨by simp, by simp⟩
      · have := combine_ne_fuel nodes ops
        split
        · rename_i e he
          refine ⟨?_, by simp⟩
          intro h2; cases h2; exact this he
        · refine ⟨by simp, ?_⟩
          intro n rest h2; cases h2; simp

/-- The exception of `build_pattern` is never the exhaustion of the fuel of the embedding. -/
theorem build_pattern_fuel (pattern : List Char) : build_pattern pattern ≠ .error .fuel := by
  unfold build_pattern
  split
  · rename_i e he
    intro h; cases h
    exact tokenize_fuel _ _ _ _ (le_refl _) he
  · rename_i tokens _
    split
    · rename_i e he
      intro h; cases h
      exact (parse_fuel _ tokens [] [] (le_refl _)).1 he
    · split <;> simp
theorem combine_mixed (nodes : List boolean_node) (ops : List NodeType)
    (hn : 2 ≤ nodes.length) (ha : NodeType.AND ∈ ops) (ho : NodeType.OR ∈ ops) :
    combine nodes ops = .error .operators_differ := by
  unfold combine
  match nodes, hn with
  | a :: b :: rest, _ =>
    simp only
    cases ops with
    | nil => simp at ha
    | cons op0 r =>
      simp only
      rw [if_neg]
      intro hall
      simp only [List.all_eq_true, decide_eq_true_eq] at hall
      simp only [List.mem_cons] at ha ho
      rcases ha with ha | ha <;> rcases ho with ho | ho
      · rw [← ha] at ho; cases ho
      · have := hall _ ho; rw [← ha] at this; cases this
      · have := hall _ ha; rw [← ho] at this; cases this
      · have h1 := hall _ ha; have h2 := hall _ ho; rw [← h1] at h2; cases h2

theorem render_level_eq_nil (items : List Item) (h : render_level items = []) : items = [] := by
  cases items with
  | nil => rfl
  | cons i rest =>
    cases i <;> simp [render_level, Item.render] at h
theorem parse_expr_at_end (fuel : Nat) (tokens : List Token) (nodes : List boolean_node)
    (ops : List NodeType)
    (h : tokens = [] ∨ ∃ t ts, tokens = t :: ts ∧ t.type = .RPAREN ∧ 0 < fuel) :
    (∃ e, parse_expr fuel tokens nodes ops = .error e) ∨
    (∃ n, combine nodes ops = .ok n ∧ parse_expr fuel tokens nodes ops = .ok (n, tokens)) := by
  rcases h with h | ⟨t, ts, h, ht, hf⟩
  · subst h
    cases hc : combine nodes ops with
    | error e => left; exact ⟨e, by cases fuel <;> simp [parse_expr, hc]⟩
    | ok n => right; exact ⟨n, rfl, by cases fuel <;> simp [parse_expr, hc]⟩
  · subst h
    obtain ⟨f, rfl⟩ : ∃ f, fuel = f + 1 := ⟨fuel - 1, by omega⟩
    cases hc : combine nodes ops with
    | error e => left; exact ⟨e, by simp [parse_expr, ht, hc]⟩
    | ok n => right; exact ⟨n, rfl, by simp [parse_expr, ht, hc]⟩

/-- The parser on the tokens of one nesting level followed by the end or a closing
parenthesis: it throws, or it returns the combination of as many nodes as the level has
operands with the operators of the level. -/
theorem parse_level : ∀ (fuel : Nat) (tokens : List Token) (items : List Item)
    (post : List TokenType) (nodes : List boolean_node) (ops : List NodeType),
    tokens.map (fun t => t.type) = render_level items ++ post → closes_level post →
    (∃ e, parse_expr fuel tokens nodes ops = .error e) ∨
    (∃ nodes2 n rest, nodes2.length = nodes.length + operands items ∧
      rest.map (fun t => t.type) = post ∧
      combine nodes2 (ops ++ level_ops items) = .ok n ∧
      parse_expr fuel tokens nodes ops = .ok (n, rest)) := by
  intro fuel
  induction fuel with
  | zero =>
    intro tokens items post nodes ops hm hp
    cases tokens with
    | nil =>
      simp only [List.map_nil] at hm
      have h1 := List.append_eq_nil.mp hm.symm
      have hi := render_level_eq_nil items h1.1
      subst hi
      rcases parse_expr_at_end 0 [] nodes ops (Or.inl rfl) with h | ⟨n, hc, h⟩
      · exact Or.inl h
      · exact Or.inr ⟨nodes, n, [], by simp [operands], by simp [h1.2], by simpa [level_ops] using hc, h⟩
    | cons t ts => exact Or.inl ⟨_, rfl⟩
  | succ fuel ih =>
    intro tokens items post nodes ops hm hp
    cases items with
    | nil =>
      simp only [render_level, List.nil_append] at hm
      have hend : tokens = [] ∨ ∃ t ts, tokens = t :: ts ∧ t.type = .RPAREN ∧ 0 < fuel + 1 := by
        cases tokens with
        | nil => exact Or.inl rfl
        | cons t ts =>
          right
          refine ⟨t, ts, rfl, ?_, by omega⟩
          rcases hp with hp | hp
          · rw [hp] at hm; simp at hm
          · rw [← hm] at hp; simpa using hp
      rcases parse_expr_at_end (fuel + 1) tokens nodes ops hend with h | ⟨n, hc, h⟩
      · exact Or.inl h
      · exact Or.inr ⟨nodes, n, tokens, by simp [operands], hm, by simpa [level_ops] using hc, h⟩
    | cons item items =>
      cases item with
      | word =>
        obtain ⟨t, ts, rfl, ht, hts⟩ : ∃ t ts, tokens = t :: ts ∧ t.type = .WORD ∧
            ts.map (fun t => t.type) = render_level items ++ post := by
          cases tokens with
          | nil => simp [render_level, Item.render] at hm
          | cons t ts =>
            simp only [render_level, Item.render, List.map_cons, List.cons_append,
              List.nil_append, List.cons.injEq] at hm
            exact ⟨t, ts, rfl, hm.1, hm.2⟩
        simp only [parse_expr, ht]
        rcases ih ts items post (nodes ++ [.of_word t.value]) ops hts hp with h | ⟨n2, n, rest, h1, h2, h3, h4⟩
        · exact Or.inl h
        · exact Or.inr ⟨n2, n, rest, by simp [operands] at h1 ⊢; omega, h2, by simpa [level_ops] using h3, h4⟩
      | not_word =>
        obtain ⟨t, t2, ts, rfl, ht, ht2, hts⟩ : ∃ t t2 ts, tokens = t :: t2 :: ts ∧ t.type = .NOT ∧
            t2.type = .WORD ∧ ts.map (fun t => t.type) = render_level items ++ post := by
          match tokens, hm with
          | [], hm => simp [render_level, Item.render] at hm
          | [t], hm => simp [render_level, Item.render] at hm
          | t :: t2 :: ts, hm =>
            simp only [render_level, Item.render, List.map_cons, List.cons_append,
              List.nil_append, List.cons.injEq] at hm
            exact ⟨t, t2, ts, rfl, hm.1, hm.2.1, hm.2.2⟩
        simp only [parse_expr, ht, ht2]
        rcases ih ts items post (nodes ++ [.of_type .NOT [.of_word t2.value]]) ops hts hp with h | ⟨n2, n, rest, h1, h2, h3, h4⟩
        · exact Or.inl h
        · exact Or.inr ⟨n2, n, rest, by simp [operands] at h1 ⊢; omega, h2, by simpa [level_ops] using h3, h4⟩
      | and_op =>
        obtain ⟨t, ts, rfl, ht, hts⟩ : ∃ t ts, tokens = t :: ts ∧ t.type = .AND ∧
            ts.map (fun t => t.type) = render_level items ++ post := by
          cases tokens with
          | nil => simp [render_level, Item.render] at hm
          | cons t ts =>
            simp only [render_level, Item.render, List.map_cons, List.cons_append,
              List.nil_append, List.cons.injEq] at hm
            exact ⟨t, ts, rfl, hm.1, hm.2⟩
        simp only [parse_expr, ht]
        rcases ih ts items post nodes (ops ++ [.AND]) hts hp with h | ⟨n2, n, rest, h1, h2, h3, h4⟩
        · exact Or.inl h
        · exact Or.inr ⟨n2, n, rest, by simp [operands] at h1 ⊢; omega, h2, by simpa [level_ops] using h3, h4⟩
      | or_op =>
        obtain ⟨t, ts, rfl, ht, hts⟩ : ∃ t ts, tokens = t :: ts ∧ t.type = .OR ∧
            ts.map (fun t => t.type) = render_level items ++ post := by
          cases tokens with
          | nil => simp [render_level, Item.render] at hm
          | cons t ts =>
            simp only [render_level, Item.render, List.map_cons, List.cons_append,
              List.nil_append, List.cons.injEq] at hm
            exact ⟨t, ts, rfl, hm.1, hm.2⟩
        simp only [parse_expr, ht]
        rcases ih ts items post nodes (ops ++ [.OR]) hts hp with h | ⟨n2, n, rest, h1, h2, h3, h4⟩
        · exact Or.inl h
        · exact Or.inr ⟨n2, n, rest, by simp [operands] at h1 ⊢; omega, h2, by simpa [level_ops] using h3, h4⟩
      | group g =>
        obtain ⟨t, ts, rfl, ht, hts⟩ : ∃ t ts, tokens = t :: ts ∧ t.type = .LPAREN ∧
            ts.map (fun t => t.type)
              = render_level g ++ (.RPAREN :: (render_level items ++ post)) := by
          cases tokens with
          | nil => simp [render_level, Item.render] at hm
          | cons t ts =>
            simp only [render_level, Item.render, List.map_cons, List.cons_append,
              List.nil_append, List.cons.injEq, List.append_assoc] at hm
            exact ⟨t, ts, rfl, hm.1, hm.2⟩
        simp only [parse_expr, ht]
        rcases ih ts g _ [] [] hts (Or.inr rfl) with ⟨e, h⟩ | ⟨n2, n, rest, _, h2, _, h4⟩
        · exact Or.inl ⟨e, by rw [h]⟩
        · rw [h4]
          obtain ⟨t3, rest4, rfl, ht3, hr4⟩ : ∃ t3 rest4, rest = t3 :: rest4 ∧ t3.type = .RPAREN ∧
              rest4.map (fun t => t.type) = render_level items ++ post := by
            cases rest with
            | nil => simp at h2
            | cons t3 rest4 =>
              simp only [List.map_cons, List.cons.injEq] at h2
              exact ⟨t3, rest4, rfl, h2.1, h2.2⟩
          simp only [ht3, if_true]
          rcases ih rest4 items post (nodes ++ [n]) ops hr4 hp with h | ⟨n2, n, rest, h1, h2, h3, h4⟩
          · exact Or.inl h
          · exact Or.inr ⟨n2, n, rest, by simp [operands] at h1 ⊢; omega, h2, by simpa [level_ops] using h3, h4⟩
      | not_group g =>
        obtain ⟨t, t2, ts, rfl, ht, ht2, hts⟩ : ∃ t t2 ts, tokens = t :: t2 :: ts ∧ t.type = .NOT ∧
            t2.type = .LPAREN ∧ ts.map (fun t => t.type)
              = render_level g ++ (.RPAREN :: (render_level items ++ post)) := by
          match tokens, hm with
          | [], hm => simp [render_level, Item.render] at hm
          | [t], hm => simp [render_level, Item.render] at hm
          | t :: t2 :: ts, hm =>
            simp only [render_level, Item.render, List.map_cons, List.cons_append,
              List.nil_append, List.cons.injEq, List.append_assoc] at hm
            exact ⟨t, t2, ts, rfl, hm.1, hm.2.1, hm.2.2⟩
        simp only [parse_expr, ht, ht2]
        rcases ih ts g _ [] [] hts (Or.inr rfl) with ⟨e, h⟩ | ⟨n2, n, rest, _, h2, _, h4⟩
        · exact Or.inl ⟨e, by rw [h]⟩
        · rw [h4]
          obtain ⟨t3, rest4, rfl, ht3, hr4⟩ : ∃ t3 rest4, rest = t3 :: rest4 ∧ t3.type = .RPAREN ∧
              rest4.map (fun t => t.type) = render_level items ++ post := by
            cases rest with
            | nil => simp at h2
            | cons t3 rest4 =>
              simp only [List.map_cons, List.cons.injEq] at h2
              exact ⟨t3, rest4, rfl, h2.1, h2.2⟩
          simp only [ht3, if_true]
          rcases ih rest4 items post (nodes ++ [.of_type .NOT [n]]) ops hr4 hp with h | ⟨n2, n, rest, h1, h2, h3, h4⟩
          · exact Or.inl h
          · exact Or.inr ⟨n2, n, rest, by simp [operands] at h1 ⊢; omega, h2, by simpa [level_ops] using h3, h4⟩
theorem getLast_tail (p : TokenType) (pt : List TokenType)
    (h : (p :: pt).getLast? = some .LPAREN) (hp : p ≠ .LPAREN) :
    pt ≠ [] ∧ pt.getLast? = some .LPAREN := by
  cases pt with
  | nil => simp at h; exact absurd h hp
  | cons q r => exact ⟨by simp, by simpa [List.getLast?_cons_cons] using h⟩

theorem getLast_tail_of_ne (p : TokenType) (pt : List TokenType)
    (h : (p :: pt).getLast? = some .LPAREN) (hp : pt ≠ []) :
    pt.getLast? = some .LPAREN := by
  cases pt with
  | nil => exact absurd rfl hp
  | cons q r => simpa [List.getLast?_cons_cons] using h

theorem map_type_cons (tokens : List Token) (p : TokenType) (rest : List TokenType)
    (h : tokens.map (fun t => t.type) = p :: rest) :
    ∃ t ts, tokens = t :: ts ∧ t.type = p ∧ ts.map (fun t => t.type) = rest := by
  cases tokens with
  | nil => simp at h
  | cons t ts =>
    simp only [List.map_cons, List.cons.injEq] at h
    exact ⟨t, ts, rfl, h.1, h.2⟩

/-- The parser started before a nesting level that holds two operands, an `AND` and an `OR`:
it throws, or it returns at a closing parenthesis that still stands before that level. -/
theorem parse_before_mixed_level (items : List Item) (post : List TokenType)
    (hp : closes_level post) (ha : NodeType.AND ∈ level_ops items)
    (ho : NodeType.OR ∈ level_ops items) (h2 : 2 ≤ operands items) :
    ∀ (fuel : Nat) (tokens : List Token) (pre : List TokenType) (nodes : List boolean_node)
      (ops : List NodeType), pre ≠ [] → pre.getLast? = some .LPAREN →
      tokens.map (fun t => t.type) = pre ++ (render_level items ++ post) →
      (∃ e, parse_expr fuel tokens nodes ops = .error e) ∨
      (∃ n rest pre2, parse_expr fuel tokens nodes ops = .ok (n, rest) ∧ pre2 ≠ [] ∧
        pre2.getLast? = some .LPAREN ∧
        rest.map (fun t => t.type) = pre2 ++ (render_level items ++ post)) := by
  have inner : ∀ (fuel : Nat) (ts : List Token),
      ts.map (fun t => t.type) = render_level items ++ post →
      ∃ e, parse_expr fuel ts [] [] = .error e := by
    intro fuel ts hts
    rcases parse_level fuel ts items post [] [] hts hp with h | ⟨n2, n, rest, h1, _, h3, _⟩
    · exact h
    · rw [combine_mixed n2 _ (by simp at h1; omega) (by simpa using ha) (by simpa using ho)] at h3
      cases h3
  intro fuel
  induction fuel with
  | zero =>
    intro tokens pre nodes ops hne hl hm
    cases tokens with
    | nil =>
      simp only [List.map_nil] at hm
      exact absurd (List.append_eq_nil.mp hm.symm).1 hne
    | cons t ts => exact Or.inl ⟨_, rfl⟩
  | succ fuel ih =>
    intro tokens pre nodes ops hne hl hm
    -- a nested call made for a parenthesis that stands before the level
    have after : ∀ (ts : List Token) (pt : List TokenType),
        (pt = [] ∨ pt.getLast? = some .LPAREN) →
        ts.map (fun t => t.type) = pt ++ (render_level items ++ post) →
        (∃ e, parse_expr fuel ts [] [] = .error e) ∨
        (∃ sub t3 rest4, parse_expr fuel ts [] [] = .ok (sub, t3 :: rest4) ∧
          (t3.type = .RPAREN → ∀ (nodes2 : List boolean_node) (ops2 : List NodeType),
            (∃ e, parse_expr fuel rest4 nodes2 ops2 = .error e) ∨
            (∃ n rest pre2, parse_expr fuel rest4 nodes2 ops2 = .ok (n, rest) ∧ pre2 ≠ [] ∧
              pre2.getLast? = some .LPAREN ∧
              rest.map (fun t => t.type) = pre2 ++ (render_level items ++ post)))) := by
      intro ts pt hpt hts
      by_cases hnil : pt = []
      · subst hnil
        exact Or.inl (inner fuel ts (by simpa using hts))
      · have hlast : pt.getLast? = some .LPAREN := by
          rcases hpt with h | h
          · exact absurd h hnil
          · exact h
        rcases ih ts pt [] [] hnil hlast hts with h | ⟨n, rest, pre2, he, hne2, hl2, hm2⟩
        · exact Or.inl h
        · cases pre2 with
          | nil => exact absurd rfl hne2
          | cons p2 pt2 =>
            obtain ⟨t3, rest4, rfl, ht3, hr4⟩ := map_type_cons rest p2 _ hm2
            refine Or.inr ⟨n, t3, rest4, he, ?_⟩
            intro hp2 nodes2 ops2
            have hx := getLast_tail p2 pt2 hl2 (by rw [← ht3, hp2]; simp)
            exact ih rest4 pt2 _ _ hx.1 hx.2 hr4
    cases pre with
    | nil => exact absurd rfl hne
    | cons p pt =>
      obtain ⟨t, ts, rfl, ht, hts⟩ := map_type_cons tokens p _ hm
      cases hty : t.type with
      | WORD =>
        have hx := getLast_tail p pt hl (by rw [← ht, hty]; simp)
        simp only [parse_expr, hty]
        exact ih ts pt _ _ hx.1 hx.2 hts
      | AND =>
        have hx := getLast_tail p pt hl (by rw [← ht, hty]; simp)
        simp only [parse_expr, hty]
        exact ih ts pt _ _ hx.1 hx.2 hts
      | OR =>
        have hx := getLast_tail p pt hl (by rw [← ht, hty]; simp)
        simp only [parse_expr, hty]
        exact ih ts pt _ _ hx.1 hx.2 hts
      | RPAREN =>
        rcases parse_expr_at_end (fuel + 1) (t :: ts) nodes ops
          (Or.inr ⟨t, ts, rfl, hty, by omega⟩) with h | ⟨n, _, h⟩
        · exact Or.inl h
        · exact Or.inr ⟨n, t :: ts, p :: pt, h, hne, hl, hm⟩
      | LPAREN =>
        simp only [parse_expr, hty]
        have hpt : pt = [] ∨ pt.getLast? = some .LPAREN := by
          by_cases hnil : pt = []
          · exact Or.inl hnil
          · exact Or.inr (getLast_tail_of_ne p pt hl hnil)
        rcases after ts pt hpt hts with ⟨e, he⟩ | ⟨sub, t3, rest4, he, hgood⟩
        · exact Or.inl ⟨e, by simp only [he]⟩
        · simp only [he]
          by_cases h3 : t3.type = .RPAREN
          · simp only [h3, if_true]
            exact hgood h3 _ _
          · exact Or.inl ⟨_, by simp only [h3, if_false]; rfl⟩
      | NOT =>
        have hx := getLast_tail p pt hl (by rw [← ht, hty]; simp)
        cases pt with
        | nil => exact absurd rfl hx.1
        | cons p2 pt2 =>
          obtain ⟨t2, ts2, rfl, ht2, hts2⟩ := map_type_cons ts p2 _ hts
          cases hty2 : t2.type with
          | WORD =>
            have hy := getLast_tail p2 pt2 hx.2 (by rw [← ht2, hty2]; simp)
            simp only [parse_expr, hty, hty2]
            exact ih ts2 pt2 _ _ hy.1 hy.2 hts2
          | LPAREN =>
            simp only [parse_expr, hty, hty2]
            have hpt : pt2 = [] ∨ pt2.getLast? = some .LPAREN := by
              by_cases hnil : pt2 = []
              · exact Or.inl hnil
              · exact Or.inr (getLast_tail_of_ne p2 pt2 hx.2 hnil)
            rcases after ts2 pt2 hpt hts2 with ⟨e, he⟩ | ⟨sub, t3, rest4, he, hgood⟩
            · exact Or.inl ⟨e, by simp only [he]⟩
            · simp only [he]
              by_cases h3 : t3.type = .RPAREN
              · simp only [h3, if_true]
                exact hgood h3 _ _
              · exact Or.inl ⟨_, by simp only [h3, if_false]; rfl⟩
          | AND => exact Or.inl ⟨_, by simp only [parse_expr, hty, hty2]; rfl⟩
          | OR => exact Or.inl ⟨_, by simp only [parse_expr, hty, hty2]; rfl⟩
          | NOT => exact Or.inl ⟨_, by simp only [parse_expr, hty, hty2]; rfl⟩
          | RPAREN => exact Or.inl ⟨_, by simp only [parse_expr, hty, hty2]; rfl⟩
theorem level_ops_cons (i : Item) (items : List Item) :
    level_ops (i :: items) = level_ops [i] ++ level_ops items := by
  cases i <;> simp [level_ops]

theorem getLast_append_paren (x pre : List TokenType) (h : pre.getLast? = some .LPAREN) :
    (x ++ pre).getLast? = some .LPAREN := by
  have hne : pre ≠ [] := by intro h0; rw [h0] at h; simp at h
  rw [List.getLast?_append_of_ne_nil _ hne, h]

theorem level_shape_step (i : Item) (tokens : List TokenType) (ops : List NodeType)
    (r : Except BuildError (boolean_node × List Token))
    (h : level_shape tokens (ops ++ level_ops [i]) r) :
    level_shape (i.render ++ tokens) ops r := by
  refine ⟨?_, ?_⟩
  · intro n rest hr
    obtain ⟨items, h1, h2⟩ := h.1 n rest hr
    exact ⟨i :: items, by simp [render_level, h1], h2⟩
  · intro hr
    rcases h.2 hr with ⟨items, post, h1, h2, h3⟩ | ⟨pre, items, post, h1, h2, h3, h4⟩
    · left
      refine ⟨i :: items, post, by simp [render_level, h1], h2, ?_⟩
      rw [level_ops_cons, ← List.append_assoc]
      exact h3
    · right
      exact ⟨i.render ++ pre, items, post, by simp [h1], getLast_append_paren _ _ h2, h3, h4⟩

theorem level_shape_nested (pfx tokens : List TokenType) (ops : List NodeType)
    (e : BuildError) (h : level_shape tokens [] (.error e)) :
    level_shape (pfx ++ .LPAREN :: tokens) ops (.error e) := by
  constructor
  · intro n rest hr; cases hr
  intro hr
  right
  rcases h.2 hr with ⟨items, post, h1, h2, h3⟩ | ⟨pre, items, post, h1, h2, h3, h4⟩
  · exact ⟨pfx ++ [.LPAREN], items, post, by simp [h1], by simp, h2, by simpa using h3⟩
  · exact ⟨pfx ++ .LPAREN :: pre, items, post, by simp [h1],
      getLast_append_paren (pfx ++ [.LPAREN]) pre h2 |> (by simpa using ·), h3, h4⟩

theorem combine_error (nodes : List boolean_node) (ops : List NodeType) (e : BuildError)
    (h : combine nodes ops = .error e) : mixed_ops ops := by
  unfold combine at h
  split at h
  · cases h
  · cases h
  · split at h
    · cases h
    · rename_i op0 rest
      split at h
      · cases h
      · rename_i hall
        simp only [List.all_eq_true, decide_eq_true_eq, not_forall] at hall
        obtain ⟨x, hx, hne⟩ := hall
        exact ⟨x, by simp [hx], op0, by simp, hne⟩

theorem level_shape_at_end (tokens : List Token) (nodes : List boolean_node)
    (ops : List NodeType) (r : Except BuildError (boolean_node × List Token))
    (hc : closes_level (tokens.map (fun t => t.type)))
    (hr : r = match combine nodes ops with
      | .error e => .error e
      | .ok n => .ok (n, tokens)) :
    level_shape (tokens.map (fun t => t.type)) ops r := by
  refine ⟨?_, ?_⟩
  · intro n rest h
    rw [hr] at h
    cases hcm : combine nodes ops with
    | error e => rw [hcm] at h; cases h
    | ok m =>
      rw [hcm] at h
      cases h
      exact ⟨[], by simp [render_level], hc⟩
  · intro h
    rw [hr] at h
    cases hcm : combine nodes ops with
    | error e =>
      left
      exact ⟨[], _, by simp [render_level], hc, by simpa [level_ops] using combine_error _ _ _ hcm⟩
    | ok m => rw [hcm] at h; cases h
theorem level_shape_other_error (tokens : List TokenType) (ops : List NodeType)
    (e : BuildError) (he : e ≠ .operators_differ) :
    level_shape tokens ops (.error e) := by
  constructor
  · intro n rest h; cases h
  · intro h; cases h; exact absurd rfl he

/-- Every result of the parser has the shape `level_shape`. -/
theorem parse_shape : ∀ (fuel : Nat) (tokens : List Token) (nodes : List boolean_node)
    (ops : List NodeType),
    level_shape (tokens.map (fun t => t.type)) ops (parse_expr fuel tokens nodes ops) := by
  intro fuel
  induction fuel with
  | zero =>
    intro tokens nodes ops
    cases tokens with
    | nil => exact level_shape_at_end [] nodes ops _ (Or.inl rfl) (by simp [parse_expr])
    | cons t ts => exact level_shape_other_error _ _ _ (by simp)
  | succ fuel ih =>
    intro tokens nodes ops
    cases tokens with
    | nil => exact level_shape_at_end [] nodes ops _ (Or.inl rfl) (by simp [parse_expr])
    | cons t ts =>
      -- a nested call for a group that follows the prefix `pfx` (empty or `NOT`)
      have nested : ∀ (pfx : List TokenType) (ts : List Token) (mk : boolean_node → boolean_node)
          (item : List Item → Item) (err : BuildError),
          err ≠ .operators_differ → level_ops [item []] = [] →
          (∀ g, (item g).render = pfx ++ .LPAREN :: (render_level g ++ [.RPAREN])) →
          (∀ g, level_ops [item g] = []) →
          level_shape (pfx ++ .LPAREN :: ts.map (fun t => t.type)) ops
            (match parse_expr fuel ts [] [] with
              | .error e => .error e
              | .ok (sub, rest3) =>
                match rest3 with
                | [] => .error err
                | tok3 :: rest4 =>
                  if tok3.type = .RPAREN then parse_expr fuel rest4 (nodes ++ [mk sub]) ops
                  else .error err) := by
        intro pfx ts mk item err herr _ hrender hops
        have hin := ih ts [] []
        cases hr : parse_expr fuel ts [] [] with
        | error e =>
          rw [hr] at hin
          exact level_shape_nested pfx _ ops e hin
        | ok p =>
          obtain ⟨sub, rest3⟩ := p
          obtain ⟨g, hg, _⟩ := hin.1 sub rest3 hr
          cases rest3 with
          | nil => exact level_shape_other_error _ _ _ herr
          | cons t3 rest4 =>
            by_cases h3 : t3.type = .RPAREN
            · simp only [h3, if_true]
              have hc := ih rest4 (nodes ++ [mk sub]) ops
              have hs := level_shape_step (item g) _ ops _ (by rw [hops g]; simpa using hc)
              rw [hrender g] at hs
              rw [hg]
              simpa [h3] using hs
            · simp only [h3, if_false]
              exact level_shape_other_error _ _ _ herr
      cases hty : t.type with
      | WORD =>
        simp only [parse_expr, hty, List.map_cons]
        have := level_shape_step .word _ ops _
          (by simpa [level_ops] using ih ts (nodes ++ [.of_word t.value]) ops)
        simpa [Item.render] using this
      | AND =>
        simp only [parse_expr, hty, List.map_cons]
        have := level_shape_step .and_op _ ops _
          (by simpa [level_ops] using ih ts nodes (ops ++ [.AND]))
        simpa [Item.render] using this
      | OR =>
        simp only [parse_expr, hty, List.map_cons]
        have := level_shape_step .or_op _ ops _
          (by simpa [level_ops] using ih ts nodes (ops ++ [.OR]))
        simpa [Item.render] using this
      | RPAREN =>
        have := level_shape_at_end (t :: ts) nodes ops (parse_expr (fuel + 1) (t :: ts) nodes ops)
          (Or.inr (by simp [hty])) (by simp [parse_expr, hty])
        exact this
      | LPAREN =>
        simp only [parse_expr, hty, List.map_cons]
        exact nested [] ts (fun sub => sub) Item.group .paren_mismatch (by simp)
          (by simp [level_ops]) (by intro g; simp [Item.render]) (by intro g; simp [level_ops])
      | NOT =>
        cases ts with
        | nil =>
          simp only [parse_expr, hty]
          exact level_shape_other_error _ _ _ (by simp)
        | cons t2 ts2 =>
          cases hty2 : t2.type with
          | WORD =>
            simp only [parse_expr, hty, hty2, List.map_cons]
            have := level_shape_step .not_word _ ops _
              (by simpa [level_ops] using
                ih ts2 (nodes ++ [.of_type .NOT [.of_word t2.value]]) ops)
            simpa [Item.render] using this
          | LPAREN =>
            simp only [parse_expr, hty, hty2, List.map_cons]
            exact nested [.NOT] ts2 (fun sub => .of_type .NOT [sub]) Item.not_group
              .paren_mismatch_after_not (by simp)
              (by simp [level_ops]) (by intro g; simp [Item.render]) (by intro g; simp [level_ops])
          | AND =>
            simp only [parse_expr, hty, hty2]
            exact level_shape_other_error _ _ _ (by simp)
          | OR =>
            simp only [parse_expr, hty, hty2]
            exact level_shape_other_error _ _ _ (by simp)
          | NOT =>
            simp only [parse_expr, hty, hty2]
            exact level_shape_other_error _ _ _ (by simp)
          | RPAREN =>
            simp only [parse_expr, hty, hty2]
            exact level_shape_other_error _ _ _ (by simp)
theorem level_ops_and_or (items : List Item) :
    ∀ x ∈ level_ops items, x = NodeType.AND ∨ x = NodeType.OR := by
  induction items with
  | nil => simp [level_ops]
  | cons i items ih =>
    intro x hx
    cases i <;> simp only [level_ops, List.mem_cons] at hx
    all_goals first
      | exact ih x hx
      | (rcases hx with hx | hx
         · simp [hx]
         · exact ih x hx)

theorem mixed_ops_and_or (items : List Item) (h : mixed_ops (level_ops items)) :
    NodeType.AND ∈ level_ops items ∧ NodeType.OR ∈ level_ops items := by
  obtain ⟨a, ha, b, hb, hne⟩ := h
  rcases level_ops_and_or items a ha with h1 | h1 <;>
    rcases level_ops_and_or items b hb with h2 | h2
  · exact absurd (h1.trans h2.symm) hne
  · exact ⟨h1 ▸ ha, h2 ▸ hb⟩
  · exact ⟨h2 ▸ hb, h1 ▸ ha⟩
  · exact absurd (h1.trans h2.symm) hne

/-- C4 (amended). `build_pattern` throws for every pattern in which, at one nesting level (the
top level or inside one pair of parentheses) that holds at least two operands, both an `AND`
and an `OR` operator appear; and a pattern in which no nesting level holds both operators is
not rejected with "operators must be the same". -/
theorem mixed_operators_rejected (pattern : List Char) (tokens : List Token)
    (ht : tokenize (trim pattern) = .ok tokens) :
    (∀ items, is_level tokens items → NodeType.AND ∈ level_ops items →
      NodeType.OR ∈ level_ops items → 2 ≤ operands items →
      ∃ e, build_pattern pattern = .error e ∧ e ≠ .fuel) ∧
    ((∀ items, is_level tokens items →
        ¬ (NodeType.AND ∈ level_ops items ∧ NodeType.OR ∈ level_ops items)) →
      build_pattern pattern ≠ .error .operators_differ) := by
  constructor
  · intro items ⟨pre, post, hm, hpre, hpost⟩ ha ho h2
    have hfuel := build_pattern_fuel pattern
    suffices h : ∃ e, build_pattern pattern = .error e by
      obtain ⟨e, he⟩ := h
      exact ⟨e, he, fun hf => hfuel (hf ▸ he)⟩
    unfold build_pattern
    simp only [ht]
    by_cases hnil : pre = []
    · subst hnil
      rcases parse_level tokens.length tokens items post [] [] (by simpa using hm) hpost
        with ⟨e, he⟩ | ⟨n2, n, rest, h1, _, h3, _⟩
      · exact ⟨e, by simp only [he]⟩
      · rw [combine_mixed n2 _ (by simp at h1; omega) (by simpa using ha) (by simpa using ho)] at h3
        cases h3
    · have hlast : pre.getLast? = some .LPAREN := by
        rcases hpre with h | h
        · exact absurd h hnil
        · exact h
      rcases parse_before_mixed_level items post hpost ha ho h2 tokens.length tokens pre [] []
        hnil hlast hm with ⟨e, he⟩ | ⟨n, rest, pre2, he, hne2, _, hm2⟩
      · exact ⟨e, by simp only [he]⟩
      · have hrest : rest ≠ [] := by
          intro h0
          rw [h0] at hm2
          simp only [List.map_nil] at hm2
          exact hne2 (List.append_eq_nil.mp hm2.symm).1
        exact ⟨.extra_content, by simp only [he, hrest, if_false]⟩
  · intro hall hb
    unfold build_pattern at hb
    simp only [ht] at hb
    have hs := parse_shape tokens.length tokens [] []
    cases hr : parse_expr tokens.length tokens [] [] with
    | error e =>
      rw [hr] at hb hs
      simp only [Except.error.injEq] at hb
      subst hb
      rcases hs.2 rfl with ⟨items, post, h1, h2, h3⟩ | ⟨pre, items, post, h1, h2, h3, h4⟩
      · exact hall items ⟨[], post, by simpa using h1, Or.inl rfl, h2⟩
          (mixed_ops_and_or items (by simpa using h3))
      · exact hall items ⟨pre, post, h1, Or.inr h2, h3⟩ (mixed_ops_and_or items h4)
    | ok p =>
      rw [hr] at hb
      obtain ⟨root, rest⟩ := p
      by_cases h0 : rest = []
      · simp [h0] at hb
      · simp [h0] at hb

theorem mixed_operators_rejected_witness :
    tokenize (trim "(foo AND bar OR baz) AND x".toList)
      = .ok [⟨.LPAREN, ['(']⟩, ⟨.WORD, "foo".toList⟩, ⟨.AND, "AND".toList⟩, ⟨.WORD, "bar".toList⟩,
          ⟨.OR, "OR".toList⟩, ⟨.WORD, "baz".toList⟩, ⟨.RPAREN, [')']⟩, ⟨.AND, "AND".toList⟩,
          ⟨.WORD, "x".toList⟩] ∧
    ∃ e, build_pattern "(foo AND bar OR baz) AND x".toList = .error e ∧ e ≠ .fuel :=
  ⟨by rfl,
   (mixed_operators_rejected "(foo AND bar OR baz) AND x".toList _ (by rfl)).1
     [.word, .and_op, .word, .or_op, .word]
     ⟨[.LPAREN], [.RPAREN, .AND, .WORD], by rfl, Or.inr (by rfl), Or.inr (by rfl)⟩
     (by decide) (by decide) (by decide)⟩

/-- C4 as stated fails when the level holds a single operand: in `foo AND OR` both operators
stand at the top level and `build_pattern` succeeds with the tree of the word `foo`. -/
theorem mixed_operators_single_operand_counterexample :
    tokenize (trim "foo AND OR".toList)
      = .ok [⟨.WORD, "foo".toList⟩, ⟨.AND, "AND".toList⟩, ⟨.OR, "OR".toList⟩] ∧
    is_level [⟨.WORD, "foo".toList⟩, ⟨.AND, "AND".toList⟩, ⟨.OR, "OR".toList⟩]
      [.word, .and_op, .or_op] ∧
    NodeType.AND ∈ level_ops [.word, .and_op, .or_op] ∧
    NodeType.OR ∈ level_ops [.word, .and_op, .or_op] ∧
    build_pattern "foo AND OR".toList = .ok (.node .WORD "foo".toList []) :=
  ⟨by rfl, ⟨[], [], by rfl, Or.inl rfl, Or.inl rfl⟩, by decide, by decide, by rfl⟩
theorem memchr_newline_line (line rest : List Char) (h : '\n' ∉ line) :
    memchr_newline (line ++ '\n' :: rest) = some line.length := by
  induction line with
  | nil => simp [memchr_newline]
  | cons c l ih =>
    have hc : c ≠ '\n' := fun hc => h (by simp [hc])
    have hl : '\n' ∉ l := fun hl => h (by simp [hl])
    simp [memchr_newline, hc, ih hl]

theorem memchr_newline_none (tail : List Char) (h : '\n' ∉ tail) :
    memchr_newline tail = none := by
  induction tail with
  | nil => rfl
  | cons c l ih =>
    have hc : c ≠ '\n' := fun hc => h (by simp [hc])
    have hl : '\n' ∉ l := fun hl => h (by simp [hl])
    simp [memchr_newline, hc, ih hl]

theorem join_lines_length_pos (line : List Char) (rest : List (List Char)) (tail : List Char) :
    (join_lines rest ++ tail).length < (join_lines (line :: rest) ++ tail).length := by
  simp [join_lines]
  omega

/-- The loop of the text builder on a content made of lines that end with `'\n'` followed by
bytes without `'\n'`: the body runs once for each line, in order, and the fuel suffices. -/
theorem index_loop_lines (ix : FileIndexer) (tail : List Char) (ht : '\n' ∉ tail) :
    ∀ (lines : List (List Char)) (fuel : Nat) (st : IndexState),
      (∀ l ∈ lines, '\n' ∉ l) → (join_lines lines ++ tail).length ≤ fuel →
      index_loop ix fuel (join_lines lines ++ tail) st = lines.foldl (index_line ix) st := by
  intro lines
  induction lines with
  | nil =>
    intro fuel st _ _
    cases fuel with
    | zero => rfl
    | succ fuel =>
      cases tail with
      | nil => rfl
      | cons c t =>
        simp only [join_lines, List.nil_append, index_loop, memchr_newline_none _ ht,
          List.foldl_nil]
  | cons line rest ih =>
    intro fuel st hl hf
    have hline : '\n' ∉ line := hl line (by simp)
    have hrest : ∀ l ∈ rest, '\n' ∉ l := fun l h => hl l (by simp [h])
    have hlt := join_lines_length_pos line rest tail
    cases fuel with
    | zero => omega
    | succ fuel =>
      have e : join_lines (line :: rest) ++ tail = line ++ '\n' :: (join_lines rest ++ tail) := by
        simp [join_lines]
      rw [e]
      cases hx : line ++ '\n' :: (join_lines rest ++ tail) with
      | nil => simp at hx
      | cons c t =>
        rw [← hx]
        simp only [index_loop, hx]
        rw [← hx, memchr_newline_line _ _ hline]
        simp only [List.foldl_cons]
        have h1 : (line ++ '\n' :: (join_lines rest ++ tail)).drop (line.length + 1)
            = join_lines rest ++ tail := by
          rw [show line ++ '\n' :: (join_lines rest ++ tail)
              = (line ++ ['\n']) ++ (join_lines rest ++ tail) by simp]
          rw [List.drop_left' (by simp)]
        have h2 : (line ++ '\n' :: (join_lines rest ++ tail)).take line.length = line := by
          simp
        rw [h1, h2]
        exact ih fuel _ hrest (by rw [e] at hf; simp at hf ⊢; omega)

theorem split_lines_spec : ∀ data : List Char,
    data = join_lines (split_lines data).1 ++ (split_lines data).2 ∧
    (∀ l ∈ (split_lines data).1, '\n' ∉ l) ∧ '\n' ∉ (split_lines data).2 := by
  intro data
  induction data with
  | nil => simp [split_lines, join_lines]
  | cons c cs ih =>
    obtain ⟨h1, h2, h3⟩ := ih
    by_cases hc : c = '\n'
    · subst hc
      simp only [split_lines, if_true, join_lines, List.nil_append, List.cons_append]
      refine ⟨by rw [← h1], ?_, h3⟩
      intro l hl
      simp only [List.mem_cons] at hl
      rcases hl with hl | hl
      · simp [hl]
      · exact h2 l hl
    · simp only [split_lines, hc, if_false]
      cases hs : (split_lines cs).1 with
      | nil =>
        rw [hs] at h1 h2
        simp only [join_lines, List.nil_append] at h1 ⊢
        refine ⟨by rw [← h1], by simp, ?_⟩
        simp only [List.mem_cons, not_or]
        exact ⟨fun h => hc h.symm, h3⟩
      | cons line rest =>
        rw [hs] at h1 h2
        simp only [join_lines, List.cons_append] at h1 ⊢
        refine ⟨by rw [List.cons.injEq]; exact ⟨rfl, h1⟩, ?_, h3⟩
        intro l hl
        simp only [List.mem_cons] at hl
        rcases hl with hl | hl
        · subst hl
          simp only [List.mem_cons, not_or]
          exact ⟨fun h => hc h.symm, h2 line (by simp)⟩
        · exact h2 l (by simp [hl])

/-- The loop of the text builder on any content, with the length of the content as fuel: the
body runs once for each line that ends with `'\n'`. -/
theorem index_loop_eq_foldl (ix : FileIndexer) (data : List Char) (fuel : Nat)
    (hf : data.length ≤ fuel) (st : IndexState) :
    index_loop ix fuel data st = (split_lines data).1.foldl (index_line ix) st := by
  obtain ⟨h1, h2, h3⟩ := split_lines_spec data
  have := index_loop_lines ix _ h3 (split_lines data).1 fuel st h2 (by rw [← h1]; exact hf)
  rw [← h1] at this
  exact this
/-- Indexing from scratch runs the body of the loop on each complete line of the content and
then adds the final entry. -/
theorem index_from_scratch_eq (ix : FileIndexer) (data : List Char) :
    index_from_scratch ix data
      = final_entries ix ((split_lines data).1.foldl (index_line ix) scratch_state) := by
  unfold index_from_scratch update_file_index_txt_mmap
  by_cases hd : data = []
  · subst hd
    simp [split_lines, final_entries, scratch_state]
  · simp only [hd, if_false, txt_entries, initial_state, scratch_state, List.drop_zero]
    rw [index_loop_eq_foldl ix data data.length (le_refl _)]

theorem index_from_scratch_lines (ix : FileIndexer) (lines : List (List Char))
    (hl : ∀ l ∈ lines, '\n' ∉ l) :
    index_from_scratch ix (join_lines lines)
      = final_entries ix (lines.foldl (index_line ix) scratch_state) := by
  unfold index_from_scratch update_file_index_txt_mmap
  by_cases hd : join_lines lines = []
  · have : lines = [] := by
      cases lines with
      | nil => rfl
      | cons l r => simp [join_lines] at hd
    subst this
    simp [join_lines, final_entries, scratch_state]
  · simp only [hd, if_false, txt_entries, initial_state, scratch_state, List.drop_zero]
    have := index_loop_lines ix [] (by simp) lines (join_lines lines).length scratch_state hl
      (by simp)
    simp only [List.append_nil] at this
    rw [scratch_state] at this
    rw [this]
theorem index_line_line_start (ix : FileIndexer) (st : IndexState) (line : List Char) :
    (index_line ix st line).line_start = st.line_start + line.length + 1 ∧
    (index_line ix st line).last_line = line ∧
    (index_line ix st line).last_offset = st.line_start := by
  unfold index_line
  simp only
  split
  · simp
  · split <;> simp

theorem foldl_line_start (ix : FileIndexer) (lines : List (List Char)) :
    ∀ st : IndexState, (lines.foldl (index_line ix) st).line_start
      = st.line_start + (join_lines lines).length := by
  induction lines with
  | nil => intro st; simp [join_lines]
  | cons l rest ih =>
    intro st
    simp only [List.foldl_cons, ih, (index_line_line_start ix st l).1, join_lines,
      List.length_append, List.length_cons]
    omega

/-- After the loop, `last_line` and `last_offset` are the last complete line and its start. -/
theorem foldl_last (ix : FileIndexer) (init : List (List Char)) (last : List Char)
    (st : IndexState) :
    ((init ++ [last]).foldl (index_line ix) st).last_line = last ∧
    ((init ++ [last]).foldl (index_line ix) st).last_offset
      = st.line_start + (join_lines init).length ∧
    ((init ++ [last]).foldl (index_line ix) st).line_start ≠ 0 := by
  rw [List.foldl_append]
  simp only [List.foldl_cons, List.foldl_nil]
  have h := index_line_line_start ix (init.foldl (index_line ix) st) last
  refine ⟨h.2.1, ?_, ?_⟩
  · rw [h.2.2, foldl_line_start]
  · rw [h.1]; omega

theorem foldl_interval_entries (ix : FileIndexer) (lines : List (List Char)) :
    ∀ (st : IndexState) (last : Option Int),
      (∀ l ∈ lines, ix.get_timestamp_from_log_line l ≠ 0) →
      (∀ l ∈ lines, ix.bucket (ix.get_timestamp_from_log_line l) ≠ 0) →
      threshold_not_reached ix last st.lines_since_last lines = true →
      (match last with
        | none => st.last_recorded_bucket = 0
        | some lb => st.last_recorded_bucket = lb ∧ lb ≠ 0) →
      (lines.foldl (index_line ix) st).entries
        = st.entries ++ interval_entries ix last st.line_start lines := by
  induction lines with
  | nil => intro st last _ _ _ _; cases last <;> simp [interval_entries]
  | cons l rest ih =>
    intro st last hts hb hT hlast
    have hl := hts l (by simp)
    have hbl := hb l (by simp)
    have hts2 : ∀ x ∈ rest, ix.get_timestamp_from_log_line x ≠ 0 := fun x hx => hts x (by simp [hx])
    have hb2 : ∀ x ∈ rest, ix.bucket (ix.get_timestamp_from_log_line x) ≠ 0 :=
      fun x hx => hb x (by simp [hx])
    simp only [List.foldl_cons]
    cases last with
    | none =>
      simp only at hlast
      have e : index_line ix st l =
          { st with last_line := l, last_offset := st.line_start,
                    entries := st.entries ++ [⟨to_uint64 (ix.bucket (ix.get_timestamp_from_log_line l)), st.line_start⟩],
                    last_recorded_bucket := ix.bucket (ix.get_timestamp_from_log_line l),
                    lines_since_last := 0 + 1,
                    line_start := st.line_start + l.length + 1 } := by
        simp [index_line, hl, hlast]
      rw [e, ih _ (some (ix.bucket (ix.get_timestamp_from_log_line l))) hts2 hb2
        (by simpa [threshold_not_reached] using hT) ⟨rfl, hbl⟩]
      simp [interval_entries]
    | some lb =>
      simp only at hlast
      obtain ⟨h1, h2⟩ := hlast
      by_cases hge : ix.bucket (ix.get_timestamp_from_log_line l) ≥ lb + ix.index_interval_seconds_
      · have e : index_line ix st l =
            { st with last_line := l, last_offset := st.line_start,
                      entries := st.entries ++ [⟨to_uint64 (ix.bucket (ix.get_timestamp_from_log_line l)), st.line_start⟩],
                      last_recorded_bucket := ix.bucket (ix.get_timestamp_from_log_line l),
                      lines_since_last := 0 + 1,
                      line_start := st.line_start + l.length + 1 } := by
          simp [index_line, hl, h1, hge]
        rw [e, ih _ (some (ix.bucket (ix.get_timestamp_from_log_line l))) hts2 hb2
          (by simpa [threshold_not_reached, hge] using hT) ⟨rfl, hbl⟩]
        simp [interval_entries, hge]
      · have hT2 : st.lines_since_last < ix.index_count_threshold_ ∧
            threshold_not_reached ix (some lb) (st.lines_since_last + 1) rest = true := by
          simpa [threshold_not_reached, hge] using hT
        have hlt : ¬ (st.lines_since_last ≥ ix.index_count_threshold_) := by omega
        have e : index_line ix st l =
            { st with last_line := l, last_offset := st.line_start,
                      lines_since_last := st.lines_since_last + 1,
                      line_start := st.line_start + l.length + 1 } := by
          simp [index_line, hl, h1, h2, hge, hlt]
        rw [ih (index_line ix st l) (some lb) hts2 hb2 (by rw [e]; exact hT2.2)
          (by rw [e]; exact ⟨h1, h2⟩), e]
        simp [interval_entries, hge]
theorem interval_entries_ne_nil (ix : FileIndexer) (off : Nat) (lines : List (List Char))
    (hne : lines ≠ []) : interval_entries ix none off lines ≠ [] := by
  cases lines with
  | nil => exact absurd rfl hne
  | cons l r => simp [interval_entries]

/-- C5 (amended). Indexing from scratch a text file in which every line ends with a newline
and carries a time stamp whose bucket is not zero, and in which the count threshold is never
reached (`threshold_not_reached`: whenever a line gets no entry from the interval policy,
fewer than `index_count_threshold_` lines have been read since the last entry, whatever
the number of lines of the file is), yields one entry for the first line, one entry for each later line whose bucket is at
least one interval past the last emitted bucket, and a final entry for the last line that
carries its time stamp as extracted, also when that line already has an entry; there are no
other entries. For the four-line file of scenario 1 the entries are the four pairs
(1735689600, 0), (1735689900, 44), (1735693200, 66), (1735693200, 66). -/
theorem interval_policy_entries (ix : FileIndexer) (lines : List (List Char))
    (hne : lines ≠ []) (hl : ∀ l ∈ lines, '\n' ∉ l)
    (hts : ∀ l ∈ lines, ix.get_timestamp_from_log_line l ≠ 0)
    (hb : ∀ l ∈ lines, ix.bucket (ix.get_timestamp_from_log_line l) ≠ 0)
    (hlast : lines.getLast hne ≠ [])
    (hT : threshold_not_reached ix none 0 lines = true) :
    index_from_scratch ix (join_lines lines)
      = interval_entries ix none 0 lines ++
          [⟨to_uint64 (ix.get_timestamp_from_log_line (lines.getLast hne)),
            (join_lines lines.dropLast).length⟩] ∧
    index_from_scratch (indexer_with 300 1000000) scenario_file
      = [⟨1735689600, 0⟩, ⟨1735689900, 44⟩, ⟨1735693200, 66⟩, ⟨1735693200, 66⟩] := by
  refine ⟨?_, by decide⟩
  rw [index_from_scratch_lines ix lines hl]
  have hent := foldl_interval_entries ix lines scratch_state none hts hb
    (by simpa [scratch_state] using hT) (by simp [scratch_state])
  have hsplit : lines = lines.dropLast ++ [lines.getLast hne] :=
    (List.dropLast_append_getLast hne).symm
  have hlst := foldl_last ix lines.dropLast (lines.getLast hne) scratch_state
  rw [← hsplit] at hlst
  obtain ⟨h1, h2, h3⟩ := hlst
  have hent2 : (lines.foldl (index_line ix) scratch_state).entries
      = interval_entries ix none 0 lines := by
    rw [hent]; simp [scratch_state]
  unfold final_entries
  rw [hent2, h1, h2]
  have hne2 := interval_entries_ne_nil ix 0 lines hne
  have hts2 := hts _ (List.getLast_mem hne)
  simp only [hne2, hlast, h3, hts2, ne_eq, not_false_eq_true, and_self, if_true]
  simp [scratch_state]

theorem interval_policy_entries_witness :
    threshold_not_reached (indexer_with 300 2) none 0
        ["2025-01-01 00:00:00 a".toList, "2025-01-01 00:05:00 b".toList,
          "2025-01-01 00:10:00 c".toList] = true ∧
    index_from_scratch (indexer_with 300 2)
        (join_lines ["2025-01-01 00:00:00 a".toList, "2025-01-01 00:05:00 b".toList,
          "2025-01-01 00:10:00 c".toList])
      = [⟨1735689600, 0⟩, ⟨1735689900, 22⟩, ⟨1735690200, 44⟩, ⟨1735690200, 44⟩] :=
  ⟨by decide, by
    rw [(interval_policy_entries (indexer_with 300 2)
      ["2025-01-01 00:00:00 a".toList, "2025-01-01 00:05:00 b".toList,
        "2025-01-01 00:10:00 c".toList]
      (by simp) (by decide) (by decide) (by decide) (by decide) (by decide)).1]
    decide⟩

/-- C5 as stated fails: the file of scenario 1 gets four entries, not three, because the
final entry is added although the last line already has one; a later line gets an entry
although its bucket is not one interval past the last emitted bucket when that bucket is 0;
and a last line that does not end with a newline is not read, so the final entry is not the
last line that carries a time stamp. -/
theorem interval_policy_counterexample :
    index_from_scratch (indexer_with 300 1000000) scenario_file
      ≠ [⟨1735689600, 0⟩, ⟨1735689900, 44⟩, ⟨1735693200, 66⟩] ∧
    index_from_scratch (indexer_with 300 1000000)
        "1970-01-01 00:00:10 a\n1970-01-01 00:00:20 b\n".toList
      = [⟨0, 0⟩, ⟨0, 22⟩, ⟨20, 22⟩] ∧
    index_from_scratch (indexer_with 300 1000000)
        "2025-01-01 00:00:00 a\n2025-01-01 01:00:00 d".toList
      = [⟨1735689600, 0⟩, ⟨1735689600, 0⟩] := by
  refine ⟨by decide, by decide, by decide⟩
theorem succ_mod_cases (i T : Nat) (hT : 0 < T) :
    (i % T + 1 < T ∧ (i + 1) % T = i % T + 1) ∨ (i % T + 1 = T ∧ (i + 1) % T = 0) := by
  have hlt := Nat.mod_lt i hT
  have hi : i + 1 = i % T + 1 + T * (i / T) := by
    have := Nat.mod_add_div i T
    omega
  by_cases h : i % T + 1 < T
  · left
    refine ⟨h, ?_⟩
    rw [hi, Nat.add_mul_mod_self_left, Nat.mod_eq_of_lt h]
  · right
    have h2 : i % T + 1 = T := by omega
    refine ⟨h2, ?_⟩
    rw [hi, Nat.add_mul_mod_self_left, h2, Nat.mod_self]

/-- The state of the count policy before line number `i ≥ 1`: `lines_since_last` is the
number of lines read since the last entry, that entry included. -/
theorem foldl_threshold_entries (ix : FileIndexer) (t : Int) (ht : t ≠ 0)
    (hb : ix.bucket t ≠ 0) (hi : 0 < ix.index_interval_seconds_) (lines : List (List Char)) :
    ∀ (st : IndexState) (i : Nat),
      (∀ l ∈ lines, ix.get_timestamp_from_log_line l = t) →
      st.last_recorded_bucket = ix.bucket t →
      (ix.index_count_threshold_ = 0 ∨
        st.lines_since_last = (if i % ix.index_count_threshold_ = 0
          then ix.index_count_threshold_ else i % ix.index_count_threshold_)) →
      (lines.foldl (index_line ix) st).entries
        = st.entries ++ threshold_entries (to_uint64 (ix.bucket t)) ix.index_count_threshold_ i
            (line_starts st.line_start lines) := by
  induction lines with
  | nil => intro st i _ _ _; simp [line_starts, threshold_entries]
  | cons l rest ih =>
    intro st i hts hlrb hc
    have hl : ix.get_timestamp_from_log_line l = t := hts l (by simp)
    have hts2 : ∀ x ∈ rest, ix.get_timestamp_from_log_line x = t := fun x hx => hts x (by simp [hx])
    have hnb : ¬ (ix.bucket t ≥ ix.bucket t + (ix.index_interval_seconds_ : Int)) := by
      have : (0 : Int) < ix.index_interval_seconds_ := by exact_mod_cast hi
      omega
    simp only [List.foldl_cons, line_starts]
    by_cases hemit : ix.index_count_threshold_ = 0 ∨ ix.index_count_threshold_ ∣ i
    · -- the threshold is reached
      have hge : st.lines_since_last ≥ ix.index_count_threshold_ := by
        rcases hc with h0 | hc
        · omega
        · rcases hemit with h0 | hd
          · omega
          · rw [hc, if_pos (Nat.mod_eq_zero_of_dvd hd)]
      have e : index_line ix st l =
          { st with last_line := l, last_offset := st.line_start,
                    entries := st.entries ++ [⟨to_uint64 (ix.bucket t), st.line_start⟩],
                    last_recorded_bucket := ix.bucket t,
                    lines_since_last := 0 + 1,
                    line_start := st.line_start + l.length + 1 } := by
        simp [index_line, hl, ht, hlrb, hb, hge]
      rw [ih (index_line ix st l) (i + 1) hts2 (by rw [e]) ?_, e]
      · simp [threshold_entries, hemit]
      · rw [e]
        by_cases h0 : ix.index_count_threshold_ = 0
        · exact Or.inl h0
        · right
          have hd : ix.index_count_threshold_ ∣ i := by
            rcases hemit with h | h
            · exact absurd h h0
            · exact h
          have hm := Nat.mod_eq_zero_of_dvd hd
          rcases succ_mod_cases i _ (Nat.pos_of_ne_zero h0) with ⟨_, h2⟩ | ⟨h1, h2⟩
          · rw [h2, hm]; simp
          · rw [h2, if_pos rfl]; simp only; omega
    · -- the threshold is not reached
      have h0 : ix.index_count_threshold_ ≠ 0 := fun h => hemit (Or.inl h)
      have hnd : ¬ ix.index_count_threshold_ ∣ i := fun h => hemit (Or.inr h)
      have hm : i % ix.index_count_threshold_ ≠ 0 := fun h => hnd (Nat.dvd_of_mod_eq_zero h)
      have hc2 : st.lines_since_last = i % ix.index_count_threshold_ := by
        rcases hc with h | h
        · exact absurd h h0
        · rw [h, if_neg hm]
      have hlt : ¬ (st.lines_since_last ≥ ix.index_count_threshold_) := by
        have := Nat.mod_lt i (Nat.pos_of_ne_zero h0)
        omega
      have e : index_line ix st l =
          { st with last_line := l, last_offset := st.line_start,
                    lines_since_last := st.lines_since_last + 1,
                    line_start := st.line_start + l.length + 1 } := by
        simp [index_line, hl, ht, hlrb, hb, hnb, hlt]
      rw [ih (index_line ix st l) (i + 1) hts2 (by rw [e]; exact hlrb) ?_, e]
      · simp [threshold_entries, hemit]
      · rw [e]
        right
        rcases succ_mod_cases i _ (Nat.pos_of_ne_zero h0) with ⟨_, h2⟩ | ⟨h1, h2⟩
        · rw [h2, if_neg (by omega)]; simp only; omega
        · rw [h2, if_pos rfl]; simp only; omega
theorem threshold_entries_append (b T : Nat) (xs ys : List Nat) :
    ∀ i, threshold_entries b T i (xs ++ ys)
      = threshold_entries b T i xs ++ threshold_entries b T (i + xs.length) ys := by
  induction xs with
  | nil => intro i; simp [threshold_entries]
  | cons x xs ih =>
    intro i
    simp only [List.cons_append, threshold_entries, List.length_cons, List.append_eq]
    rw [ih (i + 1), show i + 1 + xs.length = i + (xs.length + 1) by omega]
    split <;> simp

theorem threshold_entries_below (b T : Nat) (xs : List Nat) :
    ∀ i, 1 ≤ i → i + xs.length ≤ T → threshold_entries b T i xs = [] := by
  induction xs with
  | nil => intro i _ _; rfl
  | cons x xs ih =>
    intro i h1 h2
    simp only [List.length_cons] at h2
    have hnd : ¬ (T = 0 ∨ T ∣ i) := by
      intro h
      rcases h with h | h
      · omega
      · have := Nat.le_of_dvd (by omega) h
        omega
    simp only [threshold_entries, hnd, if_false]
    exact ih (i + 1) (by omega) (by omega)

theorem threshold_entries_length (b T : Nat) (hT : 1 ≤ T) (starts : List Nat)
    (hn : starts.length = T + 1) : (threshold_entries b T 0 starts).length = 2 := by
  cases starts with
  | nil => simp at hn
  | cons s0 rest =>
    simp only [List.length_cons, Nat.add_right_cancel_iff] at hn
    have hne : rest ≠ [] := by
      intro h; rw [h] at hn; simp at hn; omega
    rw [← List.dropLast_append_getLast hne]
    simp only [threshold_entries, Nat.dvd_zero, or_true, if_true, List.length_cons]
    rw [threshold_entries_append, threshold_entries_below b T rest.dropLast 1 (le_refl _)
      (by simp; omega)]
    have hlen : 0 + 1 + rest.dropLast.length = T := by simp; omega
    rw [hlen]
    simp [threshold_entries]

theorem line_starts_length (lines : List (List Char)) :
    ∀ off, (line_starts off lines).length = lines.length := by
  induction lines with
  | nil => intro off; rfl
  | cons l r ih => intro off; simp [line_starts, ih]

/-- C6 (amended). Indexing from scratch a text file of n lines that end with a newline and
all carry the same time stamp, whose bucket is not zero, emits an entry for the first line,
one further entry each time `index_count_threshold` lines have accumulated since the last
emitted entry, and one final entry; for n = 50,001 and threshold 50,000 the index has exactly
3 entries. -/
theorem count_policy_entries (ix : FileIndexer) (lines : List (List Char)) (t : Int)
    (hne : lines ≠ []) (hl : ∀ l ∈ lines, '\n' ∉ l)
    (hts : ∀ l ∈ lines, ix.get_timestamp_from_log_line l = t) (ht : t ≠ 0)
    (hb : ix.bucket t ≠ 0) (hi : 0 < ix.index_interval_seconds_)
    (hlast : lines.getLast hne ≠ []) :
    index_from_scratch ix (join_lines lines)
      = threshold_entries (to_uint64 (ix.bucket t)) ix.index_count_threshold_ 0
          (line_starts 0 lines) ++
        [⟨to_uint64 t, (join_lines lines.dropLast).length⟩] ∧
    (lines.length = 50001 → ix.index_count_threshold_ = 50000 →
      (index_from_scratch ix (join_lines lines)).length = 3) := by
  have main : index_from_scratch ix (join_lines lines)
      = threshold_entries (to_uint64 (ix.bucket t)) ix.index_count_threshold_ 0
          (line_starts 0 lines) ++
        [⟨to_uint64 t, (join_lines lines.dropLast).length⟩] := by
    rw [index_from_scratch_lines ix lines hl]
    have hsplit : lines = lines.dropLast ++ [lines.getLast hne] :=
      (List.dropLast_append_getLast hne).symm
    have hlst := foldl_last ix lines.dropLast (lines.getLast hne) scratch_state
    rw [← hsplit] at hlst
    obtain ⟨h1, h2, h3⟩ := hlst
    have hent : (lines.foldl (index_line ix) scratch_state).entries
        = threshold_entries (to_uint64 (ix.bucket t)) ix.index_count_threshold_ 0
            (line_starts 0 lines) := by
      cases lines with
      | nil => exact absurd rfl hne
      | cons l rest =>
        have hl0 : ix.get_timestamp_from_log_line l = t := hts l (by simp)
        have e : index_line ix scratch_state l =
            { scratch_state with last_line := l, last_offset := 0,
                                 entries := [⟨to_uint64 (ix.bucket t), 0⟩],
                                 last_recorded_bucket := ix.bucket t,
                                 lines_since_last := 0 + 1,
                                 line_start := 0 + l.length + 1 } := by
          simp [index_line, hl0, ht, scratch_state]
        simp only [List.foldl_cons]
        rw [foldl_threshold_entries ix t ht hb hi rest (index_line ix scratch_state l) 1
          (fun x hx => hts x (by simp [hx])) (by rw [e]) ?_, e]
        · simp [threshold_entries, line_starts]
        · rw [e]
          by_cases h0 : ix.index_count_threshold_ = 0
          · exact Or.inl h0
          · right
            by_cases h1 : ix.index_count_threshold_ = 1
            · simp [h1]
            · have : 1 % ix.index_count_threshold_ = 1 := Nat.mod_eq_of_lt (by omega)
              simp [this]
    unfold final_entries
    rw [hent, h1, h2]
    have hne2 : threshold_entries (to_uint64 (ix.bucket t)) ix.index_count_threshold_ 0
        (line_starts 0 lines) ≠ [] := by
      cases lines with
      | nil => exact absurd rfl hne
      | cons l rest => simp [threshold_entries, line_starts]
    have hts2 : ix.get_timestamp_from_log_line (lines.getLast hne) = t :=
      hts _ (List.getLast_mem hne)
    simp only [hne2, hlast, h3, hts2, ht, ne_eq, not_false_eq_true, and_self, if_true]
    simp [scratch_state]
  refine ⟨main, ?_⟩
  intro hn hT
  rw [main, hT, List.length_append,
    threshold_entries_length _ 50000 (by omega) _ (by rw [line_starts_length, hn])]
  rfl

theorem count_policy_entries_witness :
    (indexer_with 300 2).get_timestamp_from_log_line "2025-01-01 00:00:00 x".toList
      = 1735689600 ∧
    index_from_scratch (indexer_with 300 2)
        (join_lines (List.replicate 5 "2025-01-01 00:00:00 x".toList))
      = [⟨1735689600, 0⟩, ⟨1735689600, 44⟩, ⟨1735689600, 88⟩, ⟨1735689600, 88⟩] :=
  ⟨by decide, by
    rw [(count_policy_entries (indexer_with 300 2)
      (List.replicate 5 "2025-01-01 00:00:00 x".toList) 1735689600
      (by simp) (by decide) (by decide) (by decide) (by decide) (by decide) (by decide)).1]
    decide⟩

/-- C6 as stated fails when the bucket of the common time stamp is 0 (a time stamp in the
first interval after the epoch): every line gets an entry, whatever the threshold. It also
fails when the last line does not end with a newline: that line is not read, so with threshold
2 three lines give two entries, not three. -/
theorem count_policy_counterexample :
    index_from_scratch (indexer_with 300 50000)
        (join_lines (List.replicate 3 "1970-01-01 00:00:10 x".toList))
      = [⟨0, 0⟩, ⟨0, 22⟩, ⟨0, 44⟩, ⟨10, 44⟩] ∧
    index_from_scratch (indexer_with 300 2)
        "2025-01-01 00:00:00 x\n2025-01-01 00:00:00 x\n2025-01-01 00:00:00 x".toList
      = [⟨1735689600, 0⟩, ⟨1735689600, 22⟩] := by
  refine ⟨by decide, by decide⟩
theorem line_begins_is_line_start (data : List Char) (o : Nat) (l : List Char)
    (h : line_begins data o l) : is_line_start data o := by
  obtain ⟨before, rest, hd, ho, hb, _⟩ := h
  rcases hb with hb | hb
  · left; rw [← ho, hb]; rfl
  · right
    have hne : before ≠ [] := by intro h0; rw [h0] at hb; simp at hb
    have hpos : 0 < before.length := List.length_pos.mpr hne
    refine ⟨by omega, ?_⟩
    rw [hd, ← ho, List.getElem?_append_left (by omega)]
    rw [List.getLast?_eq_getElem?] at hb
    exact hb

theorem line_begins_line_at (data : List Char) (o : Nat) (l : List Char)
    (h : line_begins data o l) : line_at data o = l := by
  obtain ⟨before, rest, hd, ho, _, hl⟩ := h
  unfold line_at
  rw [hd, ← ho, List.drop_left]
  rw [List.takeWhile_append_of_pos (by
    intro c hc
    simp only [bne_iff_ne, ne_eq]
    intro h0
    exact hl (h0 ▸ hc))]
  simp

theorem join_lines_append (xs ys : List (List Char)) :
    join_lines (xs ++ ys) = join_lines xs ++ join_lines ys := by
  induction xs with
  | nil => rfl
  | cons x xs ih => simp [join_lines, ih]

theorem join_lines_getLast (xs : List (List Char)) (h : xs ≠ []) :
    (join_lines xs).getLast? = some '\n' := by
  rw [← List.dropLast_append_getLast h, join_lines_append]
  simp [join_lines]

theorem before_join_lines (before : List Char) (xs : List (List Char))
    (hb : before = [] ∨ before.getLast? = some '\n') :
    before ++ join_lines xs = [] ∨ (before ++ join_lines xs).getLast? = some '\n' := by
  by_cases hx : xs = []
  · subst hx; simpa [join_lines] using hb
  · right
    have hne : join_lines xs ≠ [] := by
      cases xs with
      | nil => exact absurd rfl hx
      | cons x r => simp [join_lines]
    rw [List.getLast?_append_of_ne_nil _ hne]
    exact join_lines_getLast xs hx

/-- What the body of the loop does to `entries`: nothing, or it appends an entry for the line
with the bucket of its time stamp and the start offset of the line. -/
theorem index_line_entries (ix : FileIndexer) (st : IndexState) (line : List Char) :
    (index_line ix st line).entries = st.entries ∨
    (ix.get_timestamp_from_log_line line ≠ 0 ∧
      (index_line ix st line).entries = st.entries ++
        [⟨to_uint64 (ix.bucket (ix.get_timestamp_from_log_line line)), st.line_start⟩]) := by
  unfold index_line
  simp only
  split
  · left; rfl
  · rename_i hts
    split
    · right; exact ⟨hts, rfl⟩
    · left; rfl

/-- Induction over the entries that the loop of the text builder adds: a property that holds
for the entries present before the loop, and for the entry of every time-stamped line of the
content at its start offset, holds for all entries after the loop. -/
theorem foldl_entries_induction (ix : FileIndexer) (data tail : List Char)
    (Q : TimeIndex → Prop)
    (hQ : ∀ o l, line_begins data o l → ix.get_timestamp_from_log_line l ≠ 0 →
      Q ⟨to_uint64 (ix.bucket (ix.get_timestamp_from_log_line l)), o⟩) :
    ∀ (lines : List (List Char)) (before : List Char) (st : IndexState),
      data = before ++ (join_lines lines ++ tail) →
      (before = [] ∨ before.getLast? = some '\n') → st.line_start = before.length →
      (∀ l ∈ lines, '\n' ∉ l) → (∀ e ∈ st.entries, Q e) →
      ∀ e ∈ (lines.foldl (index_line ix) st).entries, Q e := by
  intro lines
  induction lines with
  | nil => intro before st _ _ _ _ hst e he; exact hst e he
  | cons l rest ih =>
    intro before st hd hb hls hl hst
    simp only [List.foldl_cons]
    have hbeg : line_begins data st.line_start l :=
      ⟨before, join_lines rest ++ tail, by rw [hd]; simp [join_lines], hls.symm, hb,
        hl l (by simp)⟩
    apply ih (before ++ (l ++ ['\n'])) (index_line ix st l)
    · rw [hd]; simp [join_lines]
    · right; simp [← List.append_assoc]
    · rw [(index_line_line_start ix st l).1, hls]; simp; omega
    · exact fun x hx => hl x (by simp [hx])
    · intro e he
      rcases index_line_entries ix st l with h | ⟨hts, h⟩
      · rw [h] at he; exact hst e he
      · rw [h] at he
        simp only [List.mem_append, List.mem_singleton] at he
        rcases he with he | he
        · exact hst e he
        · rw [he]; exact hQ _ _ hbeg hts

/-- After the loop of the text builder has read at least one line, `last_line` is the last
complete line of the content and `last_offset` its start. -/
theorem foldl_last_begins (ix : FileIndexer) (data tail : List Char)
    (init : List (List Char)) (last : List Char) (before : List Char) (st : IndexState)
    (hd : data = before ++ (join_lines (init ++ [last]) ++ tail))
    (hb : before = [] ∨ before.getLast? = some '\n') (hls : st.line_start = before.length)
    (hl : '\n' ∉ last) :
    line_begins data ((init ++ [last]).foldl (index_line ix) st).last_offset
      ((init ++ [last]).foldl (index_line ix) st).last_line := by
  obtain ⟨h1, h2, _⟩ := foldl_last ix init last st
  rw [h1, h2]
  refine ⟨before ++ join_lines init, tail, ?_, by simp [hls], before_join_lines before init hb, hl⟩
  rw [hd, join_lines_append]
  simp [join_lines]
/-- C10 (amended). The entries of an index built from scratch are the entries added in the
loop followed by at most one final entry. Every entry added in the loop starts a time-stamped
line and its timestamp is the bucket `ts − (ts mod index_interval_seconds)` of that line's
time stamp `ts`. The final entry is present iff the loop added an entry and the last line that
ends with a newline is not empty and carries a time stamp; its timestamp is the time stamp of
the line that starts at its offset as extracted, not the bucket. -/
theorem entry_timestamps (ix : FileIndexer) (data : List Char) :
    ∃ body fin, index_from_scratch ix data = body ++ fin ∧ fin.length ≤ 1 ∧
      (∀ e ∈ body, ix.get_timestamp_from_log_line (line_at data e.offset) ≠ 0 ∧
        e.timestamp
          = to_uint64 (ix.bucket (ix.get_timestamp_from_log_line (line_at data e.offset)))) ∧
      (∀ e ∈ fin, ix.get_timestamp_from_log_line (line_at data e.offset) ≠ 0 ∧
        e.timestamp = to_uint64 (ix.get_timestamp_from_log_line (line_at data e.offset))) ∧
      (fin ≠ [] ↔ body ≠ [] ∧ ∃ last, (split_lines data).1.getLast? = some last ∧ last ≠ [] ∧
        ix.get_timestamp_from_log_line last ≠ 0) := by
  obtain ⟨hd, hl, ht⟩ := split_lines_spec data
  rw [index_from_scratch_eq]
  have hbody : ∀ e ∈ ((split_lines data).1.foldl (index_line ix) scratch_state).entries,
      ix.get_timestamp_from_log_line (line_at data e.offset) ≠ 0 ∧
      e.timestamp
        = to_uint64 (ix.bucket (ix.get_timestamp_from_log_line (line_at data e.offset))) := by
    refine foldl_entries_induction ix data (split_lines data).2
      (fun e => ix.get_timestamp_from_log_line (line_at data e.offset) ≠ 0 ∧
        e.timestamp
          = to_uint64 (ix.bucket (ix.get_timestamp_from_log_line (line_at data e.offset))))
      ?_ (split_lines data).1 [] scratch_state (by simpa using hd) (Or.inl rfl) rfl hl
      (by simp [scratch_state])
    intro o l hb hts
    simp only [line_begins_line_at data o l hb]
    exact ⟨hts, trivial⟩
  rcases List.eq_nil_or_concat (split_lines data).1 with hnil | ⟨init, last, hcat⟩
  · refine ⟨[], [], ?_, by simp, by simp, by simp, by simp⟩
    rw [hnil]
    simp [final_entries, scratch_state]
  · have hcat2 : (split_lines data).1 = init ++ [last] := by simpa using hcat
    have hlast : (split_lines data).1.getLast? = some last := by rw [hcat2]; simp
    rw [hcat2] at hbody hd hl ⊢
    have hbeg := foldl_last_begins ix data (split_lines data).2 init last [] scratch_state
      (by simpa using hd) (Or.inl rfl) rfl (hl last (by simp))
    obtain ⟨h1, h2, h3⟩ := foldl_last ix init last scratch_state
    have hline := line_begins_line_at data _ _ hbeg
    rw [h1] at hline
    by_cases hfin : ((init ++ [last]).foldl (index_line ix) scratch_state).entries ≠ [] ∧
        last ≠ [] ∧ ix.get_timestamp_from_log_line last ≠ 0
    · refine ⟨_, [⟨to_uint64 (ix.get_timestamp_from_log_line last),
        ((init ++ [last]).foldl (index_line ix) scratch_state).last_offset⟩], ?_, by simp,
        hbody, ?_, ?_⟩
      · simp only [final_entries, h1, hfin.1, hfin.2.1, hfin.2.2, h3, ne_eq,
          not_false_eq_true, and_self, if_true]
      · intro e he
        simp only [List.mem_singleton] at he
        subst he
        simp only [hline]
        exact ⟨hfin.2.2, trivial⟩
      · simp only [ne_eq, List.cons_ne_self, not_false_eq_true, true_iff]
        exact ⟨hfin.1, last, by simp, hfin.2.1, hfin.2.2⟩
    · refine ⟨_, [], ?_, by simp, hbody, by simp, ?_⟩
      · simp only [final_entries, h1, List.append_nil]
        by_cases h4 : ((init ++ [last]).foldl (index_line ix) scratch_state).entries ≠ [] ∧
            last ≠ []
        · have h5 : ¬ ix.get_timestamp_from_log_line last ≠ 0 :=
            fun h => hfin ⟨h4.1, h4.2, h⟩
          simp only [h4, ne_eq, not_false_eq_true, and_self, if_true, h5, if_false]
        · simp only [h4, if_false]
      · simp only [ne_eq, not_true_eq_false, false_iff, not_and, not_exists]
        intro hb x hx hxe hxt
        have hx2 : (init ++ [last]).getLast? = some last := by simp
        rw [hx2] at hx
        cases hx
        exact hfin ⟨hb, hxe, hxt⟩

/-- C10 as stated fails for the final entry: the one-line file `2025-01-01 00:04:59 b` gets
the final entry (1735689899, 0), while the bucket of the line that starts at offset 0 is
1735689600. -/
theorem final_entry_timestamp_counterexample :
    index_from_scratch (indexer_with 300 50000) "2025-01-01 00:04:59 b\n".toList
      = [⟨1735689600, 0⟩, ⟨1735689899, 0⟩] ∧
    (indexer_with 300 50000).get_timestamp_from_log_line
      (line_at "2025-01-01 00:04:59 b\n".toList 0) = 1735689899 ∧
    to_uint64 ((indexer_with 300 50000).bucket 1735689899) = 1735689600 := by
  refine ⟨by decide, by decide, by decide⟩
/-- The block "add the last index entry" leaves the entries as they are or appends one entry
for `last_line`, with its time stamp as extracted, at `last_offset`. -/
theorem final_entries_cases (ix : FileIndexer) (st : IndexState) :
    final_entries ix st = st.entries ∨
    (st.entries ≠ [] ∧ st.last_line ≠ [] ∧ ix.get_timestamp_from_log_line st.last_line ≠ 0 ∧
      final_entries ix st = st.entries ++
        [⟨to_uint64 (ix.get_timestamp_from_log_line st.last_line),
          if st.line_start ≠ 0 then st.last_offset else 0⟩]) := by
  unfold final_entries
  by_cases h1 : st.entries ≠ [] ∧ st.last_line ≠ []
  · by_cases h2 : ix.get_timestamp_from_log_line st.last_line ≠ 0
    · right
      refine ⟨h1.1, h1.2, h2, ?_⟩
      simp only [h1, h2, ne_eq, not_false_eq_true, and_self, if_true]
    · left
      simp only [h1, h2, ne_eq, not_false_eq_true, and_self, if_true, if_false]
  · left
    simp only [h1, if_false]

/-- Every entry of an index built from scratch by the text builder points at the start of a
line of the content. -/
theorem txt_offsets_at_line_starts (ix : FileIndexer) (data : List Char) :
    ∀ e ∈ index_from_scratch ix data, is_line_start data e.offset := by
  obtain ⟨hd, hl, ht⟩ := split_lines_spec data
  rw [index_from_scratch_eq]
  have hbody : ∀ e ∈ ((split_lines data).1.foldl (index_line ix) scratch_state).entries,
      is_line_start data e.offset := by
    refine foldl_entries_induction ix data (split_lines data).2
      (fun e => is_line_start data e.offset)
      ?_ (split_lines data).1 [] scratch_state (by simpa using hd) (Or.inl rfl) rfl hl
      (by simp [scratch_state])
    intro o l hb _
    exact line_begins_is_line_start data o l hb
  intro e he
  rcases final_entries_cases ix ((split_lines data).1.foldl (index_line ix) scratch_state)
    with h | ⟨_, _, _, h⟩
  · rw [h] at he; exact hbody e he
  · rw [h] at he
    simp only [List.mem_append, List.mem_singleton] at he
    rcases he with he | he
    · exact hbody e he
    · rw [he]
      simp only
      split
      · rcases List.eq_nil_or_concat (split_lines data).1 with hnil | ⟨init, last, hcat⟩
        · rw [hnil]; left; rfl
        · have hcat2 : (split_lines data).1 = init ++ [last] := by simpa using hcat
          rw [hcat2] at hd hl ⊢
          exact line_begins_is_line_start data _ _
            (foldl_last_begins ix data (split_lines data).2 init last [] scratch_state
              (by simpa using hd) (Or.inl rfl) rfl (hl last (by simp)))
      · left; rfl

theorem index_line_offsets (ix : FileIndexer) (st : IndexState) (line : List Char)
    (hp : st.entries.Pairwise (fun a b => a.offset ≤ b.offset))
    (hb : ∀ e ∈ st.entries, e.offset ≤ st.line_start) :
    (index_line ix st line).entries.Pairwise (fun a b => a.offset ≤ b.offset) ∧
    (∀ e ∈ (index_line ix st line).entries, e.offset ≤ st.line_start) := by
  rcases index_line_entries ix st line with h | ⟨_, h⟩
  · rw [h]; exact ⟨hp, hb⟩
  · rw [h]
    refine ⟨?_, ?_⟩
    · rw [List.pairwise_append]
      refine ⟨hp, by simp, ?_⟩
      intro a ha b hb2
      simp only [List.mem_singleton] at hb2
      rw [hb2]; exact hb a ha
    · intro e he
      simp only [List.mem_append, List.mem_singleton] at he
      rcases he with he | he
      · exact hb e he
      · rw [he]

/-- The offsets of the entries stay sorted through the loop of the text builder, and they
are bounded by the start of the last line read. -/
theorem foldl_offsets_sorted (ix : FileIndexer) (lines : List (List Char)) :
    ∀ st : IndexState, st.entries.Pairwise (fun a b => a.offset ≤ b.offset) →
      (∀ e ∈ st.entries, e.offset ≤ st.line_start) →
      (lines.foldl (index_line ix) st).entries.Pairwise (fun a b => a.offset ≤ b.offset) ∧
      (∀ e ∈ (lines.foldl (index_line ix) st).entries,
        e.offset ≤ (lines.foldl (index_line ix) st).line_start) ∧
      (lines ≠ [] → ∀ e ∈ (lines.foldl (index_line ix) st).entries,
        e.offset ≤ (lines.foldl (index_line ix) st).last_offset) := by
  induction lines using List.reverseRecOn with
  | nil => intro st hp hb; exact ⟨hp, hb, fun h => absurd rfl h⟩
  | append_singleton init last ih =>
    intro st hp hb
    obtain ⟨ih1, ih2, _⟩ := ih st hp hb
    rw [List.foldl_append]
    simp only [List.foldl_cons, List.foldl_nil]
    obtain ⟨h1, h2⟩ := index_line_offsets ix (init.foldl (index_line ix) st) last ih1 ih2
    obtain ⟨k1, _, k3⟩ := index_line_line_start ix (init.foldl (index_line ix) st) last
    refine ⟨h1, ?_, ?_⟩
    · intro e he
      have := h2 e he
      rw [k1]; omega
    · intro _ e he
      rw [k3]; exact h2 e he

/-- The entries of an index built from scratch by the text builder are non-decreasing in
offset. -/
theorem txt_offsets_sorted (ix : FileIndexer) (data : List Char) :
    (index_from_scratch ix data).Pairwise (fun a b => a.offset ≤ b.offset) := by
  rw [index_from_scratch_eq]
  obtain ⟨h1, h2, h3⟩ := foldl_offsets_sorted ix (split_lines data).1 scratch_state
    (by simp [scratch_state]) (by simp [scratch_state])
  rcases final_entries_cases ix ((split_lines data).1.foldl (index_line ix) scratch_state)
    with h | ⟨_, _, _, h⟩
  · rw [h]; exact h1
  · rw [h, List.pairwise_append]
    refine ⟨h1, by simp, ?_⟩
    intro a ha b hb
    simp only [List.mem_singleton] at hb
    rw [hb]
    simp only
    split
    · by_cases hne : (split_lines data).1 = []
      · rw [hne] at ha; simp [scratch_state] at ha
      · exact h3 hne a ha
    · rename_i h0
      have := h2 a ha
      simp only [ne_eq, Decidable.not_not] at h0
      omega
theorem bucket_bounds (ix : FileIndexer) (a : Int) (ha : 0 ≤ a) :
    0 ≤ ix.bucket a ∧ ix.bucket a ≤ a := by
  unfold FileIndexer.bucket
  have hn : (0 : Int) ≤ ix.index_interval_seconds_ := Int.ofNat_nonneg _
  rw [Int.tmod_eq_emod ha hn]
  by_cases h0 : (ix.index_interval_seconds_ : Int) = 0
  · rw [h0]; simp; exact ha
  · have h1 := Int.emod_nonneg a h0
    have h2 := Int.ediv_mul_le a h0
    have h3 := Int.emod_add_ediv a ix.index_interval_seconds_
    have h4 : (0 : Int) ≤ a / ix.index_interval_seconds_ := Int.ediv_nonneg ha hn
    have h5 : (0 : Int) ≤ ix.index_interval_seconds_ * (a / ix.index_interval_seconds_) :=
      Int.mul_nonneg hn h4
    omega

theorem bucket_mono (ix : FileIndexer) (a b : Int) (ha : 0 ≤ a) (hab : a ≤ b) :
    ix.bucket a ≤ ix.bucket b := by
  unfold FileIndexer.bucket
  have hn : (0 : Int) ≤ ix.index_interval_seconds_ := Int.ofNat_nonneg _
  rw [Int.tmod_eq_emod ha hn, Int.tmod_eq_emod (le_trans ha hab) hn]
  by_cases h0 : (ix.index_interval_seconds_ : Int) = 0
  · rw [h0]; simp
  · have hpos : (0 : Int) < ix.index_interval_seconds_ := lt_of_le_of_ne hn (Ne.symm h0)
    have e1 : a - a % (ix.index_interval_seconds_ : Int)
        = ix.index_interval_seconds_ * (a / ix.index_interval_seconds_) := by
      have := Int.emod_add_ediv a ix.index_interval_seconds_
      omega
    have e2 : b - b % (ix.index_interval_seconds_ : Int)
        = ix.index_interval_seconds_ * (b / ix.index_interval_seconds_) := by
      have := Int.emod_add_ediv b ix.index_interval_seconds_
      omega
    rw [e1, e2]
    exact Int.mul_le_mul_of_nonneg_left (Int.ediv_le_ediv hpos hab) hn

theorem to_uint64_mono (a b : Int) (ha : 0 ≤ a) (hab : a ≤ b) (hb : b < 2 ^ 63) :
    to_uint64 a ≤ to_uint64 b := by
  unfold to_uint64
  rw [Int.emod_eq_of_lt ha (by omega), Int.emod_eq_of_lt (le_trans ha hab) (by omega)]
  omega

theorem stamps_append (ix : FileIndexer) (xs ys : List (List Char)) :
    stamps ix (xs ++ ys) = stamps ix xs ++ stamps ix ys := by
  simp [stamps]

theorem mem_stamps (ix : FileIndexer) (lines : List (List Char)) (l : List Char)
    (hl : l ∈ lines) (hts : ix.get_timestamp_from_log_line l ≠ 0) :
    ix.get_timestamp_from_log_line l ∈ stamps ix lines := by
  simp only [stamps, List.mem_filter, List.mem_map, bne_iff_ne, ne_eq]
  exact ⟨⟨l, hl, rfl⟩, hts⟩

/-- When the time stamps of the lines are non-negative and non-decreasing, the timestamps of
the entries stay sorted through the loop of the text builder, and every entry carries the
bucket of a line read. -/
theorem foldl_timestamps_sorted (ix : FileIndexer) (lines : List (List Char)) :
    (∀ l ∈ lines, 0 ≤ ix.get_timestamp_from_log_line l ∧
      ix.get_timestamp_from_log_line l < 2 ^ 63) →
    (stamps ix lines).Pairwise (fun a b => a ≤ b) →
    (lines.foldl (index_line ix) scratch_state).entries.Pairwise
      (fun a b => a.timestamp ≤ b.timestamp) ∧
    (∀ e ∈ (lines.foldl (index_line ix) scratch_state).entries,
      ∃ l ∈ lines, ix.get_timestamp_from_log_line l ≠ 0 ∧
        e.timestamp = to_uint64 (ix.bucket (ix.get_timestamp_from_log_line l))) := by
  induction lines using List.reverseRecOn with
  | nil => intro _ _; simp [scratch_state]
  | append_singleton init last ih =>
    intro hr hs
    rw [stamps_append, List.pairwise_append] at hs
    obtain ⟨hs1, _, hs3⟩ := hs
    obtain ⟨ih1, ih2⟩ := ih (fun l hl => hr l (by simp [hl])) hs1
    rw [List.foldl_append]
    simp only [List.foldl_cons, List.foldl_nil]
    rcases index_line_entries ix (init.foldl (index_line ix) scratch_state) last
      with h | ⟨hts, h⟩
    · rw [h]
      refine ⟨ih1, ?_⟩
      intro e he
      obtain ⟨l, hl, h1, h2⟩ := ih2 e he
      exact ⟨l, by simp [hl], h1, h2⟩
    · rw [h]
      refine ⟨?_, ?_⟩
      · rw [List.pairwise_append]
        refine ⟨ih1, by simp, ?_⟩
        intro a ha b hb
        simp only [List.mem_singleton] at hb
        rw [hb]
        obtain ⟨l, hl, h1, h2⟩ := ih2 a ha
        rw [h2]
        have hle : ix.get_timestamp_from_log_line l ≤ ix.get_timestamp_from_log_line last :=
          hs3 _ (mem_stamps ix init l hl h1) _ (mem_stamps ix [last] last (by simp) hts)
        have hl0 := hr l (by simp [hl])
        have hlast := hr last (by simp)
        have hb1 := bucket_bounds ix _ hl0.1
        have hb2 := bucket_bounds ix _ hlast.1
        exact to_uint64_mono _ _ hb1.1 (bucket_mono ix _ _ hl0.1 hle) (by omega)
      · intro e he
        simp only [List.mem_append, List.mem_singleton] at he
        rcases he with he | he
        · obtain ⟨l, hl, h1, h2⟩ := ih2 e he
          exact ⟨l, by simp [hl], h1, h2⟩
        · exact ⟨last, by simp, hts, by rw [he]⟩

/-- The entries of an index built from scratch by the text builder are non-decreasing in
timestamp when the time stamps of the lines of the file are non-negative and
non-decreasing. -/
theorem txt_timestamps_sorted (ix : FileIndexer) (data : List Char)
    (hr : ∀ l ∈ (split_lines data).1, 0 ≤ ix.get_timestamp_from_log_line l ∧
      ix.get_timestamp_from_log_line l < 2 ^ 63)
    (hs : (stamps ix (split_lines data).1).Pairwise (fun a b => a ≤ b)) :
    (index_from_scratch ix data).Pairwise (fun a b => a.timestamp ≤ b.timestamp) := by
  rw [index_from_scratch_eq]
  obtain ⟨h1, h2⟩ := foldl_timestamps_sorted ix (split_lines data).1 hr hs
  rcases final_entries_cases ix ((split_lines data).1.foldl (index_line ix) scratch_state)
    with h | ⟨_, _, hts, h⟩
  · rw [h]; exact h1
  · rw [h, List.pairwise_append]
    refine ⟨h1, by simp, ?_⟩
    intro a ha b hb
    simp only [List.mem_singleton] at hb
    rw [hb]
    simp only
    obtain ⟨l, hl, k1, k2⟩ := h2 a ha
    rw [k2]
    rcases List.eq_nil_or_concat (split_lines data).1 with hnil | ⟨init, last, hcat⟩
    · rw [hnil] at hl; simp at hl
    · have hcat2 : (split_lines data).1 = init ++ [last] := by simpa using hcat
      rw [hcat2] at hl hr hs hts ⊢
      obtain ⟨e1, _, _⟩ := foldl_last ix init last scratch_state
      rw [e1] at hts ⊢
      have hl0 := hr l hl
      have hlast := hr last (by simp)
      have hb1 := bucket_bounds ix _ hl0.1
      have hle : ix.get_timestamp_from_log_line l ≤ ix.get_timestamp_from_log_line last := by
        simp only [List.mem_append, List.mem_singleton] at hl
        rcases hl with hl | hl
        · rw [stamps_append, List.pairwise_append] at hs
          exact hs.2.2 _ (mem_stamps ix init l hl k1) _ (mem_stamps ix [last] last (by simp) hts)
        · rw [hl]
      exact to_uint64_mono _ _ hb1.1 (le_trans hb1.2 hle) hlast.2
theorem igzip_lines_line (ix : FileIndexer) (base_offset fuel : Nat) (line rest : List Char)
    (pos : Nat) (st : GzState) (hl : '\n' ∉ line) (hf : 0 < fuel) :
    igzip_lines ix base_offset fuel (line ++ '\n' :: rest) pos st
      = igzip_lines ix base_offset (fuel - 1) rest (pos + line.length + 1)
          (igzip_line ix st ((base_offset + pos) % 2 ^ 64) line) := by
  obtain ⟨f, rfl⟩ : ∃ f, fuel = f + 1 := ⟨fuel - 1, by omega⟩
  simp only [igzip_lines, memchr_newline_line _ _ hl, Nat.add_sub_cancel]
  have h1 : (line ++ '\n' :: rest).drop (line.length + 1) = rest := by
    rw [show line ++ '\n' :: rest = (line ++ ['\n']) ++ rest by simp]
    rw [List.drop_left' (by simp)]
  have h2 : (line ++ '\n' :: rest).take line.length = line := by simp
  rw [h1, h2]

theorem igzip_lines_done (ix : FileIndexer) (base_offset fuel : Nat) (tail : List Char)
    (pos : Nat) (st : GzState) (ht : '\n' ∉ tail) :
    igzip_lines ix base_offset fuel tail pos st = (st, pos) := by
  cases fuel with
  | zero => rfl
  | succ fuel => simp only [igzip_lines, memchr_newline_none _ ht]

theorem get_timestamp_of_long (ix : FileIndexer) (p rest : List Char) (h : 50 ≤ p.length) :
    ix.get_timestamp_from_log_line (p ++ rest) = ix.get_timestamp_from_log_line p := by
  unfold FileIndexer.get_timestamp_from_log_line
  rw [List.take_append_of_le_length h]

/-- The state of the failing run after the round without output: the carry holds the pending
line followed by `OUT_BUF_SIZE` bytes of padding. -/
theorem padded_state :
    igzip_round (indexer_with 300 50000)
      (igzip_round (indexer_with 300 50000) gz_initial
        ("2025-01-01 00:00:00 a\n".toList ++ pending_line)) []
      = { carry := pending_line ++ List.replicate OUT_BUF_SIZE '\x00',
          entries := [⟨1735689600, 0⟩], total_uncompressed := 74,
          last_recorded_bucket := 1735689600, lines_since_last := 0, skipped_lines := 0,
          last_offset := 0, last_bucket := 1735689600,
          last_line := "2025-01-01 00:00:00 a".toList } := by
  have h1 : igzip_round (indexer_with 300 50000) gz_initial
        ("2025-01-01 00:00:00 a\n".toList ++ pending_line)
      = { carry := pending_line,
          entries := [⟨1735689600, 0⟩], total_uncompressed := 74,
          last_recorded_bucket := 1735689600, lines_since_last := 0, skipped_lines := 0,
          last_offset := 0, last_bucket := 1735689600,
          last_line := "2025-01-01 00:00:00 a".toList } := by decide
  rw [h1]
  rfl
/-- The round of the failing run that follows the round without output: the pending line is
completed behind the padding, and its entry gets the offset `74 − (52 + 16384)` reduced modulo
`2 ^ 64`; the next line gets its true offset 83. -/
theorem padded_round (Z : List Char) (hZ : '\n' ∉ Z) (hlen : Z.length = 16384) :
    igzip_round (indexer_with 300 50000)
      { carry := pending_line ++ Z,
        entries := [⟨1735689600, 0⟩], total_uncompressed := 74,
        last_recorded_bucket := 1735689600, lines_since_last := 0, skipped_lines := 0,
        last_offset := 0, last_bucket := 1735689600,
        last_line := "2025-01-01 00:00:00 a".toList }
      " backend\n2025-01-01 00:20:00 next\n".toList
      = { carry := [],
          entries := [⟨1735689600, 0⟩, ⟨1735690200, 18446744073709535254⟩,
            ⟨1735690800, 83⟩],
          total_uncompressed := 108,
          last_recorded_bucket := 1735690800, lines_since_last := 0, skipped_lines := 0,
          last_offset := 83, last_bucket := 1735690800,
          last_line := "2025-01-01 00:20:00 next".toList } := by
  have hline : '\n' ∉ pending_line ++ (Z ++ " backend".toList) := by
    simp only [List.mem_append, not_or]
    exact ⟨by decide, hZ, by decide⟩
  have hline2 : '\n' ∉ "2025-01-01 00:20:00 next".toList := by decide
  have hcarry : (pending_line ++ Z) ++ " backend\n2025-01-01 00:20:00 next\n".toList
      = (pending_line ++ (Z ++ " backend".toList)) ++
          '\n' :: ("2025-01-01 00:20:00 next".toList ++ '\n' :: []) := by
    simp
  have hts : (indexer_with 300 50000).get_timestamp_from_log_line
      (pending_line ++ (Z ++ " backend".toList)) = 1735690200 := by
    rw [get_timestamp_of_long _ _ _ (by decide)]
    decide
  have hts2 : (indexer_with 300 50000).get_timestamp_from_log_line
      "2025-01-01 00:20:00 next".toList = 1735690800 := by decide
  have hplen : pending_line.length = 52 := by decide
  have hb : (indexer_with 300 50000).bucket 1735690200 = 1735690200 := by decide
  have hb2 : (indexer_with 300 50000).bucket 1735690800 = 1735690800 := by decide
  unfold igzip_round
  simp only [hcarry]
  rw [if_pos (by decide)]
  rw [igzip_lines_line _ _ _ _ _ _ _ hline (by omega),
    igzip_lines_line _ _ _ _ _ _ _ hline2 (by simp [hlen, hplen]),
    igzip_lines_done _ _ _ [] _ _ (by simp)]
  simp only [igzip_line, hts, hts2, hb, hb2]
  simp only [List.length_append, List.length_cons, List.length_nil, hlen, hplen,
    String.toList]
  norm_num [to_uint64, indexer_with]
  refine ⟨by omega, by decide, by decide⟩

theorem igzip_loop_output (ix : FileIndexer) (stale : List Char → List Char)
    (bytes : List Char) (next_member : Bool) (rest : List InflateRound) (st : GzState) :
    igzip_loop ix stale (.output bytes false next_member :: rest) st
      = igzip_loop ix stale rest (igzip_round ix st bytes) := by
  simp [igzip_loop]

theorem igzip_loop_finish (ix : FileIndexer) (stale : List Char → List Char)
    (bytes : List Char) (rest : List InflateRound) (st : GzState)
    (h : (igzip_round ix st bytes).entries ≠ [] ∧ (igzip_round ix st bytes).last_offset ≠ 0 ∧
      0 < bytes.length) :
    igzip_loop ix stale (.output bytes true false :: rest) st
      = igzip_last_entry ix stale (igzip_round ix st bytes) := by
  simp only [igzip_loop, if_true, Bool.false_eq_true, if_false]
  rw [if_pos h]

theorem newline_not_in_padding : '\n' ∉ List.replicate OUT_BUF_SIZE '\x00' := by
  intro h
  have := (List.mem_replicate.mp h).2
  exact absurd this (by decide)

theorem padding_length : (List.replicate OUT_BUF_SIZE '\x00').length = 16384 := by
  rw [List.length_replicate]
  decide

theorem igzip_entries_def (ix : FileIndexer) (stale : List Char → List Char)
    (rounds : List InflateRound) :
    igzip_entries ix stale rounds = (igzip_loop ix stale rounds gz_initial).entries := rfl

/-- The entries of the failing run of `update_file_index_igzip`. -/
theorem padded_run_entries (stale : List Char → List Char) :
    igzip_entries (indexer_with 300 50000) stale padded_rounds
      = [⟨1735689600, 0⟩, ⟨1735690200, 18446744073709535254⟩, ⟨1735690800, 83⟩,
          ⟨to_uint64 ((indexer_with 300 50000).get_timestamp_from_log_line
            (stale "2025-01-01 00:20:00 next".toList)), 83⟩] := by
  rw [igzip_entries_def, padded_rounds, igzip_loop_output, igzip_loop_output, padded_state]
  have hr := padded_round _ newline_not_in_padding padding_length
  rw [igzip_loop_finish _ _ _ _ _ (by rw [hr]; decide), hr]
  rfl

/-- C9 fails on the code of the gzip builder `update_file_index_igzip`. In the run
`padded_rounds`, whose uncompressed content is three time-stamped lines that start at the
offsets 0, 22 and 83, one call of `isal_inflate` returns without output while the line that
starts at offset 22 is pending; the entry of that line gets the offset 18446744073709535254,
which is neither 0 nor a position after a newline of the uncompressed content. -/
theorem igzip_offset_after_empty_round :
    igzip_entries (indexer_with 300 50000) id padded_rounds
      = [⟨1735689600, 0⟩, ⟨1735690200, 18446744073709535254⟩, ⟨1735690800, 83⟩,
          ⟨1735690800, 83⟩] ∧
    rounds_content padded_rounds
      = ("2025-01-01 00:00:00 a\n" ++
         "2025-01-01 00:10:00 request started, waiting for the backend\n" ++
         "2025-01-01 00:20:00 next\n").toList ∧
    ¬ is_line_start (rounds_content padded_rounds) 18446744073709535254 ∧
    (indexer_with 300 50000).get_timestamp_from_log_line
      (line_at (rounds_content padded_rounds) 22) = 1735690200 := by
  refine ⟨?_, by decide, by decide, by decide⟩
  rw [padded_run_entries]
  decide

/-- C8 fails on the code. First file: after `a` (00:00:00) and `b` (00:04:59) the index ends
with the final entry (1735689899, 22); the resumed run starts from it with
`last_recorded_bucket = 1735689899`, so the appended line `c` (00:05:00), which has an entry in
the index built from scratch, gets none. Second file: the first index ends with the entry of
`a` because the last line has no time stamp; the resumed run drops that entry and does not add
it again, and the second index is empty. -/
theorem resumed_index_differs :
    index_from_scratch (indexer_with 300 50000)
        ("2025-01-01 00:00:00 a\n2025-01-01 00:04:59 b\n".toList ++
          "2025-01-01 00:05:00 c\n2025-01-01 00:06:00 d\n".toList)
      = [⟨1735689600, 0⟩, ⟨1735689900, 44⟩, ⟨1735689960, 66⟩] ∧
    index_then_append (indexer_with 300 50000)
        "2025-01-01 00:00:00 a\n2025-01-01 00:04:59 b\n".toList
        "2025-01-01 00:05:00 c\n2025-01-01 00:06:00 d\n".toList
      = [⟨1735689600, 0⟩, ⟨1735689960, 66⟩] ∧
    index_from_scratch (indexer_with 300 50000)
        ("2025-01-01 00:00:00 a\nnot a log line\n".toList ++ "2025-01-01 00:01:00 b\n".toList)
      = [⟨1735689600, 0⟩, ⟨1735689660, 37⟩] ∧
    index_then_append (indexer_with 300 50000)
        "2025-01-01 00:00:00 a\nnot a log line\n".toList "2025-01-01 00:01:00 b\n".toList
      = [] := by
  refine ⟨by decide, by decide, by decide, by decide⟩

theorem igzip_line_offsets (ix : FileIndexer) (st : GzState) (off : Nat) (line : List Char)
    (h : offsets_below st off) :
    offsets_below (igzip_line ix st off line) off ∧
    (igzip_line ix st off line).carry = st.carry ∧
    (igzip_line ix st off line).total_uncompressed = st.total_uncompressed := by
  obtain ⟨h1, h2, h3⟩ := h
  have hpush : (st.entries ++ [(⟨to_uint64 (ix.bucket (ix.get_timestamp_from_log_line line)),
      off⟩ : TimeIndex)]).Pairwise (fun a b => a.offset ≤ b.offset) ∧
      ∀ e ∈ st.entries ++ [(⟨to_uint64 (ix.bucket (ix.get_timestamp_from_log_line line)),
        off⟩ : TimeIndex)], e.offset ≤ off := by
    refine ⟨?_, ?_⟩
    · rw [List.pairwise_append]
      refine ⟨h1, by simp, ?_⟩
      intro a ha b hb
      simp only [List.mem_singleton] at hb
      rw [hb]
      exact le_trans (h2 a ha) h3
    · intro e he
      simp only [List.mem_append, List.mem_singleton] at he
      rcases he with he | he
      · exact le_trans (h2 e he) h3
      · rw [he]
  unfold igzip_line
  simp only
  split
  · exact ⟨⟨h1, h2, h3⟩, rfl, rfl⟩
  · split
    · exact ⟨⟨hpush.1, hpush.2, le_refl _⟩, rfl, rfl⟩
    · split
      · exact ⟨⟨hpush.1, hpush.2, le_refl _⟩, rfl, rfl⟩
      · exact ⟨⟨h1, fun e he => le_trans (h2 e he) h3, le_refl _⟩, rfl, rfl⟩

theorem memchr_newline_lt (rest : List Char) (n : Nat) (h : memchr_newline rest = some n) :
    n < rest.length := by
  induction rest generalizing n with
  | nil => simp [memchr_newline] at h
  | cons c r ih =>
    simp only [memchr_newline] at h
    split at h
    · cases h; simp
    · cases hm : memchr_newline r with
      | none => rw [hm] at h; simp at h
      | some m =>
        rw [hm] at h
        simp only [Option.map_some', Option.some.injEq] at h
        have := ih m hm
        simp only [List.length_cons]
        omega

theorem offsets_below_mono (st : GzState) (a b : Nat) (hab : a ≤ b) (h : offsets_below st a) :
    offsets_below st b :=
  ⟨h.1, h.2.1, le_trans h.2.2 hab⟩

/-- The inner loop of the gzip builder keeps the offsets sorted as long as they stay below
`2 ^ 64`. -/
theorem igzip_lines_offsets (ix : FileIndexer) (base : Nat) :
    ∀ (fuel : Nat) (rest : List Char) (pos : Nat) (st : GzState),
      base + pos + rest.length < 2 ^ 64 → offsets_below st (base + pos) →
      offsets_below (igzip_lines ix base fuel rest pos st).1
        (base + (igzip_lines ix base fuel rest pos st).2) ∧
      (igzip_lines ix base fuel rest pos st).2 ≤ pos + rest.length ∧
      (igzip_lines ix base fuel rest pos st).1.carry = st.carry ∧
      (igzip_lines ix base fuel rest pos st).1.total_uncompressed = st.total_uncompressed := by
  intro fuel
  induction fuel with
  | zero => intro rest pos st _ h; exact ⟨h, by simp [igzip_lines], rfl, rfl⟩
  | succ fuel ih =>
    intro rest pos st hlt h
    simp only [igzip_lines]
    cases hm : memchr_newline rest with
    | none => exact ⟨h, by simp, rfl, rfl⟩
    | some n =>
      simp only
      have hn := memchr_newline_lt rest n hm
      have hmod : (base + pos) % 2 ^ 64 = base + pos := Nat.mod_eq_of_lt (by omega)
      rw [hmod]
      obtain ⟨k1, k2, k3⟩ := igzip_line_offsets ix st (base + pos) (rest.take n) h
      have hlen : (rest.drop (n + 1)).length = rest.length - (n + 1) := List.length_drop _ _
      obtain ⟨r1, r2, r3, r4⟩ := ih (rest.drop (n + 1)) (pos + n + 1)
        (igzip_line ix st (base + pos) (rest.take n)) (by rw [hlen]; omega)
        (offsets_below_mono _ _ _ (by omega) k1)
      refine ⟨r1, ?_, by rw [r3, k2], by rw [r4, k3]⟩
      rw [hlen] at r2
      omega
theorem igzip_round_invariant (ix : FileIndexer) (st : GzState) (bytes : List Char)
    (hb : bytes ≠ []) (hlt : st.total_uncompressed + bytes.length < 2 ^ 64)
    (h : gz_invariant st) :
    gz_invariant (igzip_round ix st bytes) ∧
    (igzip_round ix st bytes).total_uncompressed = st.total_uncompressed + bytes.length := by
  obtain ⟨h1, h2⟩ := h
  have hpos : 0 < bytes.length := List.length_pos.mpr hb
  have hprev : (st.carry ++ bytes).length - bytes.length = st.carry.length := by simp
  have hbase : (st.total_uncompressed + 2 ^ 64 - st.carry.length % 2 ^ 64) % 2 ^ 64
      = st.total_uncompressed - st.carry.length := by
    rw [Nat.mod_eq_of_lt (a := st.carry.length) (by omega)]
    have e : st.total_uncompressed + 2 ^ 64 - st.carry.length
        = (st.total_uncompressed - st.carry.length) + 2 ^ 64 := by omega
    rw [e, Nat.add_mod_right, Nat.mod_eq_of_lt (by omega)]
  have key := igzip_lines_offsets ix (st.total_uncompressed - st.carry.length)
    ((st.carry ++ bytes).length + 1) (st.carry ++ bytes) 0 st
    (by simp only [List.length_append]; omega) (by simpa using h2)
  unfold igzip_round
  rw [if_pos hpos]
  simp only [hprev, hbase]
  generalize igzip_lines ix (st.total_uncompressed - st.carry.length)
    ((st.carry ++ bytes).length + 1) (st.carry ++ bytes) 0 st = r at key ⊢
  obtain ⟨r1, r2, _, _⟩ := key
  simp only [List.length_append, Nat.zero_add] at r2
  refine ⟨⟨?_, r1.1, r1.2.1, le_trans r1.2.2 ?_⟩, trivial⟩
  · simp only [List.length_drop, List.length_append]
    omega
  · simp only [List.length_drop, List.length_append]
    omega

theorem igzip_last_entry_invariant (ix : FileIndexer) (stale : List Char → List Char)
    (st : GzState) (h : gz_invariant st) :
    gz_invariant (igzip_last_entry ix stale st) ∧
    (igzip_last_entry ix stale st).total_uncompressed = st.total_uncompressed := by
  obtain ⟨h1, h2, h3, h4⟩ := h
  refine ⟨⟨h1, ?_, ?_, h4⟩, rfl⟩
  · simp only [igzip_last_entry]
    rw [List.pairwise_append]
    refine ⟨h2, by simp, ?_⟩
    intro a ha b hb
    simp only [List.mem_singleton] at hb
    rw [hb]
    exact h3 a ha
  · intro e he
    simp only [igzip_last_entry, List.mem_append, List.mem_singleton] at he
    rcases he with he | he
    · exact h3 e he
    · rw [he]; exact le_refl _

/-- The loop of the gzip builder keeps the offsets of the entries sorted when every
successful call of `isal_inflate` writes output and the uncompressed content is shorter than
`2 ^ 64` bytes. -/
theorem igzip_loop_invariant (ix : FileIndexer) (stale : List Char → List Char) :
    ∀ (rounds : List InflateRound) (st : GzState),
      (∀ r ∈ rounds, yields_output r) →
      st.total_uncompressed + (rounds_content rounds).length < 2 ^ 64 →
      gz_invariant st → gz_invariant (igzip_loop ix stale rounds st) := by
  intro rounds
  induction rounds with
  | nil =>
    intro st _ _ h
    simp only [igzip_loop]
    split
    · exact (igzip_last_entry_invariant ix stale st h).1
    · exact h
  | cons r rest ih =>
    intro st hy hlt h
    cases r with
    | failed => exact h
    | output bytes finish next_member =>
      have hb : bytes ≠ [] := hy (.output bytes finish next_member) (by simp)
      have hy2 : ∀ r ∈ rest, yields_output r := fun r hr => hy r (by simp [hr])
      simp only [rounds_content, List.length_append] at hlt
      obtain ⟨k1, k2⟩ := igzip_round_invariant ix st bytes hb (by omega) h
      simp only [igzip_loop]
      cases finish with
      | false =>
        simp only [Bool.false_eq_true, if_false]
        exact ih _ hy2 (by rw [k2]; omega) k1
      | true =>
        simp only [if_true]
        by_cases hc : (igzip_round ix st bytes).entries ≠ [] ∧
            (igzip_round ix st bytes).last_offset ≠ 0 ∧ 0 < bytes.length
        · rw [if_pos hc]
          obtain ⟨m1, m2⟩ := igzip_last_entry_invariant ix stale _ k1
          cases next_member with
          | false => simp only [Bool.false_eq_true, if_false]; exact m1
          | true =>
            simp only [if_true]
            exact ih _ hy2 (by rw [m2, k2]; omega) m1
        · rw [if_neg hc]
          cases next_member with
          | false => simp only [Bool.false_eq_true, if_false]; exact k1
          | true =>
            simp only [if_true]
            exact ih _ hy2 (by rw [k2]; omega) k1

/-- The entries that the gzip builder produces are non-decreasing in offset when every
successful call of `isal_inflate` writes output and the uncompressed content is shorter than
`2 ^ 64` bytes. -/
theorem igzip_offsets_sorted (ix : FileIndexer) (stale : List Char → List Char)
    (rounds : List InflateRound) (hy : ∀ r ∈ rounds, yields_output r)
    (hlt : (rounds_content rounds).length < 2 ^ 64) :
    (igzip_entries ix stale rounds).Pairwise (fun a b => a.offset ≤ b.offset) := by
  have := igzip_loop_invariant ix stale rounds gz_initial hy (by simpa [gz_initial] using hlt)
    ⟨by simp [gz_initial], by simp [gz_initial], by simp [gz_initial], by simp [gz_initial]⟩
  exact this.2.1

/-- The fuel that `igzip_round` gives to the inner loop is enough: with more fuel than the
carry has bytes the result of the loop does not depend on the amount of fuel. -/
theorem igzip_lines_fuel (ix : FileIndexer) (base : Nat) :
    ∀ (fuel more : Nat) (rest : List Char) (pos : Nat) (st : GzState),
      rest.length < fuel → rest.length < more →
      igzip_lines ix base fuel rest pos st = igzip_lines ix base more rest pos st := by
  intro fuel
  induction fuel with
  | zero => intro more rest pos st h; omega
  | succ fuel ih =>
    intro more rest pos st h h2
    cases more with
    | zero => omega
    | succ more =>
      simp only [igzip_lines]
      cases hm : memchr_newline rest with
      | none => rfl
      | some n =>
        have hn := memchr_newline_lt rest n hm
        have hd : (rest.drop (n + 1)).length < rest.length := by
          simp only [List.length_drop]; omega
        exact ih more _ _ _ (by omega) (by omega)

/-- C7 (amended). The entries of an index that the text builder builds from scratch are
non-decreasing in offset, and they are non-decreasing in timestamp when the time stamps of the
lines of the file are non-negative and non-decreasing in file order. The entries that the gzip
builder `update_file_index_igzip` produces are non-decreasing in offset when every successful
call of `isal_inflate` writes at least one byte and the uncompressed content is shorter than
`2 ^ 64` bytes. -/
theorem index_entries_monotone (ix : FileIndexer) (data : List Char)
    (stale : List Char → List Char) (rounds : List InflateRound) :
    (index_from_scratch ix data).Pairwise (fun a b => a.offset ≤ b.offset) ∧
    ((∀ l ∈ (split_lines data).1, 0 ≤ ix.get_timestamp_from_log_line l ∧
        ix.get_timestamp_from_log_line l < 2 ^ 63) →
      (stamps ix (split_lines data).1).Pairwise (fun a b => a ≤ b) →
      (index_from_scratch ix data).Pairwise (fun a b => a.timestamp ≤ b.timestamp)) ∧
    ((∀ r ∈ rounds, yields_output r) → (rounds_content rounds).length < 2 ^ 64 →
      (igzip_entries ix stale rounds).Pairwise (fun a b => a.offset ≤ b.offset)) :=
  ⟨txt_offsets_sorted ix data, txt_timestamps_sorted ix data,
   igzip_offsets_sorted ix stale rounds⟩

theorem index_entries_monotone_witness :
    (stamps (indexer_with 300 1000000) (split_lines scenario_file).1).Pairwise
      (fun a b => a ≤ b) ∧
    (index_from_scratch (indexer_with 300 1000000) scenario_file).Pairwise
      (fun a b => a.timestamp ≤ b.timestamp) ∧
    (∀ r ∈ [InflateRound.output "2025-01-01 00:00:00 a\n2025-01-01 00:10:00 b\n".toList
        true false], yields_output r) ∧
    (igzip_entries (indexer_with 300 1000000) id
      [InflateRound.output "2025-01-01 00:00:00 a\n2025-01-01 00:10:00 b\n".toList
        true false]).Pairwise (fun a b => a.offset ≤ b.offset) :=
  ⟨by decide,
   (index_entries_monotone (indexer_with 300 1000000) scenario_file id
      [InflateRound.output "2025-01-01 00:00:00 a\n2025-01-01 00:10:00 b\n".toList
        true false]).2.1 (by decide) (by decide),
   by simp [yields_output],
   (index_entries_monotone (indexer_with 300 1000000) scenario_file id
      [InflateRound.output "2025-01-01 00:00:00 a\n2025-01-01 00:10:00 b\n".toList
        true false]).2.2 (by simp [yields_output]) (by decide)⟩

/-- C7 as stated fails. Timestamps: a file whose second line is older than the first gets the
entries (1735693200, 0), (1735689600, 22). Offsets: the run `padded_rounds` of the gzip
builder, in which one call of `isal_inflate` writes no byte, gets the offsets 0,
18446744073709535254, 83, 83. -/
theorem entries_monotone_counterexample :
    index_from_scratch (indexer_with 300 50000)
        "2025-01-01 01:00:00 a\n2025-01-01 00:00:00 b\n".toList
      = [⟨1735693200, 0⟩, ⟨1735689600, 22⟩] ∧
    ¬ (index_from_scratch (indexer_with 300 50000)
        "2025-01-01 01:00:00 a\n2025-01-01 00:00:00 b\n".toList).Pairwise
          (fun a b => a.timestamp ≤ b.timestamp) ∧
    ¬ (igzip_entries (indexer_with 300 50000) id padded_rounds).Pairwise
          (fun a b => a.offset ≤ b.offset) := by
  refine ⟨by decide, by decide, ?_⟩
  rw [padded_run_entries]
  decide

/-- C11 fails on the code of `update_file_index_txt_mmap`. The file holds the time-stamped
lines `a` (offset 0) and `b` (offset 22) followed by a line without time stamp (offset 44).
The builder assigns `last_line` for every line, so after the loop `last_line` is the line
without time stamp and no final entry is added: the last entry is the one of line `a`, at
offset 0, not at the offset 22 of the last time-stamped line. The gzip builder, which assigns
`last_line` for time-stamped lines only, ends the index of the same content with an entry at
offset 22. -/
theorem last_entry_misses_last_stamped_line :
    index_from_scratch (indexer_with 300 50000)
        "2025-01-01 00:00:00 a\n2025-01-01 00:01:00 b\n  at frame 1\n".toList
      = [⟨1735689600, 0⟩] ∧
    (indexer_with 300 50000).get_timestamp_from_log_line
        (line_at "2025-01-01 00:00:00 a\n2025-01-01 00:01:00 b\n  at frame 1\n".toList 22)
      = 1735689660 ∧
    (indexer_with 300 50000).get_timestamp_from_log_line
        (line_at "2025-01-01 00:00:00 a\n2025-01-01 00:01:00 b\n  at frame 1\n".toList 44)
      = 0 ∧
    igzip_entries (indexer_with 300 50000) id
        [.output "2025-01-01 00:00:00 a\n2025-01-01 00:01:00 b\n  at frame 1\n".toList
          true false]
      = [⟨1735689600, 0⟩, ⟨1735689660, 22⟩] := by
  refine ⟨by decide, by decide, by decide, by decide⟩

theorem timestamp_covers_iff (a b s e : Nat) :
    timestamp_covers a b s e = true ↔ a ≤ e ∧ b ≥ s := by
  simp [timestamp_covers]

theorem pair_overlaps_zero (a b : TimeIndex) (rest : List TimeIndex) (s e : Nat) :
    pair_overlaps (a :: b :: rest) s e 0 ↔ timestamp_covers a.timestamp b.timestamp s e = true := by
  rw [timestamp_covers_iff]
  constructor
  · rintro ⟨x, y, hx, hy, h1, h2⟩
    simp at hx hy
    subst hx; subst hy
    exact ⟨h1, h2⟩
  · intro h
    exact ⟨a, b, by simp, by simp, h.1, h.2⟩

theorem pair_overlaps_succ (a : TimeIndex) (l : List TimeIndex) (s e k : Nat) :
    pair_overlaps (a :: l) s e (k + 1) ↔ pair_overlaps l s e k := by
  simp [pair_overlaps]

theorem pair_overlaps_short (l : List TimeIndex) (s e k : Nat) (h : l.length < 2) :
    ¬ pair_overlaps l s e k := by
  rintro ⟨a, b, ha, hb, _⟩
  have := (List.getElem?_eq_some_iff.mp hb).1
  omega

/-- What the loop of `find_index_pos` computes: `start_idx` becomes the minimum of its old
value and the indexes of the overlapping pairs, `end_idx` the maximum of its old value and
the successors of these indexes, and `be_fount` tells whether there is an overlapping pair. -/
theorem find_index_loop_spec (s e : Nat) (l : List TimeIndex) :
    ∀ (i : Nat) (si ei : Int) (f : Bool),
      let r := find_index_loop s e l i (si, ei, f)
      (r.1 ≤ si ∧ (∀ k, pair_overlaps l s e k → r.1 ≤ (i : Int) + k) ∧
        (r.1 = si ∨ ∃ k, pair_overlaps l s e k ∧ r.1 = (i : Int) + k)) ∧
      (ei ≤ r.2.1 ∧ (∀ k, pair_overlaps l s e k → (i : Int) + k + 1 ≤ r.2.1) ∧
        (r.2.1 = ei ∨ ∃ k, pair_overlaps l s e k ∧ r.2.1 = (i : Int) + k + 1)) ∧
      (r.2.2 = true ↔ f = true ∨ ∃ k, pair_overlaps l s e k) := by
  induction l with
  | nil =>
    intro i si ei f
    have hs := pair_overlaps_short [] s e
    have hr : find_index_loop s e [] i (si, ei, f) = (si, ei, f) := rfl
    simp only []
    rw [hr]
    refine ⟨⟨le_refl _, fun k hk => absurd hk (hs k (by simp)), Or.inl rfl⟩,
      ⟨le_refl _, fun k hk => absurd hk (hs k (by simp)), Or.inl rfl⟩, ?_⟩
    constructor
    · intro h; exact Or.inl h
    · rintro (h | ⟨k, hk⟩)
      · exact h
      · exact absurd hk (hs k (by simp))
  | cons a l ih =>
    intro i si ei f
    cases l with
    | nil =>
      have hs := pair_overlaps_short [a] s e
      have hr : find_index_loop s e [a] i (si, ei, f) = (si, ei, f) := rfl
      simp only []
      rw [hr]
      refine ⟨⟨le_refl _, fun k hk => absurd hk (hs k (by simp)), Or.inl rfl⟩,
        ⟨le_refl _, fun k hk => absurd hk (hs k (by simp)), Or.inl rfl⟩, ?_⟩
      constructor
      · intro h; exact Or.inl h
      · rintro (h | ⟨k, hk⟩)
        · exact h
        · exact absurd hk (hs k (by simp))
    | cons b rest =>
      have hcases : ∀ k, pair_overlaps (a :: b :: rest) s e k ↔
          (k = 0 ∧ timestamp_covers a.timestamp b.timestamp s e = true) ∨
          (∃ k', k = k' + 1 ∧ pair_overlaps (b :: rest) s e k') := by
        intro k
        cases k with
        | zero => rw [pair_overlaps_zero]; simp
        | succ k' => rw [pair_overlaps_succ]; simp
      simp only [find_index_loop]
      by_cases hc : timestamp_covers a.timestamp b.timestamp s e = true
      · rw [if_pos hc]
        obtain ⟨X, hXe, hX1, hX2, hX3⟩ : ∃ X : Int, X = (if (i : Int) < si then (i : Int) else si) ∧
            X ≤ si ∧ X ≤ i ∧ (X = si ∨ X = i) := by
          refine ⟨_, rfl, ?_⟩
          split <;> omega
        obtain ⟨Y, hYe, hY1, hY2, hY3⟩ : ∃ Y : Int,
            Y = (if (i : Int) + 1 > ei then (i : Int) + 1 else ei) ∧
            ei ≤ Y ∧ (i : Int) + 1 ≤ Y ∧ (Y = ei ∨ Y = (i : Int) + 1) := by
          refine ⟨_, rfl, ?_⟩
          split <;> omega
        rw [← hXe, ← hYe]
        obtain ⟨⟨h1, h2, h3⟩, ⟨h4, h5, h6⟩, h7⟩ := ih (i + 1) X Y true
        have h0 : pair_overlaps (a :: b :: rest) s e 0 := (hcases 0).mpr (Or.inl ⟨rfl, hc⟩)
        refine ⟨⟨by omega, ?_, ?_⟩, ⟨by omega, ?_, ?_⟩, ?_⟩
        · intro k hk
          rcases (hcases k).mp hk with ⟨hk0, _⟩ | ⟨k', hk', hov⟩
          · subst hk0; simp only [Nat.cast_zero, add_zero]; omega
          · have := h2 k' hov
            subst hk'
            push_cast at this ⊢
            omega
        · rcases h3 with h3 | ⟨k', hov, h3⟩
          · rcases hX3 with hX3 | hX3
            · exact Or.inl (by rw [h3, hX3])
            · exact Or.inr ⟨0, h0, by rw [h3, hX3]; simp⟩
          · refine Or.inr ⟨k' + 1, (hcases _).mpr (Or.inr ⟨k', rfl, hov⟩), ?_⟩
            rw [h3]; push_cast; omega
        · intro k hk
          rcases (hcases k).mp hk with ⟨hk0, _⟩ | ⟨k', hk', hov⟩
          · subst hk0; simp only [Nat.cast_zero, add_zero]; omega
          · have := h5 k' hov
            subst hk'
            push_cast at this ⊢
            omega
        · rcases h6 with h6 | ⟨k', hov, h6⟩
          · rcases hY3 with hY3 | hY3
            · exact Or.inl (by rw [h6, hY3])
            · exact Or.inr ⟨0, h0, by rw [h6, hY3]; simp⟩
          · refine Or.inr ⟨k' + 1, (hcases _).mpr (Or.inr ⟨k', rfl, hov⟩), ?_⟩
            rw [h6]; push_cast; omega
        · constructor
          · intro _; exact Or.inr ⟨0, h0⟩
          · intro _; exact h7.mpr (Or.inl rfl)
      · rw [if_neg hc]
        obtain ⟨⟨h1, h2, h3⟩, ⟨h4, h5, h6⟩, h7⟩ := ih (i + 1) si ei f
        refine ⟨⟨h1, ?_, ?_⟩, ⟨h4, ?_, ?_⟩, ?_⟩
        · intro k hk
          rcases (hcases k).mp hk with ⟨_, hk0⟩ | ⟨k', hk', hov⟩
          · exact absurd hk0 hc
          · have := h2 k' hov
            subst hk'
            push_cast at this ⊢
            omega
        · rcases h3 with h3 | ⟨k', hov, h3⟩
          · exact Or.inl h3
          · refine Or.inr ⟨k' + 1, (hcases _).mpr (Or.inr ⟨k', rfl, hov⟩), ?_⟩
            rw [h3]; push_cast; omega
        · intro k hk
          rcases (hcases k).mp hk with ⟨_, hk0⟩ | ⟨k', hk', hov⟩
          · exact absurd hk0 hc
          · have := h5 k' hov
            subst hk'
            push_cast at this ⊢
            omega
        · rcases h6 with h6 | ⟨k', hov, h6⟩
          · exact Or.inl h6
          · refine Or.inr ⟨k' + 1, (hcases _).mpr (Or.inr ⟨k', rfl, hov⟩), ?_⟩
            rw [h6]; push_cast; omega
        · rw [h7]
          constructor
          · rintro (h | ⟨k', hov⟩)
            · exact Or.inl h
            · exact Or.inr ⟨k' + 1, (hcases _).mpr (Or.inr ⟨k', rfl, hov⟩)⟩
          · rintro (h | ⟨k, hk⟩)
            · exact Or.inl h
            · rcases (hcases k).mp hk with ⟨_, hk0⟩ | ⟨k', _, hov⟩
              · exact absurd hk0 hc
              · exact Or.inr ⟨k', hov⟩


/-- C12 (amended). `find_index_pos` reports that the time range is not covered exactly when
no pair of consecutive entries `(e_k, e_{k+1})` has `e_k.timestamp ≤ end_time` and
`e_{k+1}.timestamp ≥ start_time`, in particular for every index with fewer than two entries.
Otherwise it sets `index_start_pos` to `e_i.offset` and `index_end_pos` to `e_{j+1}.offset`,
where `i` is the smallest and `j` the largest index of an overlapping pair: the window ends
at the second entry of the last overlapping pair. -/
theorem find_index_pos_window (info : FileInfo) (file_index : FileIndex) (ctx : SearchContext)
    (hfi : info.file_index = some file_index)
    (hlen : file_index.time_indexes.length < 2 ^ 31) :
    ((find_index_pos (some info) ctx).1 = false ↔
      ¬ ∃ k, pair_overlaps file_index.time_indexes ctx.start_time ctx.end_time k) ∧
    (file_index.time_indexes.length < 2 → (find_index_pos (some info) ctx).1 = false) ∧
    ((find_index_pos (some info) ctx).1 = true →
      ∃ i j a b, pair_overlaps file_index.time_indexes ctx.start_time ctx.end_time i ∧
        pair_overlaps file_index.time_indexes ctx.start_time ctx.end_time j ∧
        (∀ k, pair_overlaps file_index.time_indexes ctx.start_time ctx.end_time k →
          i ≤ k ∧ k ≤ j) ∧
        file_index.time_indexes[i]? = some a ∧ file_index.time_indexes[j + 1]? = some b ∧
        (find_index_pos (some info) ctx).2.index_start_pos = a.offset ∧
        (find_index_pos (some info) ctx).2.index_end_pos = b.offset) := by
  obtain ⟨⟨h1, h2, h3⟩, ⟨h4, h5, h6⟩, h7⟩ := find_index_loop_spec ctx.start_time ctx.end_time
    file_index.time_indexes 0 0x7FFFFFFF (-1) false
  have hbound : ∀ k, pair_overlaps file_index.time_indexes ctx.start_time ctx.end_time k →
      k + 1 < file_index.time_indexes.length := by
    rintro k ⟨a, b, _, hb, _⟩
    exact (List.getElem?_eq_some_iff.mp hb).1
  -- the case in which some pair overlaps
  have hfound : (∃ k, pair_overlaps file_index.time_indexes ctx.start_time ctx.end_time k) →
      ∃ i j a b, pair_overlaps file_index.time_indexes ctx.start_time ctx.end_time i ∧
        pair_overlaps file_index.time_indexes ctx.start_time ctx.end_time j ∧
        (∀ k, pair_overlaps file_index.time_indexes ctx.start_time ctx.end_time k →
          i ≤ k ∧ k ≤ j) ∧
        file_index.time_indexes[i]? = some a ∧ file_index.time_indexes[j + 1]? = some b ∧
        find_index_pos (some info) ctx
          = (true, { ctx with index_start_time := a.timestamp, index_start_pos := a.offset,
                              index_end_time := b.timestamp, index_end_pos := b.offset }) := by
    rintro ⟨k0, hk0⟩
    have hb0 := hbound k0 hk0
    have hne : file_index.time_indexes ≠ [] := by
      intro h0; rw [h0] at hb0; simp at hb0
    have hf : (find_index_loop ctx.start_time ctx.end_time file_index.time_indexes 0
        (0x7FFFFFFF, -1, false)).2.2 = true := h7.mpr (Or.inr ⟨k0, hk0⟩)
    have e1 := h2 k0 hk0
    have e2 := h5 k0 hk0
    obtain ⟨i, hi, hri⟩ : ∃ i, pair_overlaps file_index.time_indexes ctx.start_time
        ctx.end_time i ∧ (find_index_loop ctx.start_time ctx.end_time
          file_index.time_indexes 0 (0x7FFFFFFF, -1, false)).1 = (i : Int) := by
      rcases h3 with h3 | ⟨k, hk, h3⟩
      · exfalso; rw [h3] at e1; push_cast at e1; omega
      · exact ⟨k, hk, by rw [h3]; simp⟩
    obtain ⟨j, hj, hrj⟩ : ∃ j, pair_overlaps file_index.time_indexes ctx.start_time
        ctx.end_time j ∧ (find_index_loop ctx.start_time ctx.end_time
          file_index.time_indexes 0 (0x7FFFFFFF, -1, false)).2.1 = (j : Int) + 1 := by
      rcases h6 with h6 | ⟨k, hk, h6⟩
      · exfalso; rw [h6] at e2; push_cast at e2; omega
      · exact ⟨k, hk, by rw [h6]; simp⟩
    obtain ⟨a, a2, ha, _, _, _⟩ := hi
    obtain ⟨b0, b, _, hb, _, _⟩ := hj
    have hi2 : pair_overlaps file_index.time_indexes ctx.start_time ctx.end_time i := by
      rcases h3 with h3 | ⟨k, hk, h3⟩
      · exfalso; rw [h3] at e1; push_cast at e1; omega
      · have : k = i := by rw [h3] at hri; push_cast at hri; omega
        rw [← this]; exact hk
    have hj2 : pair_overlaps file_index.time_indexes ctx.start_time ctx.end_time j := by
      rcases h6 with h6 | ⟨k, hk, h6⟩
      · exfalso; rw [h6] at e2; push_cast at e2; omega
      · have : k = j := by rw [h6] at hrj; push_cast at hrj; omega
        rw [← this]; exact hk
    refine ⟨i, j, a, b, hi2, hj2, ?_, ha, hb, ?_⟩
    · intro k hk
      have := h2 k hk
      have := h5 k hk
      rw [hri] at *
      rw [hrj] at *
      push_cast at *
      omega
    · have hbi := hbound i hi2
      simp only [find_index_pos, hfi, hne, if_false, hf, hri, hrj]
      have t1 : ((i : Int)).toNat = i := by simp
      have t2 : ((j : Int) + 1).toNat = j + 1 := by omega
      have c1 : ((i : Int) = 0x7FFFFFFF) = False := by
        apply eq_false; omega
      have c2 : ((j : Int) + 1 = -1) = False := by
        apply eq_false; omega
      simp only [t1, t2, ha, hb, c1, c2, Bool.not_true, Bool.false_or, decide_False,
        Bool.or_self, Bool.false_eq_true, if_false]
  -- the case in which no pair overlaps
  have hnone : (¬ ∃ k, pair_overlaps file_index.time_indexes ctx.start_time ctx.end_time k) →
      (find_index_pos (some info) ctx).1 = false := by
    intro hno
    have hf : (find_index_loop ctx.start_time ctx.end_time file_index.time_indexes 0
        (0x7FFFFFFF, -1, false)).2.2 = false := by
      cases hv : (find_index_loop ctx.start_time ctx.end_time file_index.time_indexes 0
        (0x7FFFFFFF, -1, false)).2.2 with
      | false => rfl
      | true =>
        rcases h7.mp hv with h | h
        · exact absurd h (by simp)
        · exact absurd h hno
    simp only [find_index_pos, hfi]
    split
    · rfl
    · simp [hf]
  refine ⟨?_, ?_, ?_⟩
  · constructor
    · intro hfalse hex
      obtain ⟨i, j, a, b, _, _, _, _, _, heq⟩ := hfound hex
      rw [heq] at hfalse
      exact absurd hfalse (by simp)
    · exact hnone
  · intro hshort
    apply hnone
    rintro ⟨k, hk⟩
    have := hbound k hk
    omega
  · intro htrue
    by_cases hex : ∃ k, pair_overlaps file_index.time_indexes ctx.start_time ctx.end_time k
    · obtain ⟨i, j, a, b, hi, hj, hmin, ha, hb, heq⟩ := hfound hex
      exact ⟨i, j, a, b, hi, hj, hmin, ha, hb, by rw [heq], by rw [heq]⟩
    · rw [hnone hex] at htrue
      exact absurd htrue (by simp)

theorem find_index_pos_window_witness :
    (find_index_pos (some (info_with [⟨100, 0⟩, ⟨200, 50⟩, ⟨300, 90⟩, ⟨400, 120⟩]))
        (context_for [] 250 260)).1 = true ∧
    ∃ i j a b, pair_overlaps [⟨100, 0⟩, ⟨200, 50⟩, ⟨300, 90⟩, ⟨400, 120⟩] 250 260 i ∧
      pair_overlaps [⟨100, 0⟩, ⟨200, 50⟩, ⟨300, 90⟩, ⟨400, 120⟩] 250 260 j ∧
      (∀ k, pair_overlaps [⟨100, 0⟩, ⟨200, 50⟩, ⟨300, 90⟩, ⟨400, 120⟩] 250 260 k →
        i ≤ k ∧ k ≤ j) ∧
      [(⟨100, 0⟩ : TimeIndex), ⟨200, 50⟩, ⟨300, 90⟩, ⟨400, 120⟩][i]? = some a ∧
      [(⟨100, 0⟩ : TimeIndex), ⟨200, 50⟩, ⟨300, 90⟩, ⟨400, 120⟩][j + 1]? = some b ∧
      (find_index_pos (some (info_with [⟨100, 0⟩, ⟨200, 50⟩, ⟨300, 90⟩, ⟨400, 120⟩]))
        (context_for [] 250 260)).2.index_start_pos = a.offset ∧
      (find_index_pos (some (info_with [⟨100, 0⟩, ⟨200, 50⟩, ⟨300, 90⟩, ⟨400, 120⟩]))
        (context_for [] 250 260)).2.index_end_pos = b.offset :=
  ⟨by decide,
   (find_index_pos_window (info_with [⟨100, 0⟩, ⟨200, 50⟩, ⟨300, 90⟩, ⟨400, 120⟩])
      { time_indexes := [⟨100, 0⟩, ⟨200, 50⟩, ⟨300, 90⟩, ⟨400, 120⟩] } (context_for [] 250 260)
      rfl (by decide)).2.2 (by decide)⟩

/-- C12 as stated fails: for the index (100, 0), (200, 50), (300, 90) and the window from 150
to 160 the only overlapping pair is the pair 0, so `i = j = 0`; `index_start_pos` is the
offset 0 of the entry 0, but `index_end_pos` is the offset 50 of the entry 1, not the offset
of the entry `j = 0`. -/
theorem end_offset_counterexample :
    (find_index_pos (some (info_with [⟨100, 0⟩, ⟨200, 50⟩, ⟨300, 90⟩]))
        (context_for [] 150 160)).1 = true ∧
    pair_overlaps [⟨100, 0⟩, ⟨200, 50⟩, ⟨300, 90⟩] 150 160 0 ∧
    (∀ k, pair_overlaps [⟨100, 0⟩, ⟨200, 50⟩, ⟨300, 90⟩] 150 160 k → k = 0) ∧
    (find_index_pos (some (info_with [⟨100, 0⟩, ⟨200, 50⟩, ⟨300, 90⟩]))
        (context_for [] 150 160)).2.index_start_pos = 0 ∧
    (find_index_pos (some (info_with [⟨100, 0⟩, ⟨200, 50⟩, ⟨300, 90⟩]))
        (context_for [] 150 160)).2.index_end_pos = 50 := by
  refine ⟨by decide, ⟨⟨100, 0⟩, ⟨200, 50⟩, rfl, rfl, by decide, by decide⟩, ?_,
    by decide, by decide⟩
  rintro k ⟨a, b, ha, hb, h1, h2⟩
  match k, ha, hb with
  | 0, _, _ => rfl
  | 1, ha, hb =>
    simp at ha hb
    subst ha; subst hb
    simp at h1
  | k + 2, ha, hb =>
    have := (List.getElem?_eq_some_iff.mp hb).1
    simp only [List.length_cons, List.length_nil] at this
    omega

theorem exec_lines_batch (searchers : List QuerySearcher) (log_lines : List LogLine) :
    ∀ matched_lines : List LogLine,
      ∀ l ∈ (exec_lines searchers log_lines matched_lines).1,
        ∃ l2 ∈ log_lines, l.timestamp = l2.timestamp := by
  induction log_lines with
  | nil => intro m l hl; simp [exec_lines] at hl
  | cons a rest ih =>
    intro m l hl
    by_cases h : be_matched a.line searchers = true
    · simp only [exec_lines, h, if_true, List.mem_cons] at hl
      rcases hl with hl | hl
      · exact ⟨a, by simp, by rw [hl]⟩
      · obtain ⟨l2, h2, h3⟩ := ih _ l hl
        exact ⟨l2, by simp [h2], h3⟩
    · simp only [exec_lines, h, if_false, List.mem_cons, Bool.false_eq_true] at hl
      rcases hl with hl | hl
      · exact ⟨a, by simp, by rw [hl]⟩
      · obtain ⟨l2, h2, h3⟩ := ih _ l hl
        exact ⟨l2, by simp [h2], h3⟩

/-- What `exec_searchers` leaves unchanged, and where the matched records come from. -/
theorem exec_searchers_frame (ctx : SearchContext) :
    (exec_searchers ctx).2.start_time = ctx.start_time ∧
    (exec_searchers ctx).2.end_time = ctx.end_time ∧
    (exec_searchers ctx).2.req = ctx.req ∧
    (exec_searchers ctx).2.searchers = ctx.searchers ∧
    (exec_searchers ctx).2.index_end_pos = ctx.index_end_pos ∧
    (exec_searchers ctx).2.tmp_line = ctx.tmp_line ∧
    (∃ sel, sel.Sublist ctx.log_lines ∧
      (exec_searchers ctx).2.matched_lines = ctx.matched_lines ++ sel) ∧
    (∀ l ∈ (exec_searchers ctx).2.log_lines, ∃ l2 ∈ ctx.log_lines,
      l.timestamp = l2.timestamp) := by
  unfold exec_searchers
  by_cases h : ctx.searchers.isEmpty = true
  · rw [if_pos h]
    exact ⟨rfl, rfl, rfl, rfl, rfl, rfl, ⟨[], by simp, by simp⟩,
      fun l hl => ⟨l, hl, rfl⟩⟩
  · rw [if_neg h]
    refine ⟨rfl, rfl, rfl, rfl, rfl, rfl, ⟨_, List.filter_sublist _,
      exec_lines_matched _ _ _⟩, exec_lines_batch _ _ _⟩

/-- The cases of `parse_line`: the line is appended to the pending record or dropped, or the
pending record is moved to the batch and the line starts a new pending record when its time
stamp is in the window. -/
theorem parse_line_cases (ix : FileIndexer) (ctx : SearchContext) (line : List Char) :
    (parse_line ix ctx line).1 = true ∧
    ((parse_line ix ctx line).2 = ctx ∨
     (ctx.tmp_line.line ≠ [] ∧ (parse_line ix ctx line).2 = { ctx with
        tmp_line := { ctx.tmp_line with line := ctx.tmp_line.line ++ '\n' :: line } }) ∨
     (ctx.tmp_line.line ≠ [] ∧ (parse_line ix ctx line).2 = { ctx with
        log_lines := ctx.log_lines ++ [⟨ctx.tmp_line.timestamp, ctx.tmp_line.line⟩],
        tmp_line := { ctx.tmp_line with line := [] } }) ∨
     (ctx.tmp_line.line ≠ [] ∧
        ctx.start_time ≤ to_uint64 (ix.get_timestamp_from_log_line line) ∧
        to_uint64 (ix.get_timestamp_from_log_line line) ≤ ctx.end_time ∧
        (parse_line ix ctx line).2 = { ctx with
          log_lines := ctx.log_lines ++ [⟨ctx.tmp_line.timestamp, ctx.tmp_line.line⟩],
          tmp_line := ⟨to_uint64 (ix.get_timestamp_from_log_line line), line⟩ }) ∨
     (ctx.start_time ≤ to_uint64 (ix.get_timestamp_from_log_line line) ∧
        to_uint64 (ix.get_timestamp_from_log_line line) ≤ ctx.end_time ∧
        (parse_line ix ctx line).2 = { ctx with
          tmp_line := ⟨to_uint64 (ix.get_timestamp_from_log_line line), line⟩ })) := by
  unfold parse_line push_pending
  simp only []
  by_cases hts : ix.get_timestamp_from_log_line line = 0
  · rw [if_pos hts]
    by_cases ht : ctx.tmp_line.line ≠ []
    · rw [if_pos ht]
      exact ⟨rfl, Or.inr (Or.inl ⟨ht, rfl⟩)⟩
    · rw [if_neg ht]
      exact ⟨rfl, Or.inl rfl⟩
  · rw [if_neg hts]
    by_cases hlt : to_uint64 (ix.get_timestamp_from_log_line line) < ctx.start_time
    · rw [if_pos hlt]
      exact ⟨rfl, Or.inl rfl⟩
    · rw [if_neg hlt]
      by_cases ht : ctx.tmp_line.line ≠ []
      · rw [if_pos ht]
        by_cases hgt : to_uint64 (ix.get_timestamp_from_log_line line) > ctx.end_time
        · rw [if_pos hgt]
          exact ⟨rfl, Or.inr (Or.inr (Or.inl ⟨ht, rfl⟩))⟩
        · rw [if_neg hgt]
          exact ⟨rfl, Or.inr (Or.inr (Or.inr (Or.inl ⟨ht, by omega, by omega, rfl⟩)))⟩
      · rw [if_neg ht]
        by_cases hgt : to_uint64 (ix.get_timestamp_from_log_line line) > ctx.end_time
        · rw [if_pos hgt]
          exact ⟨rfl, Or.inl rfl⟩
        · rw [if_neg hgt]
          exact ⟨rfl, Or.inr (Or.inr (Or.inr (Or.inr ⟨by omega, by omega, rfl⟩)))⟩

theorem parse_line_window (ix : FileIndexer) (s e : Nat) (ctx : SearchContext)
    (line : List Char) (h : window_inv s e ctx) :
    window_inv s e (parse_line ix ctx line).2 := by
  obtain ⟨h1, h2, h3, h4, h5⟩ := h
  obtain ⟨_, hc | ⟨ht, hc⟩ | ⟨ht, hc⟩ | ⟨ht, ha, hb, hc⟩ | ⟨ha, hb, hc⟩⟩ :=
    parse_line_cases ix ctx line
  · rw [hc]; exact ⟨h1, h2, h3, h4, h5⟩
  · rw [hc]
    exact ⟨h1, h2, h3, h4, fun _ => h5 ht⟩
  · rw [hc]
    refine ⟨h1, h2, ?_, h4, fun hne => absurd rfl hne⟩
    intro l hl
    simp only [List.mem_append, List.mem_singleton] at hl
    rcases hl with hl | hl
    · exact h3 l hl
    · rw [hl]; exact h5 ht
  · rw [hc]
    refine ⟨h1, h2, ?_, h4, fun _ => ⟨by rw [← h1]; exact ha, by rw [← h2]; exact hb⟩⟩
    intro l hl
    simp only [List.mem_append, List.mem_singleton] at hl
    rcases hl with hl | hl
    · exact h3 l hl
    · rw [hl]; exact h5 ht
  · rw [hc]
    exact ⟨h1, h2, h3, h4, fun _ => ⟨by rw [← h1]; exact ha, by rw [← h2]; exact hb⟩⟩

theorem exec_searchers_window (s e : Nat) (ctx : SearchContext) (h : window_inv s e ctx) :
    window_inv s e (exec_searchers ctx).2 := by
  obtain ⟨h1, h2, h3, h4, h5⟩ := h
  obtain ⟨f1, f2, _, _, _, f6, ⟨sel, hsel, f7⟩, f8⟩ := exec_searchers_frame ctx
  refine ⟨by rw [f1, h1], by rw [f2, h2], ?_, ?_, by rw [f6]; exact h5⟩
  · intro l hl
    obtain ⟨l2, hl2, ht⟩ := f8 l hl
    have := h3 l2 hl2
    unfold in_window at this ⊢
    rw [ht]; exact this
  · intro l hl
    rw [f7, List.mem_append] at hl
    rcases hl with hl | hl
    · exact h4 l hl
    · exact h3 l (hsel.subset hl)

theorem window_inv_clear (s e : Nat) (ctx : SearchContext) (h : window_inv s e ctx) :
    window_inv s e { ctx with log_lines := [] } :=
  ⟨h.1, h.2.1, fun l hl => absurd hl (by simp), h.2.2.2.1, h.2.2.2.2⟩

theorem window_inv_error (s e : Nat) (ctx : SearchContext) (msg : List Char) (st : Int)
    (h : window_inv s e ctx) : window_inv s e { ctx with error_msg := msg, status := st } :=
  h

theorem batch_step_window (s e : Nat) (ctx : SearchContext) (h : window_inv s e ctx) :
    window_inv s e (batch_step ctx).2 := by
  unfold batch_step
  have hc := window_inv_clear s e _ (exec_searchers_window s e ctx h)
  split
  · simp only []
    split
    · exact window_inv_error s e _ _ _ hc
    · split
      · exact hc
      · exact hc
  · exact h

theorem push_pending_window (s e : Nat) (ctx : SearchContext) (h : window_inv s e ctx) :
    window_inv s e (push_pending ctx) := by
  unfold push_pending
  split
  · rename_i ht
    refine ⟨h.1, h.2.1, ?_, h.2.2.2.1, fun hne => absurd rfl hne⟩
    intro l hl
    simp only [List.mem_append, List.mem_singleton] at hl
    rcases hl with hl | hl
    · exact h.2.2.1 l hl
    · rw [hl]; exact h.2.2.2.2 ht
  · exact h

theorem final_flush_window (s e : Nat) (ctx : SearchContext) (h : window_inv s e ctx) :
    window_inv s e (final_flush ctx) := by
  have h1 := push_pending_window s e ctx h
  unfold final_flush
  simp only []
  split
  · split
    · exact window_inv_error s e _ _ _ (exec_searchers_window s e _ h1)
    · exact window_inv_clear s e _ (exec_searchers_window s e _ h1)
  · exact h1

theorem search_txt_loop_window (ix : FileIndexer) (s e : Nat) :
    ∀ (fuel : Nat) (rest : List Char) (pos : Nat) (ctx : SearchContext),
      window_inv s e ctx → window_inv s e (search_txt_loop ix fuel rest pos ctx) := by
  intro fuel
  induction fuel with
  | zero => intro rest pos ctx h; exact h
  | succ fuel ih =>
    intro rest pos ctx h
    unfold search_txt_loop
    split
    · exact h
    · simp only []
      have hp := parse_line_window ix s e ctx
      split
      · exact hp _ h
      · split
        · exact hp _ h
        · have hb := batch_step_window s e _ (hp (match memchr_newline rest with
            | some n => rest.take n
            | none => rest) h)
          split
          · rename_i c heq; rw [heq] at hb; exact hb
          · rename_i c heq; rw [heq] at hb; exact hb
          · rename_i x c hx1 hx2 heq
            rw [heq] at hb
            exact ih _ _ _ hb

theorem search_file_txt_window (ix : FileIndexer) (s e : Nat) (file : Option (List Char))
    (ctx : SearchContext) (h : window_inv s e ctx) :
    window_inv s e (search_file_txt ix file ctx) := by
  unfold search_file_txt
  split
  · exact h
  · simp only []
    split
    · exact h
    · split
      · exact h
      · exact final_flush_window s e _ (search_txt_loop_window ix s e _ _ _ _ h)

theorem gzip_lines_loop_window (ix : FileIndexer) (s e : Nat) :
    ∀ (lines : List (List Char)) (ctx : SearchContext),
      window_inv s e ctx → window_inv s e (gzip_lines_loop ix lines ctx).2 := by
  intro lines
  induction lines with
  | nil => intro ctx h; exact h
  | cons line rest ih =>
    intro ctx h
    unfold gzip_lines_loop
    simp only []
    have hp := parse_line_window ix s e ctx line h
    split
    · exact hp
    · have hb := batch_step_window s e _ hp
      split
      · rename_i c heq; rw [heq] at hb; exact hb
      · rename_i c heq; rw [heq] at hb; exact hb
      · rename_i x c hx1 hx2 heq
        rw [heq] at hb
        exact ih _ hb

theorem search_gzip_loop_window (ix : FileIndexer) (s e : Nat) :
    ∀ (fuel : Nat) (gz : gzFile) (carry : List Char) (total : Nat) (ctx : SearchContext),
      window_inv s e ctx → window_inv s e (search_gzip_loop ix fuel gz carry total ctx).ctx := by
  intro fuel
  induction fuel with
  | zero => intro gz carry total ctx h; exact h
  | succ fuel ih =>
    intro gz carry total ctx h
    unfold search_gzip_loop
    split
    · simp only []
      split
      · exact h
      · split
        · exact h
        · have hl := gzip_lines_loop_window ix s e
            (get_lines_gzip ((carry ++ (gzread gz BUF_SIZE).2.1).length + 1)
              (carry ++ (gzread gz BUF_SIZE).2.1)).1 ctx h
          split
          · rename_i c heq; rw [heq] at hl; exact hl
          · rename_i c heq; rw [heq] at hl; exact hl
          · rename_i c heq
            rw [heq] at hl
            split
            · exact hl
            · exact ih _ _ _ _ hl
    · exact h

theorem search_file_gzip_window (ix : FileIndexer) (s e : Nat) (file : Option gzFile)
    (ctx : SearchContext) (h : window_inv s e ctx) :
    window_inv s e (search_file_gzip ix file ctx) := by
  unfold search_file_gzip
  split
  · exact h
  · split
    · exact h
    · split
      · exact h
      · rename_i gz gz1 total heq hne
        have hl := search_gzip_loop_window ix s e (ctx.index_end_pos + 1) gz1 [] total ctx h
        split
        · rename_i c hc; rw [hc] at hl; exact hl
        · rename_i c hc; rw [hc] at hl; exact final_flush_window s e _ hl

theorem find_index_pos_frame (fi : Option FileInfo) (ctx : SearchContext) :
    (find_index_pos fi ctx).2.start_time = ctx.start_time ∧
    (find_index_pos fi ctx).2.end_time = ctx.end_time ∧
    (find_index_pos fi ctx).2.log_lines = ctx.log_lines ∧
    (find_index_pos fi ctx).2.matched_lines = ctx.matched_lines ∧
    (find_index_pos fi ctx).2.tmp_line = ctx.tmp_line ∧
    (find_index_pos fi ctx).2.req = ctx.req ∧
    (find_index_pos fi ctx).2.searchers = ctx.searchers := by
  unfold find_index_pos
  split
  · simp
  · split
    · simp
    · simp only []
      split
      · simp
      · split
        · simp
        · split <;> simp

/-- C13. Every record that the search of a file returns has its time stamp in the window of
the request, for a text file and for a gzip file, whatever the file holds, whatever the index
is and whatever the matchers are. For the gzip file of scenario 4, with the index of scenario
1 and the window from 1735689900 to 1735693199, the query `b` returns no record and the query
`c` returns exactly the record (1735689900, "2025-01-01 00:05:00 c"); the same holds for the
text file with the index that the text builder builds. -/
theorem search_results_in_window (ix : FileIndexer) (disk : DiskFile) (req : SearchRequest)
    (searchers : List QuerySearcher) (fi : Option FileInfo) (p : List Char) :
    (∀ l ∈ (search_path ix disk req searchers fi p).lines,
      req.start_time ≤ l.timestamp ∧ l.timestamp ≤ req.end_time) ∧
    (search_path (indexer_with 300 1000000) { gzip := some ⟨scenario_file, false⟩ }
        { start_time := 1735689900, end_time := 1735693199 } [simple_query "b".toList]
        (some scenario_gzip_info)
        "app.log.gz".toList).lines = [] ∧
    (search_path (indexer_with 300 1000000) { gzip := some ⟨scenario_file, false⟩ }
        { start_time := 1735689900, end_time := 1735693199 } [simple_query "c".toList]
        (some scenario_gzip_info)
        "app.log.gz".toList).lines = [⟨1735689900, "2025-01-01 00:05:00 c".toList⟩] ∧
    (search_path (indexer_with 300 1000000) { text := some scenario_file }
        { start_time := 1735689900, end_time := 1735693199 } [simple_query "b".toList]
        (some scenario_text_info)
        "app.log".toList).lines = [] ∧
    (search_path (indexer_with 300 1000000) { text := some scenario_file }
        { start_time := 1735689900, end_time := 1735693199 } [simple_query "c".toList]
        (some scenario_text_info)
        "app.log".toList).lines = [⟨1735689900, "2025-01-01 00:05:00 c".toList⟩] := by
  refine ⟨?_, by decide, by decide, by decide, by decide⟩
  intro l hl
  unfold search_path at hl
  simp only [] at hl
  split at hl
  · simp at hl
  · rename_i info
    split at hl
    · simp at hl
    · split at hl
      · simp at hl
      · simp only [] at hl
        obtain ⟨f1, f2, f3, f4, f5, _, _⟩ := find_index_pos_frame (some info)
          { path := p, start_time := req.start_time, end_time := req.end_time,
            index_start_pos := 0, index_end_pos := 0, tmp_line := ⟨0, []⟩, log_lines := [],
            matched_lines := [], searchers := searchers, status := 0, error_msg := [],
            req := req }
        have h0 : window_inv req.start_time req.end_time (find_index_pos (some info)
            { path := p, start_time := req.start_time, end_time := req.end_time,
              index_start_pos := 0, index_end_pos := 0, tmp_line := ⟨0, []⟩, log_lines := [],
              matched_lines := [], searchers := searchers, status := 0, error_msg := [],
              req := req }).2 := by
          refine ⟨f1, f2, ?_, ?_, ?_⟩
          · rw [f3]; intro l hl; simp at hl
          · rw [f4]; intro l hl; simp at hl
          · rw [f5]; intro hne; exact absurd rfl hne
        unfold search_file at hl
        split at hl
        · exact (search_file_gzip_window ix _ _ _ _ h0).2.2.2.1 l hl
        · exact (search_file_txt_window ix _ _ _ _ h0).2.2.2.1 l hl

/-- The cases of the block that searches a full batch. -/
theorem batch_step_cases (ctx : SearchContext) :
    (batch_step ctx).2.req = ctx.req ∧
    (batch_step ctx).2.matched_lines.length
      ≤ ctx.matched_lines.length + ctx.log_lines.length ∧
    (((batch_step ctx).1 = .not_full ∧ (batch_step ctx).2 = ctx ∧
        ctx.log_lines.length < MAX_BATCH_MATCHES) ∨
     ((batch_step ctx).1 = .searched ∧ (batch_step ctx).2.log_lines = [] ∧
        (batch_step ctx).2.matched_lines.length < ctx.req.max_results) ∨
     ((batch_step ctx).1 = .capped ∧ (batch_step ctx).2.log_lines = []) ∨
     ((batch_step ctx).1 = .failed ∧ (batch_step ctx).2.log_lines = [])) := by
  obtain ⟨_, _, f3, _, _, _, ⟨sel, hsel, f7⟩, _⟩ := exec_searchers_frame ctx
  have hlen : (exec_searchers ctx).2.matched_lines.length
      ≤ ctx.matched_lines.length + ctx.log_lines.length := by
    rw [f7, List.length_append]
    have := hsel.length_le
    omega
  unfold batch_step
  by_cases hfull : ctx.log_lines.length ≥ MAX_BATCH_MATCHES
  · rw [if_pos hfull]
    simp only []
    by_cases hf : (!(exec_searchers ctx).1) = true
    · rw [if_pos hf]
      exact ⟨f3, hlen, Or.inr (Or.inr (Or.inr ⟨rfl, rfl⟩))⟩
    · rw [if_neg hf]
      by_cases hcap : (exec_searchers ctx).2.matched_lines.length
          ≥ (exec_searchers ctx).2.req.max_results
      · rw [if_pos hcap]
        exact ⟨f3, hlen, Or.inr (Or.inr (Or.inl ⟨rfl, rfl⟩))⟩
      · rw [if_neg hcap]
        refine ⟨f3, hlen, Or.inr (Or.inl ⟨rfl, rfl, ?_⟩)⟩
        rw [f3] at hcap
        simp only [] 
        omega
  · rw [if_neg hfull]
    exact ⟨rfl, by simp only []; omega, Or.inl ⟨rfl, rfl, by omega⟩⟩

/-- What `parse_line` does to the sizes: the batch grows by at most one record, the matched
records and the request stay. -/
theorem parse_line_sizes (ix : FileIndexer) (ctx : SearchContext) (line : List Char) :
    (parse_line ix ctx line).2.req = ctx.req ∧
    (parse_line ix ctx line).2.matched_lines = ctx.matched_lines ∧
    (parse_line ix ctx line).2.log_lines.length ≤ ctx.log_lines.length + 1 := by
  obtain ⟨_, hc | ⟨ht, hc⟩ | ⟨ht, hc⟩ | ⟨ht, ha, hb, hc⟩ | ⟨ha, hb, hc⟩⟩ :=
    parse_line_cases ix ctx line <;> rw [hc] <;> simp

/-- The sizes after the code that follows the loops: at most the batch and the pending
record are added to the matched records. -/
theorem final_flush_sizes (ctx : SearchContext) :
    (final_flush ctx).matched_lines.length
      ≤ ctx.matched_lines.length + ctx.log_lines.length + 1 := by
  have hp : (push_pending ctx).matched_lines = ctx.matched_lines ∧
      (push_pending ctx).log_lines.length ≤ ctx.log_lines.length + 1 := by
    unfold push_pending
    split <;> simp
  obtain ⟨_, _, _, _, _, _, ⟨sel, hsel, f7⟩, _⟩ := exec_searchers_frame (push_pending ctx)
  have hlen := hsel.length_le
  unfold final_flush
  simp only []
  split
  · split
    · simp only [f7, List.length_append, hp.1]
      omega
    · simp only [f7, List.length_append, hp.1]
      omega
  · rw [hp.1]; omega

/-- The loop of `search_file_txt` is left with fewer than `max_results + 500` records in
`matched_lines` and in the batch together (`max_results` counted as 1 when it is 0), when it
starts with a batch that is not full and with fewer matched records than `max_results`. -/
theorem search_txt_loop_sizes (ix : FileIndexer) (M : Nat) :
    ∀ (fuel : Nat) (rest : List Char) (pos : Nat) (ctx : SearchContext),
      ctx.req.max_results = M → ctx.log_lines.length < MAX_BATCH_MATCHES →
      ctx.matched_lines.length + 1 ≤ max M 1 →
      (search_txt_loop ix fuel rest pos ctx).matched_lines.length
        + (search_txt_loop ix fuel rest pos ctx).log_lines.length + 1 ≤ max M 1 + 500 := by
  intro fuel
  induction fuel with
  | zero =>
    intro rest pos ctx h1 h2 h3
    simp only [search_txt_loop, MAX_BATCH_MATCHES] at h2 ⊢
    omega
  | succ fuel ih =>
    intro rest pos ctx h1 h2 h3
    simp only [MAX_BATCH_MATCHES] at h2
    unfold search_txt_loop
    split
    · omega
    · simp only []
      obtain ⟨p1, p2, p3⟩ := parse_line_sizes ix ctx (match memchr_newline rest with
        | some n => rest.take n
        | none => rest)
      split
      · rw [p2]; omega
      · split
        · rw [p2]; omega
        · obtain ⟨b1, b2, b3⟩ := batch_step_cases (parse_line ix ctx (match memchr_newline rest with
            | some n => rest.take n
            | none => rest)).2
          rw [p2] at b2
          split
          · rename_i c heq
            rw [heq] at b1 b2 b3
            rcases b3 with ⟨hk, _⟩ | ⟨hk, _⟩ | ⟨hk, _⟩ | ⟨_, hl⟩
            · cases hk
            · cases hk
            · cases hk
            · simp only [] at hl b2
              rw [hl]
              simp only [List.length_nil]
              omega
          · rename_i c heq
            rw [heq] at b1 b2 b3
            rcases b3 with ⟨hk, _⟩ | ⟨hk, _⟩ | ⟨_, hl⟩ | ⟨hk, _⟩
            · cases hk
            · cases hk
            · simp only [] at hl b2
              rw [hl]
              simp only [List.length_nil]
              omega
            · cases hk
          · rename_i x c hx1 hx2 heq
            rw [heq] at b1 b2 b3
            simp only [] at b1 b2 b3
            apply ih
            · rw [b1, p1, h1]
            · rcases b3 with ⟨_, hc, hl⟩ | ⟨_, hl, _⟩ | ⟨hk, _⟩ | ⟨hk, _⟩
              · rw [hc]; exact hl
              · rw [hl]; simp [MAX_BATCH_MATCHES]
              · exact absurd hk hx2
              · exact absurd hk hx1
            · rcases b3 with ⟨_, hc, hl⟩ | ⟨_, hl, hm⟩ | ⟨hk, _⟩ | ⟨hk, _⟩
              · rw [hc, p2]; exact h3
              · rw [p1, h1] at hm; omega
              · exact absurd hk hx2
              · exact absurd hk hx1

/-- C14 (amended). For every text file, index, window, matcher set and `max_results` value,
the number of records that the search of the file returns is at most `max_results + 500`
(`max_results` counted as 1 when it is 0): `search_file_txt` tests `max_results` only after a
batch of `MAX_BATCH_MATCHES = 500` candidate records has been searched, does not cut the
matched records back, and adds the pending record after the loop. -/
theorem text_search_cap (ix : FileIndexer) (disk : DiskFile) (req : SearchRequest)
    (searchers : List QuerySearcher) (info : FileInfo) (p : List Char)
    (hty : info.file_type ≠ "gzip".toList) :
    (search_path ix disk req searchers (some info) p).lines.length
      ≤ max req.max_results 1 + 500 := by
  unfold search_path
  simp only []
  split
  · simp
  · split
    · simp
    · simp only []
      obtain ⟨_, _, f3, f4, _, f6, _⟩ := find_index_pos_frame (some info)
        { path := p, start_time := req.start_time, end_time := req.end_time,
          index_start_pos := 0, index_end_pos := 0, tmp_line := ⟨0, []⟩, log_lines := [],
          matched_lines := [], searchers := searchers, status := 0, error_msg := [],
          req := req }
      generalize find_index_pos (some info)
        { path := p, start_time := req.start_time, end_time := req.end_time,
          index_start_pos := 0, index_end_pos := 0, tmp_line := ⟨0, []⟩, log_lines := [],
          matched_lines := [], searchers := searchers, status := 0, error_msg := [],
          req := req } = r at f3 f4 f6 ⊢
      simp only [] at f3 f4 f6
      unfold search_file
      rw [if_neg hty]
      unfold search_file_txt
      split
      · simp [f4]
      · simp only []
        split
        · simp [f4]
        · split
          · simp [f4]
          · rename_i data _ _ _
            have hs := search_txt_loop_sizes ix req.max_results (data.length + 1)
              (data.drop r.2.index_start_pos) r.2.index_start_pos r.2 (by rw [f6])
              (by rw [f3]; simp [MAX_BATCH_MATCHES]) (by rw [f4]; simp)
            have hf := final_flush_sizes (search_txt_loop ix (data.length + 1)
              (data.drop r.2.index_start_pos) r.2.index_start_pos r.2)
            omega

theorem text_search_cap_witness :
    scenario_text_info.file_type ≠ "gzip".toList ∧
    (search_path (indexer_with 300 1000000) { text := some scenario_file }
        { start_time := 1735689600, end_time := 1735693200, max_results := 1 }
        [simple_query "2025".toList] (some scenario_text_info) "app.log".toList).lines.length
      ≤ max 1 1 + 500 :=
  ⟨by decide,
   text_search_cap (indexer_with 300 1000000) { text := some scenario_file }
     { start_time := 1735689600, end_time := 1735693200, max_results := 1 }
     [simple_query "2025".toList] scenario_text_info "app.log".toList (by decide)⟩

/-- C14 as stated fails: with `max_results = 1` the search of the text file of scenario 1 for
the query `2025` in the window from 1735689600 to 1735693200 returns four records. The batch
never reaches 500 records, so `max_results` is never tested, and the code after the loop adds
every matching record of the batch. -/
theorem max_results_counterexample :
    (search_path (indexer_with 300 1000000) { text := some scenario_file }
        { start_time := 1735689600, end_time := 1735693200, max_results := 1 }
        [simple_query "2025".toList] (some scenario_text_info) "app.log".toList).lines
      = [⟨1735689600, "2025-01-01 00:00:00 a".toList⟩,
         ⟨1735689899, "2025-01-01 00:04:59 b".toList⟩,
         ⟨1735689900, "2025-01-01 00:05:00 c".toList⟩,
         ⟨1735693200, "2025-01-01 01:00:00 d".toList⟩] ∧
    ¬ (search_path (indexer_with 300 1000000) { text := some scenario_file }
        { start_time := 1735689600, end_time := 1735693200, max_results := 1 }
        [simple_query "2025".toList] (some scenario_text_info) "app.log".toList).lines.length
      ≤ 1 := by
  refine ⟨by decide, by decide⟩

/-- The fuel that `search_gzip_loop` gives to `get_lines_gzip` is enough: with more fuel than
the carry has bytes the result does not depend on the amount of fuel. -/
theorem get_lines_gzip_fuel :
    ∀ (fuel more : Nat) (carry : List Char), carry.length < fuel → carry.length < more →
      get_lines_gzip fuel carry = get_lines_gzip more carry := by
  intro fuel
  induction fuel with
  | zero => intro more carry h; omega
  | succ fuel ih =>
    intro more carry h h2
    cases more with
    | zero => omega
    | succ more =>
      simp only [get_lines_gzip]
      cases hm : memchr_newline carry with
      | none => rfl
      | some n =>
        have hn := memchr_newline_lt carry n hm
        have hd : (carry.drop (n + 1)).length < carry.length := by
          simp only [List.length_drop]; omega
        simp only []
        rw [ih more _ (by omega) (by omega)]

/-- The fuel that `search_file_txt` gives to its loop is enough: with more fuel than the file
has bytes left the result does not depend on the amount of fuel. -/
theorem search_txt_loop_fuel (ix : FileIndexer) :
    ∀ (fuel more : Nat) (rest : List Char) (pos : Nat) (ctx : SearchContext),
      rest.length < fuel → rest.length < more →
      search_txt_loop ix fuel rest pos ctx = search_txt_loop ix more rest pos ctx := by
  intro fuel
  induction fuel with
  | zero => intro more rest pos ctx h; omega
  | succ fuel ih =>
    intro more rest pos ctx h h2
    cases more with
    | zero => omega
    | succ more =>
      unfold search_txt_loop
      by_cases hr : rest = []
      · rw [if_pos hr, if_pos hr]
      · rw [if_neg hr, if_neg hr]
        have hpos : 0 < rest.length := List.length_pos.mpr hr
        have hd : (match memchr_newline rest with
            | some n => rest.drop (n + 1)
            | none => []).length < rest.length := by
          cases hm : memchr_newline rest with
          | none => simpa using hpos
          | some n =>
            have hn := memchr_newline_lt rest n hm
            simp only [List.length_drop]; omega
        have key : ∀ (tellg : Nat) (c : SearchContext),
            search_txt_loop ix fuel (match memchr_newline rest with
              | some n => rest.drop (n + 1)
              | none => []) tellg c
            = search_txt_loop ix more (match memchr_newline rest with
              | some n => rest.drop (n + 1)
              | none => []) tellg c :=
          fun tellg c => ih more _ tellg c (by omega) (by omega)
        simp only [key]

/-- The fuel that `search_file_gzip` gives to the loop that skips to the start position is
enough: with more fuel than there are bytes to skip the result does not depend on the amount
of fuel. -/
theorem gzip_skip_fuel (index_start_pos : Nat) :
    ∀ (fuel more : Nat) (gz : gzFile) (total : Nat),
      index_start_pos - total < fuel → index_start_pos - total < more →
      gzip_skip index_start_pos fuel gz total = gzip_skip index_start_pos more gz total := by
  intro fuel
  induction fuel with
  | zero => intro more gz total h; omega
  | succ fuel ih =>
    intro more gz total h h2
    cases more with
    | zero => omega
    | succ more =>
      unfold gzip_skip
      by_cases hlt : total < index_start_pos
      · rw [if_pos hlt, if_pos hlt]
        simp only []
        split
        · rfl
        · split
          · rfl
          · split
            · rfl
            · rename_i h1 h2 h3
              have hpos : 0 < (gzread gz (min (BUF_SIZE : Int)
                  (to_int32 (index_start_pos - total)))).1 := by omega
              exact ih more _ _ (by omega) (by omega)
      · rw [if_neg hlt, if_neg hlt]

theorem push_pending_frame (ctx : SearchContext) :
    (push_pending ctx).index_end_pos = ctx.index_end_pos := by
  unfold push_pending
  split <;> rfl

theorem parse_line_end_pos (ix : FileIndexer) (ctx : SearchContext) (line : List Char) :
    (parse_line ix ctx line).2.index_end_pos = ctx.index_end_pos := by
  obtain ⟨_, hc | ⟨ht, hc⟩ | ⟨ht, hc⟩ | ⟨ht, ha, hb, hc⟩ | ⟨ha, hb, hc⟩⟩ :=
    parse_line_cases ix ctx line <;> rw [hc]

theorem batch_step_end_pos (ctx : SearchContext) :
    (batch_step ctx).2.index_end_pos = ctx.index_end_pos := by
  obtain ⟨_, _, _, _, f5, _⟩ := exec_searchers_frame ctx
  unfold batch_step
  split
  · simp only []
    split
    · exact f5
    · split <;> exact f5
  · rfl

theorem gzip_lines_loop_end_pos (ix : FileIndexer) :
    ∀ (lines : List (List Char)) (ctx : SearchContext),
      (gzip_lines_loop ix lines ctx).2.index_end_pos = ctx.index_end_pos := by
  intro lines
  induction lines with
  | nil => intro ctx; rfl
  | cons line rest ih =>
    intro ctx
    unfold gzip_lines_loop
    simp only []
    have hp := parse_line_end_pos ix ctx line
    have hb := batch_step_end_pos (parse_line ix ctx line).2
    split
    · exact hp
    · split
      · rename_i c heq; rw [heq] at hb; rw [← hp, ← hb]
      · rename_i c heq; rw [heq] at hb; rw [← hp, ← hb]
      · rename_i x c hx1 hx2 heq
        rw [heq] at hb
        rw [ih, ← hp, ← hb]

/-- The fuel that `search_file_gzip` gives to its reading loop is enough: with more fuel than
there are bytes up to the end position the result does not depend on the amount of fuel. -/
theorem search_gzip_loop_fuel (ix : FileIndexer) :
    ∀ (fuel more : Nat) (gz : gzFile) (carry : List Char) (total : Nat)
      (ctx : SearchContext),
      ctx.index_end_pos - total < fuel → ctx.index_end_pos - total < more →
      search_gzip_loop ix fuel gz carry total ctx
        = search_gzip_loop ix more gz carry total ctx := by
  intro fuel
  induction fuel with
  | zero => intro more gz carry total ctx h; omega
  | succ fuel ih =>
    intro more gz carry total ctx h h2
    cases more with
    | zero => omega
    | succ more =>
      unfold search_gzip_loop
      by_cases hlt : total < ctx.index_end_pos
      · rw [if_pos hlt, if_pos hlt]
        simp only []
        split
        · rfl
        · split
          · rfl
          · rename_i h1 h2
            have he := gzip_lines_loop_end_pos ix
              (get_lines_gzip ((carry ++ (gzread gz BUF_SIZE).2.1).length + 1)
                (carry ++ (gzread gz BUF_SIZE).2.1)).1 ctx
            split
            · rfl
            · rfl
            · rename_i c heq
              rw [heq] at he
              simp only [] at he
              split
              · rfl
              · exact ih more _ _ _ _ (by omega) (by omega)
      · rw [if_neg hlt, if_neg hlt]

theorem assign_cons (k key : List Char) (v info : FileInfo) (rest : FileTable) :
    assign ((k, v) :: rest) key info
      = (if k = key then (k, info) else (k, v)) :: assign rest key info := rfl

theorem lookup_assign_self (index_ : FileTable) (key : List Char) (info old : FileInfo)
    (h : index_.lookup key = some old) : (assign index_ key info).lookup key = some info := by
  induction index_ with
  | nil => simp at h
  | cons kv rest ih =>
    obtain ⟨k, v⟩ := kv
    rw [assign_cons]
    by_cases hk : k = key
    · rw [if_pos hk]
      have hk2 : (key == k) = true := by simp [hk]
      simp only [List.lookup_cons, hk2]
    · rw [if_neg hk]
      have hk2 : (key == k) = false := by simpa using fun h => hk h.symm
      simp only [List.lookup_cons, hk2] at h ⊢
      exact ih h

theorem lookup_assign_other (index_ : FileTable) (key p : List Char) (info : FileInfo)
    (h : p ≠ key) : (assign index_ key info).lookup p = index_.lookup p := by
  induction index_ with
  | nil => rfl
  | cons kv rest ih =>
    obtain ⟨k, v⟩ := kv
    rw [assign_cons]
    by_cases hk : k = key
    · rw [if_pos hk]
      have hp : (p == k) = false := by simpa [hk] using h
      simp only [List.lookup_cons, hp]
      exact ih
    · rw [if_neg hk]
      by_cases hp : (p == k) = true
      · simp only [List.lookup_cons, hp]
      · have hp2 : (p == k) = false := by simpa using hp
        simp only [List.lookup_cons, hp2]
        exact ih

/-- C16. When the scan finds a path that is in the index table with the same inode and a
changed size or mtime, the entry afterwards carries the new size, the new mtime and the etag
of the new size and mtime, and its index is the index it had before the scan; when inode,
size and mtime are unchanged the table is left as it is. The entries of the other paths are
not touched. -/
theorem scan_same_inode (rp : RootPath) (index_ : FileTable) (e : DirEntry) (old : FileInfo)
    (hfind : index_.lookup e.path = some old) (hino : old.inode = e.st_ino % 2 ^ 64) :
    ((old.size ≠ e.file_size % 2 ^ 64 ∨ old.mtime ≠ e.mtime) →
      ∃ entry, (upsert index_ (scanned_info rp e)).lookup e.path = some entry ∧
        entry.size = e.file_size % 2 ^ 64 ∧ entry.mtime = e.mtime ∧
        entry.etag = etag_from_size_mtime (e.file_size % 2 ^ 64) e.mtime ∧
        entry.inode = old.inode ∧ entry.file_index = old.file_index) ∧
    ((old.size = e.file_size % 2 ^ 64 ∧ old.mtime = e.mtime) →
      upsert index_ (scanned_info rp e) = index_) ∧
    (∀ p, p ≠ e.path →
      (upsert index_ (scanned_info rp e)).lookup p = index_.lookup p) := by
  have hpath : (scanned_info rp e).fullpath = e.path := rfl
  have hinode : (scanned_info rp e).inode = e.st_ino % 2 ^ 64 := rfl
  have hsize : (scanned_info rp e).size = e.file_size % 2 ^ 64 := rfl
  have hmtime : (scanned_info rp e).mtime = e.mtime := rfl
  have hup : upsert index_ (scanned_info rp e)
      = if old.size ≠ e.file_size % 2 ^ 64 ∨ old.mtime ≠ e.mtime then
          assign index_ e.path { scanned_info rp e with file_index := old.file_index }
        else index_ := by
    unfold upsert
    rw [hpath, hfind]
    simp only [hinode, hino, hsize, hmtime, ne_eq, not_true_eq_false, if_false]
    rfl
  refine ⟨?_, ?_, ?_⟩
  · intro hch
    rw [hup, if_pos hch]
    exact ⟨_, lookup_assign_self index_ e.path _ old hfind, rfl, rfl, rfl, hino.symm, rfl⟩
  · intro hsame
    rw [hup, if_neg (by rw [hsame.1, hsame.2]; simp)]
  · intro p hp
    rw [hup]
    split
    · exact lookup_assign_other index_ e.path p _ hp
    · rfl

theorem scan_same_inode_witness :
    indexed_table.lookup grown_entry.path = some indexed_info ∧
    ∃ entry, (upsert indexed_table (scanned_info plain_root grown_entry)).lookup
        grown_entry.path = some entry ∧
      entry.size = grown_entry.file_size % 2 ^ 64 ∧ entry.mtime = grown_entry.mtime ∧
      entry.etag = etag_from_size_mtime (grown_entry.file_size % 2 ^ 64) grown_entry.mtime ∧
      entry.inode = indexed_info.inode ∧ entry.file_index = indexed_info.file_index :=
  ⟨rfl, (scan_same_inode plain_root indexed_table grown_entry indexed_info rfl
    (by decide)).1 (by decide)⟩

/-- C15 fails on the code of `scan_root`. The table holds `/var/log/app.log` with inode 1 and
an index; the scan finds the same path with inode 2 (a rotation). The branch for a new or
replaced file calls `index_.emplace`, which inserts nothing when the key is present: the
table is unchanged, the entry keeps the inode 1, the old size, mtime and etag, and the old
index. -/
theorem rotation_keeps_old_entry (eng : regex_engine) :
    (scanned_info plain_root rotated_entry).inode = 2 ∧
    (scanned_info plain_root rotated_entry).file_index = none ∧
    indexed_info.inode = 1 ∧ indexed_info.file_index ≠ none ∧
    scan_entry eng plain_root indexed_table rotated_entry = indexed_table ∧
    (scan_entry eng plain_root indexed_table rotated_entry).lookup rotated_entry.path
      = some indexed_info := by
  have h : scan_entry eng plain_root indexed_table rotated_entry = indexed_table := by
    simp [scan_entry, rotated_entry, plain_root, upsert, scanned_info, indexed_table,
      indexed_info, emplace, List.lookup]
  refine ⟨by decide, rfl, rfl, by decide, h, ?_⟩
  rw [h]
  rfl

/-- C20 fails on the code of `update_file_index`. The entry of `/var/log/app.log` is out of
date after a scan (its `index_etag` is the etag of the old size and mtime). In the pass the
file cannot be opened: `update_file_index_txt_mmap` returns without touching the index, and
`update_file_index` then stores the copy of the old index with `index_etag` set to the
current etag and `last_index_time` set to the time of the pass. The entry now counts as up
to date, and the next pass, in which the file can be read, does not index it. -/
theorem unopened_file_is_marked_indexed :
    grown_table.lookup "/var/log/app.log".toList
      = some { indexed_info with size := 110, mtime := 1735700000,
                                 etag := etag_from_size_mtime 110 1735700000 } ∧
    etag_from_size_mtime 88 1735693200 ≠ etag_from_size_mtime 110 1735700000 ∧
    (update_file_index (indexer_with 300 50000) id unreadable_disk 1735700060
        grown_table).lookup "/var/log/app.log".toList
      = some { indexed_info with
          size := 110, mtime := 1735700000, etag := etag_from_size_mtime 110 1735700000,
          file_index := some { index_etag := etag_from_size_mtime 110 1735700000,
                               last_index_time := 1735700060,
                               time_indexes := [⟨1735689600, 0⟩, ⟨1735689900, 44⟩,
                                                ⟨1735693200, 66⟩, ⟨1735693200, 66⟩] } } ∧
    update_file_index (indexer_with 300 50000) id readable_disk 1735700120
        (update_file_index (indexer_with 300 50000) id unreadable_disk 1735700060 grown_table)
      = update_file_index (indexer_with 300 50000) id unreadable_disk 1735700060
          grown_table := by
  refine ⟨by decide, by decide, by decide, by decide⟩

/-- C19 fails on the code of `list_prefix`. A root added without prefix pattern keeps a
default-constructed `prefix_regex`, which matches no string, and `list_prefix` calls
`std::regex_match` with it without testing whether the pattern is empty: the file
`/var/log/app.log` of the root `/var/log` is not listed for the prefix `/var/log`, although
the prefix begins with the root directory and the path begins with the prefix. The scan tests
`path_pattern.empty()` and `filename_pattern.empty()` before it matches, and takes the file
of such a root into the table. -/
theorem empty_prefix_pattern_lists_nothing (eng : regex_engine) :
    add_root eng [] "/var/log".toList [] [] [] [] 30 = [plain_root] ∧
    plain_root.prefix_pattern = [] ∧
    indexed_info.root_path = plain_root ∧
    find "/var/log".toList plain_root.path = some 0 ∧
    find "/var/log/app.log".toList "/var/log".toList = some 0 ∧
    list_prefix eng indexed_table "/var/log".toList = [] ∧
    scan_entry eng plain_root [] grown_entry
      = [("/var/log/app.log".toList, scanned_info plain_root grown_entry)] := by
  refine ⟨rfl, rfl, rfl, by decide, by decide, rfl, rfl⟩

theorem uint64_sub_of_le (a b : Nat) (ha : a < 2 ^ 64) (hb : b ≤ a) :
    uint64_sub a b = a - b := by
  unfold uint64_sub
  have hb2 : b % 2 ^ 64 = b := Nat.mod_eq_of_lt (by omega)
  rw [Nat.mod_eq_of_lt ha, hb2]
  have : a + 2 ^ 64 - b = (a - b) + 2 ^ 64 := by omega
  rw [this, Nat.add_mod_right, Nat.mod_eq_of_lt (by omega)]

theorem mem_get_active_agents (now : Nat) (agents_ : AgentTable) (a : agent_info) :
    a ∈ get_active_agents now agents_ ↔
      (∃ id, (id, a) ∈ agents_) ∧ uint64_sub now a.last_announce ≤ AGENT_TIMEOUT_SECONDS := by
  induction agents_ with
  | nil => simp [get_active_agents]
  | cons kv rest ih =>
    obtain ⟨k, b⟩ := kv
    simp only [get_active_agents]
    constructor
    · intro h
      split at h
      · rename_i hb
        rcases List.mem_cons.mp h with h | h
        · subst h; exact ⟨⟨k, by simp⟩, hb⟩
        · obtain ⟨⟨id, hid⟩, hle⟩ := ih.mp h
          exact ⟨⟨id, by simp [hid]⟩, hle⟩
      · obtain ⟨⟨id, hid⟩, hle⟩ := ih.mp h
        exact ⟨⟨id, by simp [hid]⟩, hle⟩
    · rintro ⟨⟨id, hid⟩, hle⟩
      rcases List.mem_cons.mp hid with h | h
      · cases h
        rw [if_pos hle]; simp
      · have := ih.mpr ⟨⟨id, h⟩, hle⟩
        split
        · exact List.mem_cons_of_mem _ this
        · exact this

theorem cleanup_eq_active (now : Nat) (agents_ : AgentTable) :
    (cleanup_expired_agents now agents_).map Prod.snd = get_active_agents now agents_ := by
  induction agents_ with
  | nil => rfl
  | cons kv rest ih =>
    obtain ⟨k, b⟩ := kv
    simp only [cleanup_expired_agents, get_active_agents]
    by_cases h : uint64_sub now b.last_announce ≤ AGENT_TIMEOUT_SECONDS
    · rw [if_pos h, if_neg (by omega)]
      simp [ih]
    · rw [if_neg h, if_pos (by omega)]
      exact ih

theorem mem_cleanup (now : Nat) (agents_ : AgentTable) (kv : List Char × agent_info) :
    kv ∈ cleanup_expired_agents now agents_ ↔
      kv ∈ agents_ ∧ uint64_sub now kv.2.last_announce ≤ AGENT_TIMEOUT_SECONDS := by
  induction agents_ with
  | nil => simp [cleanup_expired_agents]
  | cons x rest ih =>
    obtain ⟨k, b⟩ := x
    simp only [cleanup_expired_agents]
    by_cases h : uint64_sub now b.last_announce > AGENT_TIMEOUT_SECONDS
    · rw [if_pos h, ih]
      constructor
      · rintro ⟨h1, h2⟩; exact ⟨List.mem_cons_of_mem _ h1, h2⟩
      · rintro ⟨h1, h2⟩
        rcases List.mem_cons.mp h1 with h1 | h1
        · subst h1; simp only [] at h2; omega
        · exact ⟨h1, h2⟩
    · rw [if_neg h, List.mem_cons, ih]
      constructor
      · rintro (h1 | ⟨h1, h2⟩)
        · subst h1; exact ⟨by simp, by simp only []; omega⟩
        · exact ⟨List.mem_cons_of_mem _ h1, h2⟩
      · rintro ⟨h1, h2⟩
        rcases List.mem_cons.mp h1 with h1 | h1
        · exact Or.inl h1
        · exact Or.inr ⟨h1, h2⟩

/-- What `get_active_agents` and `cleanup_expired_agents` compute: `get_active_agents` returns
exactly the registered agents with `now - last_announce ≤ 60`, the difference being that of
the `uint64_t` values; for an agent announced at or before `now` it is the number of seconds
since the announce, so such an agent is returned iff its last announce is at most 60 s old.
After `cleanup_expired_agents` at the time `now` the registry holds exactly the agents that
`get_active_agents` returns at that time. -/
theorem active_agents_characterised (now : Nat) (agents_ : AgentTable) :
    (∀ a, a ∈ get_active_agents now agents_ ↔
      (∃ id, (id, a) ∈ agents_) ∧ uint64_sub now a.last_announce ≤ 60) ∧
    (now < 2 ^ 64 → ∀ id a, (id, a) ∈ agents_ → a.last_announce ≤ now →
      (uint64_sub now a.last_announce = now - a.last_announce ∧
       (a ∈ get_active_agents now agents_ ↔ now - a.last_announce ≤ 60) ∧
       (a.last_announce + 60 < now → a ∉ get_active_agents now agents_))) ∧
    (cleanup_expired_agents now agents_).map Prod.snd = get_active_agents now agents_ ∧
    (∀ kv, kv ∈ cleanup_expired_agents now agents_ ↔
      kv ∈ agents_ ∧ uint64_sub now kv.2.last_announce ≤ 60) ∧
    get_active_agents now (cleanup_expired_agents now agents_)
      = get_active_agents now agents_ := by
  refine ⟨mem_get_active_agents now agents_, ?_, cleanup_eq_active now agents_,
    mem_cleanup now agents_, ?_⟩
  · intro hnow id a hmem hle
    have hs := uint64_sub_of_le now a.last_announce hnow hle
    have hm := mem_get_active_agents now agents_ a
    simp only [AGENT_TIMEOUT_SECONDS] at hm
    rw [hs] at hm
    refine ⟨hs, ?_, ?_⟩
    · rw [hm]; exact ⟨fun h => h.2, fun h => ⟨⟨id, hmem⟩, h⟩⟩
    · intro hold hin
      have := (hm.mp hin).2
      omega
  · induction agents_ with
    | nil => rfl
    | cons kv rest ih =>
      obtain ⟨k, b⟩ := kv
      simp only [cleanup_expired_agents, get_active_agents]
      by_cases h : uint64_sub now b.last_announce ≤ AGENT_TIMEOUT_SECONDS
      · rw [if_neg (by omega), if_pos h]
        simp only [get_active_agents, if_pos h, ih]
      · rw [if_pos (by omega), if_neg h]
        exact ih

theorem ordered_insert_perm {α : Type} (comp : α → α → Bool) (a : α) :
    ∀ l : List α, (ordered_insert comp a l).Perm (a :: l) := by
  intro l
  induction l with
  | nil => exact List.Perm.refl _
  | cons b l ih =>
    simp only [ordered_insert]
    split
    · exact List.Perm.refl _
    · exact (List.Perm.cons b ih).trans (List.Perm.swap a b l)

theorem insertion_sort_perm {α : Type} (comp : α → α → Bool) :
    ∀ l : List α, (insertion_sort comp l).Perm l := by
  intro l
  induction l with
  | nil => exact List.Perm.refl _
  | cons a l ih =>
    simp only [insertion_sort]
    exact (ordered_insert_perm comp a _).trans (List.Perm.cons a ih)

theorem strict_weak_on_spec {α : Type} (comp : α → α → Bool) (xs : List α)
    (h : strict_weak_on comp xs = true) :
    (∀ a ∈ xs, comp a a = false) ∧
    (∀ a ∈ xs, ∀ b ∈ xs, ∀ c ∈ xs, comp a b = true → comp b c = true → comp a c = true) := by
  simp only [strict_weak_on, Bool.and_eq_true, List.all_eq_true, Bool.not_eq_true',
    Bool.or_eq_true, Bool.not_eq_eq_eq_not, Bool.not_true, Bool.and_eq_false_imp] at h
  obtain ⟨⟨h1, h2⟩, _⟩ := h
  refine ⟨h1, ?_⟩
  intro a ha b hb c hc hab hbc
  rcases h2 a ha b hb c hc with h | h
  · exact absurd hbc (by rw [h hab]; simp)
  · exact h

theorem ordered_insert_sorted {α : Type} (comp : α → α → Bool) (xs : List α)
    (hirr : ∀ a ∈ xs, comp a a = false)
    (htr : ∀ a ∈ xs, ∀ b ∈ xs, ∀ c ∈ xs, comp a b = true → comp b c = true → comp a c = true)
    (a : α) (ha : a ∈ xs) :
    ∀ l : List α, (∀ x ∈ l, x ∈ xs) → l.Pairwise (fun a b => comp b a = false) →
      (ordered_insert comp a l).Pairwise (fun a b => comp b a = false) := by
  intro l
  induction l with
  | nil => intro _ _; simp [ordered_insert]
  | cons b l ih =>
    intro hsub hs
    have hb : b ∈ xs := hsub b (by simp)
    have hl : ∀ x ∈ l, x ∈ xs := fun x hx => hsub x (by simp [hx])
    rw [List.pairwise_cons] at hs
    simp only [ordered_insert]
    by_cases hab : comp a b = true
    · rw [if_pos hab]
      rw [List.pairwise_cons]
      refine ⟨?_, List.pairwise_cons.mpr hs⟩
      intro c hc
      rcases List.mem_cons.mp hc with hc | hc
      · subst hc
        cases hca : comp c a with
        | false => rfl
        | true =>
          have := htr a ha c hb a ha hab hca
          rw [hirr a ha] at this
          exact absurd this (by simp)
      · cases hca : comp c a with
        | false => rfl
        | true =>
          have := htr c (hl c hc) a ha b hb hca hab
          rw [hs.1 c hc] at this
          exact absurd this (by simp)
    · rw [if_neg hab]
      rw [List.pairwise_cons]
      refine ⟨?_, ih hl hs.2⟩
      intro c hc
      rcases (List.mem_cons.mp ((ordered_insert_perm comp a l).subset hc)) with hc | hc
      · subst hc; simpa using hab
      · exact hs.1 c hc

/-- Sorting by insertion meets the postcondition of `std::sort`. -/
theorem insertion_sort_result {α : Type} (comp : α → α → Bool) (xs : List α) :
    sort_result comp xs (insertion_sort comp xs) := by
  intro h
  obtain ⟨hirr, htr⟩ := strict_weak_on_spec comp xs h
  refine ⟨insertion_sort_perm comp xs, ?_⟩
  have key : ∀ l : List α, (∀ x ∈ l, x ∈ xs) →
      (insertion_sort comp l).Pairwise (fun a b => comp b a = false) := by
    intro l
    induction l with
    | nil => intro _; simp [insertion_sort]
    | cons a l ih =>
      intro hsub
      simp only [insertion_sort]
      exact ordered_insert_sorted comp xs hirr htr a (hsub a (by simp)) _
        (fun x hx => hsub x (by simp [(insertion_sort_perm comp l).subset hx]))
        (ih (fun x hx => hsub x (by simp [hx])))
  exact key xs (fun x hx => hx)

theorem get_int64_eq_value (v : json_number) (h : fits_int64 v) : v.get_int64 = v.value := by
  cases v with
  | number_integer v => rfl
  | number_unsigned v =>
    simp only [fits_int64] at h
    simp only [json_number.get_int64, json_number.value, to_time_t]
    have h1 : v % 2 ^ 64 = v := Nat.mod_eq_of_lt (by omega)
    rw [h1, if_pos h]

/-- On records that all carry a number under `start_time` the comparison function of the
merge is a strict weak ordering. -/
theorem start_time_less_strict_weak (xs : List json_record)
    (h : ∀ r ∈ xs, ∃ v, r.start_time = some v) :
    strict_weak_on start_time_less xs = true := by
  have hlt : ∀ a ∈ xs, ∀ b ∈ xs, ∃ x y, a.start_time = some x ∧ b.start_time = some y ∧
      start_time_less a b = decide (x.get_int64 < y.get_int64) := by
    intro a ha b hb
    obtain ⟨x, hx⟩ := h a ha
    obtain ⟨y, hy⟩ := h b hb
    exact ⟨x, y, hx, hy, by simp [start_time_less, hx, hy]⟩
  simp only [strict_weak_on, Bool.and_eq_true, List.all_eq_true]
  refine ⟨⟨?_, ?_⟩, ?_⟩
  · intro a ha
    obtain ⟨x, y, hx, hy, e⟩ := hlt a ha a ha
    rw [hx] at hy
    cases hy
    rw [e]
    simp
  · intro a ha b hb c hc
    obtain ⟨x, y, hx, hy, e1⟩ := hlt a ha b hb
    obtain ⟨y2, z, hy2, hz, e2⟩ := hlt b hb c hc
    obtain ⟨x3, z3, hx3, hz3, e3⟩ := hlt a ha c hc
    rw [hy] at hy2; cases hy2
    rw [hx] at hx3; cases hx3
    rw [hz] at hz3; cases hz3
    rw [e1, e2, e3]
    by_cases p : x.get_int64 < y.get_int64 <;> by_cases q : y.get_int64 < z.get_int64 <;>
      by_cases r : x.get_int64 < z.get_int64 <;> simp [p, q, r]
    omega
  · intro a ha b hb c hc
    obtain ⟨x, y, hx, hy, e1⟩ := hlt a ha b hb
    obtain ⟨y2, x2, hy2, hx2, e1r⟩ := hlt b hb a ha
    obtain ⟨y3, z, hy3, hz, e2⟩ := hlt b hb c hc
    obtain ⟨z2, y4, hz2, hy4, e2r⟩ := hlt c hc b hb
    obtain ⟨x3, z3, hx3, hz3, e3⟩ := hlt a ha c hc
    obtain ⟨z4, x4, hz4, hx4, e3r⟩ := hlt c hc a ha
    rw [hy] at hy2 hy3 hy4; cases hy2; cases hy3; cases hy4
    rw [hx] at hx2 hx3 hx4; cases hx2; cases hx3; cases hx4
    rw [hz] at hz2 hz3 hz4; cases hz2; cases hz3; cases hz4
    rw [e1, e1r, e2, e2r, e3, e3r]
    by_cases p : x.get_int64 < y.get_int64 <;> by_cases p2 : y.get_int64 < x.get_int64 <;>
      by_cases q : y.get_int64 < z.get_int64 <;> by_cases q2 : z.get_int64 < y.get_int64 <;>
      by_cases r : x.get_int64 < z.get_int64 <;> by_cases r2 : z.get_int64 < x.get_int64 <;>
      simp [p, p2, q, q2, r, r2] <;> omega

/-- The records that `std::sort` may leave are in the order of the numbers under
`start_time` when every record carries such a number that fits an `int64_t`. -/
theorem sorted_by_start_time (xs out : List json_record)
    (hsort : sort_result start_time_less xs out)
    (hnum : ∀ r ∈ xs, ∃ v, r.start_time = some v ∧ fits_int64 v) :
    out.Perm xs ∧ out.Pairwise start_time_le := by
  have hsw := start_time_less_strict_weak xs (fun r hr => by
    obtain ⟨v, hv, _⟩ := hnum r hr; exact ⟨v, hv⟩)
  obtain ⟨hperm, hpair⟩ := hsort hsw
  refine ⟨hperm, ?_⟩
  have hmem : ∀ r ∈ out, r ∈ xs := fun r hr => hperm.subset hr
  have hout : ∀ r ∈ out, ∃ v, r.start_time = some v ∧ fits_int64 v :=
    fun r hr => hnum r (hmem r hr)
  clear hperm hmem hsw hnum hsort
  induction out with
  | nil => exact List.Pairwise.nil
  | cons a l ih =>
    rw [List.pairwise_cons] at hpair ⊢
    refine ⟨?_, ih hpair.2 (fun r hr => hout r (by simp [hr]))⟩
    intro b hb
    obtain ⟨x, hx, fx⟩ := hout a (by simp)
    obtain ⟨y, hy, fy⟩ := hout b (by simp [hb])
    have := hpair.1 b hb
    simp only [start_time_less, hx, hy, decide_eq_false_iff_not, not_lt] at this
    rw [get_int64_eq_value x fx, get_int64_eq_value y fy] at this
    exact ⟨x, y, hx, hy, this⟩

/-- C17 (amended). When every record of the agent responses carries an integer under
`start_time` that fits an `int64_t`, the records array that the gateway merge produces holds
the records of the accepted responses in non-decreasing order of `start_time`, whatever
order `std::sort` gives to records that compare equal. Agents that return the start times
20, 10 and 15 give the start times 10, 15, 20. -/
theorem merged_records_sorted (responses : List (List Char × Option agent_response))
    (out : List json_record)
    (hsort : sort_result start_time_less (collect_records responses) out)
    (hnum : ∀ r ∈ collect_records responses, ∃ v, r.start_time = some v ∧ fits_int64 v) :
    out.Perm (collect_records responses) ∧ out.Pairwise start_time_le ∧
    (∀ out6, sort_result start_time_less (collect_records merge_scenario) out6 →
      out6.map (fun r => r.start_time.map json_number.value)
        = [some 10, some 15, some 20]) ∧
    std_sort start_time_less (collect_records merge_scenario)
      = some [{ start_time := some (.number_unsigned 10), agent := "101".toList },
              { start_time := some (.number_unsigned 15), agent := "202".toList },
              { start_time := some (.number_unsigned 20), agent := "101".toList }] := by
  obtain ⟨h1, h2⟩ := sorted_by_start_time _ out hsort hnum
  refine ⟨h1, h2, ?_, by decide⟩
  intro out6 h6
  have hnum6 : ∀ r ∈ collect_records merge_scenario,
      ∃ v, r.start_time = some v ∧ fits_int64 v := by
    intro r hr
    have hc : collect_records merge_scenario
        = [{ start_time := some (.number_unsigned 20), agent := "101".toList },
           { start_time := some (.number_unsigned 10), agent := "101".toList },
           { start_time := some (.number_unsigned 15), agent := "202".toList }] := by decide
    rw [hc] at hr
    simp only [List.mem_cons, List.mem_singleton, List.not_mem_nil, or_false] at hr
    rcases hr with hr | hr | hr <;> subst hr <;>
      exact ⟨_, rfl, by simp [fits_int64]⟩
  obtain ⟨p1, p2⟩ := sorted_by_start_time _ out6 h6 hnum6
  have hk : (out6.map (fun r => (r.start_time.map json_number.value).getD 0)).Perm
      [20, 10, 15] := by
    have := p1.map (fun r => (r.start_time.map json_number.value).getD 0)
    exact this
  have hs : (out6.map (fun r => (r.start_time.map json_number.value).getD 0)).Sorted
      (· ≤ ·) := by
    rw [List.Sorted, List.pairwise_map]
    refine p2.imp ?_
    rintro a b ⟨x, y, hx, hy, hle⟩
    simp only [hx, hy, Option.map_some', Option.getD_some]
    exact hle
  have hs0 : ([10, 15, 20] : List Int).Sorted (· ≤ ·) := by decide
  have hp0 : ([20, 10, 15] : List Int).Perm [10, 15, 20] := by decide
  have hkeys := List.eq_of_perm_of_sorted (hk.trans hp0) hs hs0
  have hsome : out6.map (fun r => r.start_time.map json_number.value)
      = (out6.map (fun r => (r.start_time.map json_number.value).getD 0)).map some := by
    rw [List.map_map]
    apply List.map_congr_left
    intro r hr
    obtain ⟨v, hv, _⟩ := hnum6 r (p1.subset hr)
    simp [hv]
  rw [hsome, hkeys]
  rfl

theorem merged_records_sorted_witness :
    sort_result start_time_less (collect_records merge_scenario)
      [{ start_time := some (.number_unsigned 10), agent := "101".toList },
       { start_time := some (.number_unsigned 15), agent := "202".toList },
       { start_time := some (.number_unsigned 20), agent := "101".toList }] ∧
    List.Pairwise start_time_le
      [{ start_time := some (.number_unsigned 10), agent := "101".toList },
       { start_time := some (.number_unsigned 15), agent := "202".toList },
       { start_time := some (.number_unsigned 20), agent := "101".toList }] :=
  have hs : sort_result start_time_less (collect_records merge_scenario)
      [{ start_time := some (.number_unsigned 10), agent := "101".toList },
       { start_time := some (.number_unsigned 15), agent := "202".toList },
       { start_time := some (.number_unsigned 20), agent := "101".toList }] :=
    fun _ => ⟨by decide, by decide⟩
  ⟨hs, (merged_records_sorted merge_scenario _ hs (by
    intro r hr
    have hc : collect_records merge_scenario
        = [{ start_time := some (.number_unsigned 20), agent := "101".toList },
           { start_time := some (.number_unsigned 10), agent := "101".toList },
           { start_time := some (.number_unsigned 15), agent := "202".toList }] := by decide
    rw [hc] at hr
    simp only [List.mem_cons, List.mem_singleton, List.not_mem_nil, or_false] at hr
    rcases hr with hr | hr | hr <;> subst hr <;>
      exact ⟨_, rfl, by simp [fits_int64]⟩)).2.1⟩

/-- C17 as stated fails: the comparison function reads `start_time` with `get<int64_t>()`,
so the unsigned number 9223372036854775808 counts as -9223372036854775808. An agent that
returns records with the start times 9223372036854775808 and 5 gets them merged in this
order, by every sort that meets the postcondition of `std::sort`, and the first start time
is greater than the second. -/
theorem int64_start_time_counterexample :
    strict_weak_on start_time_less
      (collect_records [("101".toList,
        some ⟨some 0, some [record_at 9223372036854775808, record_at 5]⟩)]) = true ∧
    std_sort start_time_less
      (collect_records [("101".toList,
        some ⟨some 0, some [record_at 9223372036854775808, record_at 5]⟩)])
      = some [{ start_time := some (.number_unsigned 9223372036854775808),
                agent := "101".toList },
              { start_time := some (.number_unsigned 5), agent := "101".toList }] ∧
    ¬ List.Pairwise start_time_le
      [{ start_time := some (.number_unsigned 9223372036854775808), agent := "101".toList },
       { start_time := some (.number_unsigned 5), agent := "101".toList }] ∧
    ¬ sort_result start_time_less
      (collect_records [("101".toList,
        some ⟨some 0, some [record_at 9223372036854775808, record_at 5]⟩)])
      [{ start_time := some (.number_unsigned 5), agent := "101".toList },
       { start_time := some (.number_unsigned 9223372036854775808),
         agent := "101".toList }] := by
  refine ⟨by decide, by decide, ?_, ?_⟩
  · intro h
    rw [List.pairwise_cons] at h
    obtain ⟨x, y, hx, hy, hle⟩ := h.1 _ (List.mem_singleton.mpr rfl)
    simp only [Option.some.injEq] at hx hy
    subst hx
    subst hy
    simp [json_number.value] at hle
  · intro h
    have := (h (by decide)).2
    rw [List.pairwise_cons] at this
    have h2 := this.1 _ (List.mem_singleton.mpr rfl)
    revert h2
    decide

theorem mem_map_insert (key : List Char) (agent : agent_info) (agents_ : AgentTable) :
    (key, agent) ∈ map_insert key agent agents_ := by
  induction agents_ with
  | nil => simp [map_insert]
  | cons kv rest ih =>
    obtain ⟨k, a⟩ := kv
    simp only [map_insert]
    split
    · simp
    · exact List.mem_cons_of_mem _ ih

theorem mem_of_lookup (agents_ : AgentTable) (key : List Char) (a : agent_info)
    (h : agents_.lookup key = some a) : (key, a) ∈ agents_ := by
  induction agents_ with
  | nil => simp at h
  | cons kv rest ih =>
    obtain ⟨k, b⟩ := kv
    by_cases hk : (key == k) = true
    · simp only [List.lookup_cons, hk, Option.some.injEq] at h
      have : key = k := by simpa using hk
      subst this; subst h
      simp
    · have hk2 : (key == k) = false := by simpa using hk
      simp only [List.lookup_cons, hk2] at h
      exact List.mem_cons_of_mem _ (ih h)

/-- After `add_agent` at the time `now` the agent is registered under the id of its address
with `last_announce = now`, so `get_active_agents` returns it at that time. -/
theorem add_agent_registers (now : Nat) (agents_ : AgentTable) (agent_addr : List Char) :
    ∃ a, (Nat.toDigits 10 (MurMurHash64 agent_addr 0), a) ∈ add_agent now agents_ agent_addr ∧
      a.last_announce = now ∧ a ∈ get_active_agents now (add_agent now agents_ agent_addr) := by
  have hact : ∀ a : agent_info, a.last_announce = now →
      (Nat.toDigits 10 (MurMurHash64 agent_addr 0), a) ∈ add_agent now agents_ agent_addr →
      a ∈ get_active_agents now (add_agent now agents_ agent_addr) := by
    intro a ha hmem
    rw [mem_get_active_agents]
    refine ⟨⟨_, hmem⟩, ?_⟩
    rw [ha]
    unfold uint64_sub AGENT_TIMEOUT_SECONDS
    have : now % 2 ^ 64 + 2 ^ 64 - now % 2 ^ 64 = 2 ^ 64 := by omega
    rw [this]
    simp
  cases hl : agents_.lookup (Nat.toDigits 10 (MurMurHash64 agent_addr 0)) with
  | none =>
    have hm : (Nat.toDigits 10 (MurMurHash64 agent_addr 0),
        (⟨agent_addr, Nat.toDigits 10 (MurMurHash64 agent_addr 0), now⟩ : agent_info))
        ∈ add_agent now agents_ agent_addr := by
      simp only [add_agent, hl]
      exact mem_map_insert _ _ _
    exact ⟨_, hm, rfl, hact _ rfl hm⟩
  | some a0 =>
    have hm : (Nat.toDigits 10 (MurMurHash64 agent_addr 0),
        ({ a0 with last_announce := now } : agent_info))
        ∈ add_agent now agents_ agent_addr := by
      simp only [add_agent, hl]
      rw [List.mem_map]
      exact ⟨(_, a0), mem_of_lookup _ _ _ hl, by simp⟩
    exact ⟨_, hm, rfl, hact _ rfl hm⟩

/-- The loop over `time_formats_` returns the seconds of the first pair whose regex matches
the text and whose format parses the match, and 0 when there is no such pair. -/
theorem get_timestamp_loop_first (pre50 : List Char) (fmts : List time_format) :
    get_timestamp_loop pre50 fmts =
      (fmts.findSome? (fun tf => (tf.regex_search pre50).bind tf.parse)).getD 0 := by
  induction fmts with
  | nil => rfl
  | cons tf rest ih =>
    unfold get_timestamp_loop
    rw [List.findSome?_cons]
    cases h1 : tf.regex_search pre50 with
    | none => simp only [Option.bind]; exact ih
    | some m =>
      cases h2 : tf.parse m with
      | none => simp only [Option.bind, h2]; exact ih
      | some secs => simp only [Option.bind, h2, Option.getD]

/-- C21 (amended). `get_timestamp_from_log_line` depends only on the first 50 bytes of the
line: it returns the seconds that the first pair of `time_formats_`, in list order, whose
regex matches these bytes and whose format parses the matched text gives; a pair whose
parse fails is passed over and the later pairs are tried; the result is 0 when no pair
matches and parses. -/
theorem timestamp_first_parsing_pair (ix : FileIndexer) (line : List Char) :
    ix.get_timestamp_from_log_line line =
      (ix.time_formats_.findSome?
        (fun tf => (tf.regex_search (line.take 50)).bind tf.parse)).getD 0 ∧
    ix.get_timestamp_from_log_line line = ix.get_timestamp_from_log_line (line.take 50) := by
  unfold FileIndexer.get_timestamp_from_log_line
  refine ⟨get_timestamp_loop_first _ _, ?_⟩
  rw [List.take_take, Nat.min_self]

/-- C21 (counterexample). With the first two built-in formats, the first regex matches the
text `2025-13-01 00:00:00` in the first 50 bytes of the line and its format does not parse
it, yet the result is not 0: it is the time 1735689600 that the second pair reads. -/
theorem parse_failure_counterexample :
    ymd_hms_format.regex_search (two_dates_line.take 50) = some "2025-13-01 00:00:00".toList ∧
    ymd_hms_format.parse "2025-13-01 00:00:00".toList = none ∧
    two_format_indexer.get_timestamp_from_log_line two_dates_line = 1735689600 := by
  refine ⟨by decide, by decide, by decide⟩

theorem record_text_snoc (first : List Char) (conts : List (List Char)) (c : List Char) :
    record_text first (conts ++ [c]) = record_text first conts ++ '\n' :: c := by
  unfold record_text
  rw [List.foldl_append]
  rfl

theorem is_record_append (ix : FileIndexer) (r : LogLine) (line : List Char)
    (h : is_record ix r) (hts : ix.get_timestamp_from_log_line line = 0) :
    is_record ix { r with line := r.line ++ '\n' :: line } := by
  obtain ⟨first, conts, h1, h2, h3, h4⟩ := h
  refine ⟨first, conts ++ [line], h1, h2, ?_, ?_⟩
  · intro c hc
    simp only [List.mem_append, List.mem_singleton] at hc
    rcases hc with hc | hc
    · exact h3 c hc
    · rw [hc]; exact hts
  · rw [record_text_snoc, ← h4]

theorem is_record_first (ix : FileIndexer) (line : List Char)
    (hts : ix.get_timestamp_from_log_line line ≠ 0) :
    is_record ix ⟨to_uint64 (ix.get_timestamp_from_log_line line), line⟩ :=
  ⟨line, [], hts, rfl, fun c hc => absurd hc (List.not_mem_nil c), rfl⟩

theorem push_pending_record (ix : FileIndexer) (ctx : SearchContext)
    (h : record_inv ix ctx) : record_inv ix (push_pending ctx) := by
  unfold push_pending
  split
  · rename_i ht
    refine ⟨?_, h.2.1, fun hne => absurd rfl hne⟩
    intro l hl
    simp only [List.mem_append, List.mem_singleton] at hl
    rcases hl with hl | hl
    · exact h.1 l hl
    · rw [hl]; exact h.2.2 ht
  · exact h

theorem record_inv_pending (ix : FileIndexer) (ctx : SearchContext) (t : LogLine)
    (h : record_inv ix ctx) (ht : t.line ≠ [] → is_record ix t) :
    record_inv ix { ctx with tmp_line := t } :=
  ⟨h.1, h.2.1, ht⟩

theorem parse_line_record (ix : FileIndexer) (ctx : SearchContext) (line : List Char)
    (h : record_inv ix ctx) : record_inv ix (parse_line ix ctx line).2 := by
  unfold parse_line
  simp only []
  by_cases hts : ix.get_timestamp_from_log_line line = 0
  · rw [if_pos hts]
    by_cases ht : ctx.tmp_line.line ≠ []
    · rw [if_pos ht]
      exact record_inv_pending ix ctx _ h (fun _ => is_record_append ix _ line (h.2.2 ht) hts)
    · rw [if_neg ht]
      exact h
  · rw [if_neg hts]
    by_cases hlt : to_uint64 (ix.get_timestamp_from_log_line line) < ctx.start_time
    · rw [if_pos hlt]
      exact h
    · rw [if_neg hlt]
      have hp := push_pending_record ix ctx h
      by_cases hgt : to_uint64 (ix.get_timestamp_from_log_line line) > ctx.end_time
      · rw [if_pos hgt]
        exact hp
      · rw [if_neg hgt]
        exact record_inv_pending ix _ _ hp (fun _ => is_record_first ix line hts)

theorem exec_searchers_record (ix : FileIndexer) (ctx : SearchContext)
    (h : record_inv ix ctx) :
    record_inv ix { (exec_searchers ctx).2 with log_lines := [] } ∧
    ((exec_searchers ctx).1 = false → (exec_searchers ctx).2 = ctx) := by
  obtain ⟨_, _, _, _, _, f6, ⟨sel, hsel, f7⟩, _⟩ := exec_searchers_frame ctx
  refine ⟨⟨fun l hl => absurd hl (List.not_mem_nil l), ?_, ?_⟩, ?_⟩
  · intro l hl
    simp only [] at hl
    rw [f7, List.mem_append] at hl
    rcases hl with hl | hl
    · exact h.2.1 l hl
    · exact h.1 l (hsel.subset hl)
  · simp only []
    rw [f6]; exact h.2.2
  · unfold exec_searchers
    by_cases he : ctx.searchers.isEmpty = true
    · rw [if_pos he]; intro _; rfl
    · rw [if_neg he]; intro hf; simp at hf

theorem record_inv_error (ix : FileIndexer) (ctx : SearchContext) (msg : List Char)
    (st : Int) (h : record_inv ix ctx) :
    record_inv ix { ctx with error_msg := msg, status := st } :=
  h

theorem batch_step_record (ix : FileIndexer) (ctx : SearchContext)
    (h : record_inv ix ctx) : record_inv ix (batch_step ctx).2 := by
  unfold batch_step
  have hc := (exec_searchers_record ix ctx h).1
  split
  · simp only []
    split
    · exact record_inv_error ix _ _ _ hc
    · split
      · exact hc
      · exact hc
  · exact h

theorem final_flush_record (ix : FileIndexer) (ctx : SearchContext)
    (h : record_inv ix ctx) : record_inv ix (final_flush ctx) := by
  have h1 := push_pending_record ix ctx h
  have h2 := exec_searchers_record ix _ h1
  unfold final_flush
  simp only []
  split
  · split
    · rename_i hf
      have hf2 : (exec_searchers (push_pending ctx)).1 = false := by
        simpa using hf
      rw [h2.2 hf2]
      exact record_inv_error ix _ _ _ h1
    · exact h2.1
  · exact h1

theorem search_txt_loop_record (ix : FileIndexer) :
    ∀ (fuel : Nat) (rest : List Char) (pos : Nat) (ctx : SearchContext),
      record_inv ix ctx → record_inv ix (search_txt_loop ix fuel rest pos ctx) := by
  intro fuel
  induction fuel with
  | zero => intro rest pos ctx h; exact h
  | succ fuel ih =>
    intro rest pos ctx h
    unfold search_txt_loop
    split
    · exact h
    · simp only []
      have hp := parse_line_record ix ctx
      split
      · exact hp _ h
      · split
        · exact hp _ h
        · have hb := batch_step_record ix _ (hp (match memchr_newline rest with
            | some n => rest.take n
            | none => rest) h)
          split
          · rename_i c heq; rw [heq] at hb; exact hb
          · rename_i c heq; rw [heq] at hb; exact hb
          · rename_i x c hx1 hx2 heq
            rw [heq] at hb
            exact ih _ _ _ hb

theorem search_file_txt_record (ix : FileIndexer) (file : Option (List Char))
    (ctx : SearchContext) (h : record_inv ix ctx) :
    record_inv ix (search_file_txt ix file ctx) := by
  unfold search_file_txt
  split
  · exact h
  · simp only []
    split
    · exact h
    · split
      · exact h
      · exact final_flush_record ix _ (search_txt_loop_record ix _ _ _ _ h)

theorem gzip_lines_loop_record (ix : FileIndexer) :
    ∀ (lines : List (List Char)) (ctx : SearchContext),
      record_inv ix ctx → record_inv ix (gzip_lines_loop ix lines ctx).2 := by
  intro lines
  induction lines with
  | nil => intro ctx h; exact h
  | cons line rest ih =>
    intro ctx h
    unfold gzip_lines_loop
    simp only []
    have hp := parse_line_record ix ctx line h
    split
    · exact hp
    · have hb := batch_step_record ix _ hp
      split
      · rename_i c heq; rw [heq] at hb; exact hb
      · rename_i c heq; rw [heq] at hb; exact hb
      · rename_i x c hx1 hx2 heq
        rw [heq] at hb
        exact ih _ hb

theorem search_gzip_loop_record (ix : FileIndexer) :
    ∀ (fuel : Nat) (gz : gzFile) (carry : List Char) (total : Nat) (ctx : SearchContext),
      record_inv ix ctx → record_inv ix (search_gzip_loop ix fuel gz carry total ctx).ctx := by
  intro fuel
  induction fuel with
  | zero => intro gz carry total ctx h; exact h
  | succ fuel ih =>
    intro gz carry total ctx h
    unfold search_gzip_loop
    split
    · simp only []
      split
      · exact h
      · split
        · exact h
        · have hl := gzip_lines_loop_record ix
            (get_lines_gzip ((carry ++ (gzread gz BUF_SIZE).2.1).length + 1)
              (carry ++ (gzread gz BUF_SIZE).2.1)).1 ctx h
          split
          · rename_i c heq; rw [heq] at hl; exact hl
          · rename_i c heq; rw [heq] at hl; exact hl
          · rename_i c heq
            rw [heq] at hl
            split
            · exact hl
            · exact ih _ _ _ _ hl
    · exact h

theorem search_file_gzip_record (ix : FileIndexer) (file : Option gzFile)
    (ctx : SearchContext) (h : record_inv ix ctx) :
    record_inv ix (search_file_gzip ix file ctx) := by
  unfold search_file_gzip
  split
  · exact h
  · split
    · exact h
    · split
      · exact h
      · rename_i gz gz1 total heq hne
        have hl := search_gzip_loop_record ix (ctx.index_end_pos + 1) gz1 [] total ctx h
        split
        · rename_i c hc; rw [hc] at hl; exact hl
        · rename_i c hc; rw [hc] at hl; exact final_flush_record ix _ hl

theorem parse_lines_record (ix : FileIndexer) :
    ∀ (lines : List (List Char)) (ctx : SearchContext),
      record_inv ix ctx →
        record_inv ix (lines.foldl (fun c line => (parse_line ix c line).2) ctx) := by
  intro lines
  induction lines with
  | nil => intro ctx h; exact h
  | cons line rest ih =>
    intro ctx h
    rw [List.foldl_cons]
    exact ih _ (parse_line_record ix ctx line h)

/-- C22. Every record that the record assembly emits is a record in the sense of
`is_record`: it begins with a line for which the time stamp extractor returns a non-zero
value, it carries that value, and its text is that line followed by one `"\n"` and the line
for each continuation line (a line without time stamp) appended to it. This holds for the
batch that `parse_line` and the final flush build from any sequence of lines, and for every
record that the search of a text file or of a gzip file returns. For the lines
`2025-01-01 00:00:00 a`, `  at frame 1`, `  at frame 2`, `2025-01-01 00:04:59 b` the assembly
emits the record of `a` with its two continuation lines and the record of `b`. -/
theorem emitted_records_well_formed (ix : FileIndexer) :
    (∀ (p : List Char) (s e : Nat) (lines : List (List Char)),
      ∀ r ∈ (assemble ix (context_for p s e) lines).log_lines, is_record ix r) ∧
    (∀ (disk : DiskFile) (req : SearchRequest) (searchers : List QuerySearcher)
        (fi : Option FileInfo) (p : List Char),
      ∀ l ∈ (search_path ix disk req searchers fi p).lines, is_record ix l) ∧
    (assemble (indexer_with 300 50000) (context_for "app.log".toList 1735689600 1735693200)
        ["2025-01-01 00:00:00 a".toList, "  at frame 1".toList, "  at frame 2".toList,
          "2025-01-01 00:04:59 b".toList]).log_lines =
      [⟨1735689600, "2025-01-01 00:00:00 a\n  at frame 1\n  at frame 2".toList⟩,
        ⟨1735689899, "2025-01-01 00:04:59 b".toList⟩] := by
  refine ⟨?_, ?_, by decide⟩
  · intro p s e lines r hr
    have h0 : record_inv ix (context_for p s e) :=
      ⟨fun l hl => absurd hl (List.not_mem_nil l), fun l hl => absurd hl (List.not_mem_nil l),
        fun hne => absurd rfl hne⟩
    exact (push_pending_record ix _ (parse_lines_record ix lines _ h0)).1 r hr
  · intro disk req searchers fi p l hl
    unfold search_path at hl
    simp only [] at hl
    split at hl
    · simp at hl
    · rename_i info
      split at hl
      · simp at hl
      · split at hl
        · simp at hl
        · simp only [] at hl
          obtain ⟨_, _, f3, f4, f5, _, _⟩ := find_index_pos_frame (some info)
            { path := p, start_time := req.start_time, end_time := req.end_time,
              index_start_pos := 0, index_end_pos := 0, tmp_line := ⟨0, []⟩, log_lines := [],
              matched_lines := [], searchers := searchers, status := 0, error_msg := [],
              req := req }
          have h0 : record_inv ix (find_index_pos (some info)
              { path := p, start_time := req.start_time, end_time := req.end_time,
                index_start_pos := 0, index_end_pos := 0, tmp_line := ⟨0, []⟩,
                log_lines := [], matched_lines := [], searchers := searchers, status := 0,
                error_msg := [], req := req }).2 := by
            refine ⟨?_, ?_, ?_⟩
            · rw [f3]; intro l hl; simp at hl
            · rw [f4]; intro l hl; simp at hl
            · rw [f5]; intro hne; exact absurd rfl hne
          unfold search_file at hl
          split at hl
          · exact (search_file_gzip_record ix _ _ h0).2.1 l hl
          · exact (search_file_txt_record ix _ _ h0).2.1 l hl

/-- C23 (code). A continuation line of a line that lies before the window is appended to
the record that was pending before that line. For the window from 1735689600 to 1735693200
and the lines `2025-01-01 00:04:59 b`, `2024-12-31 23:59:59 old`, `  at old frame` the
assembly emits the single record `2025-01-01 00:04:59 b\n  at old frame`: `parse_line`
returns for the old line without touching the pending record. When the second line lies
after the window (`2025-01-01 02:00:00 late`) the pending record is moved to the batch first
and the record of `b` is emitted alone. The search of the text file with these lines, with
the index that the text builder builds, returns the record of `b` for the query `frame`,
a word that occurs only in the continuation line of the old line. -/
theorem continuation_of_earlier_line_appended :
    (assemble (indexer_with 300 50000) (context_for "app.log".toList 1735689600 1735693200)
        ["2025-01-01 00:04:59 b".toList, "2024-12-31 23:59:59 old".toList,
          "  at old frame".toList]).log_lines =
      [⟨1735689899, "2025-01-01 00:04:59 b\n  at old frame".toList⟩] ∧
    (indexer_with 300 50000).get_timestamp_from_log_line "2024-12-31 23:59:59 old".toList
      = 1735689599 ∧
    (parse_line (indexer_with 300 50000)
        { context_for "app.log".toList 1735689600 1735693200 with
          tmp_line := ⟨1735689899, "2025-01-01 00:04:59 b".toList⟩ }
        "2024-12-31 23:59:59 old".toList).2.tmp_line =
      ⟨1735689899, "2025-01-01 00:04:59 b".toList⟩ ∧
    (assemble (indexer_with 300 50000) (context_for "app.log".toList 1735689600 1735693200)
        ["2025-01-01 00:04:59 b".toList, "2025-01-01 02:00:00 late".toList,
          "  at late frame".toList]).log_lines =
      [⟨1735689899, "2025-01-01 00:04:59 b".toList⟩] ∧
    (search_path (indexer_with 300 50000) { text := some unordered_file }
        { start_time := 1735689600, end_time := 1735693200 } [simple_query "frame".toList]
        (some (info_with (index_from_scratch (indexer_with 300 50000) unordered_file)))
        "app.log".toList).lines =
      [⟨1735689899, "2025-01-01 00:04:59 b\n  at old frame".toList⟩] := by
  refine ⟨by decide, by decide, by decide, by decide, by decide⟩

theorem adjacent_words_append (t : Token) : ∀ tokens : List Token,
    adjacent_words (tokens ++ [t])
      = (adjacent_words tokens || (back_is_word tokens && decide (t.type = TokenType.WORD)))
  | [] => by simp [adjacent_words, back_is_word]
  | [a] => by
    simp [adjacent_words, back_is_word]
  | a :: b :: rest => by
    have ih := adjacent_words_append t (b :: rest)
    have hb : back_is_word (a :: b :: rest) = back_is_word (b :: rest) := by
      simp [back_is_word, List.getLast?_cons_cons]
    simp only [List.cons_append] at ih ⊢
    simp only [adjacent_words, ih, hb, Bool.or_assoc]

/-- The tokenizer and the token reader agree until the tokenizer meets a word that follows a
word: the tokenizer returns the tokens of the pattern, among which no two words are
adjacent, or it stops with one of the two errors for adjacent words, or both stop with the
same error. -/
theorem tokenize_loop_lexemes (last : Option Char) : ∀ (fuel : Nat) (rest : List Char)
    (tokens : List Token), adjacent_words tokens = false →
    (∃ T, tokenize_loop last fuel rest tokens = .ok T ∧
        lexemes_loop last fuel rest tokens = .ok T ∧ adjacent_words T = false) ∨
    tokenize_loop last fuel rest tokens = .error .adjacent_quoted_words ∨
    tokenize_loop last fuel rest tokens = .error .adjacent_unquoted_words ∨
    (∃ e, tokenize_loop last fuel rest tokens = .error e ∧
        lexemes_loop last fuel rest tokens = .error e) := by
  intro fuel
  induction fuel with
  | zero =>
    intro rest tokens h
    cases rest with
    | nil => exact Or.inl ⟨tokens, rfl, rfl, h⟩
    | cons c r => exact Or.inr (Or.inr (Or.inr ⟨_, rfl, rfl⟩))
  | succ fuel ih =>
    intro rest tokens h
    cases rest with
    | nil => exact Or.inl ⟨tokens, rfl, rfl, h⟩
    | cons c r =>
      have hop : ∀ t : Token, t.type ≠ TokenType.WORD →
          adjacent_words (tokens ++ [t]) = false := by
        intro t ht
        rw [adjacent_words_append, h]
        simp [ht]
      have hword : ∀ w : List Char, back_is_word tokens = false →
          adjacent_words (tokens ++ [⟨.WORD, w⟩]) = false := by
        intro w hb
        rw [adjacent_words_append, h, hb]
        rfl
      rw [tokenize_loop, lexemes_loop]
      by_cases h1 : isspace c = true
      · rw [if_pos h1, if_pos h1]; exact ih _ _ h
      rw [if_neg h1, if_neg h1]
      by_cases h2 : c = '('
      · rw [if_pos h2, if_pos h2]; exact ih _ _ (hop _ (by simp))
      rw [if_neg h2, if_neg h2]
      by_cases h3 : c = ')'
      · rw [if_pos h3, if_pos h3]; exact ih _ _ (hop _ (by simp))
      rw [if_neg h3, if_neg h3]
      by_cases h4 : (c = '\'' || c = '"') = true
      · rw [if_pos h4, if_pos h4]
        simp only []
        by_cases hq : ((quoted_word c r []).2 = [] && last != some c) = true
        · rw [if_pos hq, if_pos hq]
          exact Or.inr (Or.inr (Or.inr ⟨_, rfl, rfl⟩))
        · rw [if_neg hq, if_neg hq]
          by_cases hw : ((quoted_word c r []).1 != []) = true
          · rw [if_pos hw, if_pos hw]
            by_cases hb : back_is_word tokens = true
            · rw [if_pos hb]; exact Or.inr (Or.inl rfl)
            · rw [if_neg hb]
              exact ih _ _ (hword _ (by simpa using hb))
          · rw [if_neg hw, if_neg hw]
            exact ih _ _ h
      rw [if_neg h4, if_neg h4]
      by_cases h5 : (2 < (c :: r).length && (c :: r).take 3 = ['A', 'N', 'D']
          && operator_end ((c :: r).drop 3)) = true
      · rw [if_pos h5, if_pos h5]; exact ih _ _ (hop _ (by simp))
      rw [if_neg h5, if_neg h5]
      by_cases h6 : (1 < (c :: r).length && (c :: r).take 2 = ['O', 'R']
          && operator_end ((c :: r).drop 2)) = true
      · rw [if_pos h6, if_pos h6]; exact ih _ _ (hop _ (by simp))
      rw [if_neg h6, if_neg h6]
      by_cases h7 : (2 < (c :: r).length && (c :: r).take 3 = ['N', 'O', 'T']
          && operator_end ((c :: r).drop 3)) = true
      · rw [if_pos h7, if_pos h7]; exact ih _ _ (hop _ (by simp))
      rw [if_neg h7, if_neg h7]
      simp only []
      by_cases hw : ((unquoted_word (c :: r) []).1 != []) = true
      · rw [if_pos hw, if_pos hw]
        by_cases hb : back_is_word tokens = true
        · rw [if_pos hb]; exact Or.inr (Or.inr (Or.inl rfl))
        · rw [if_neg hb]
          exact ih _ _ (hword _ (by simpa using hb))
      · rw [if_neg hw, if_neg hw]
        exact ih _ _ h

/-- C24. `build_pattern` fails for every pattern whose tokens hold two `WORD` tokens next to
each other, with no operator, parenthesis or `NOT` between them, whether the words are bare
or quoted: the tokenizer stops with the error for adjacent quoted words or with the error
for adjacent unquoted words. The tokens of the pattern are those that the tokenizer reads
when its two tests for adjacent words are left out. -/
theorem adjacent_words_rejected (pattern : List Char) (toks : List Token)
    (h : lexemes (trim pattern) = .ok toks) (ha : adjacent_words toks = true) :
    build_pattern pattern = .error .adjacent_quoted_words ∨
    build_pattern pattern = .error .adjacent_unquoted_words := by
  unfold lexemes at h
  have key := tokenize_loop_lexemes (trim pattern).getLast? (trim pattern).length
    (trim pattern) [] rfl
  unfold build_pattern tokenize
  rcases key with ⟨T, _, h2, h3⟩ | hq | hu | ⟨e, _, h2⟩
  · rw [h2] at h
    cases h
    rw [ha] at h3
    cases h3
  · rw [hq]; exact Or.inl rfl
  · rw [hu]; exact Or.inr rfl
  · rw [h2] at h
    cases h

theorem adjacent_words_rejected_witness :
    lexemes (trim "foo bar".toList) = .ok [⟨.WORD, "foo".toList⟩, ⟨.WORD, "bar".toList⟩] ∧
    (build_pattern "foo bar".toList = .error .adjacent_quoted_words ∨
      build_pattern "foo bar".toList = .error .adjacent_unquoted_words) ∧
    build_pattern "foo bar".toList = .error .adjacent_unquoted_words ∧
    lexemes (trim "foo 'bar baz'".toList)
      = .ok [⟨.WORD, "foo".toList⟩, ⟨.WORD, "bar baz".toList⟩] ∧
    (build_pattern "foo 'bar baz'".toList = .error .adjacent_quoted_words ∨
      build_pattern "foo 'bar baz'".toList = .error .adjacent_unquoted_words) ∧
    build_pattern "foo 'bar baz'".toList = .error .adjacent_quoted_words :=
  ⟨rfl, adjacent_words_rejected "foo bar".toList _ rfl rfl, rfl,
    rfl, adjacent_words_rejected "foo 'bar baz'".toList _ rfl rfl, rfl⟩

/-- The lambda `trim` leaves a text unchanged that neither starts nor ends with one of the
characters it removes. -/
theorem trim_of_ends (c l : Char) (body : List Char) (hc : trim_chars c = false)
    (hl : trim_chars l = false) : trim (c :: (body ++ [l])) = c :: (body ++ [l]) := by
  unfold trim
  rw [List.dropWhile_cons_of_neg (by simp [hc])]
  have : (c :: (body ++ [l])).reverse = l :: (c :: body).reverse := by simp
  rw [this, List.dropWhile_cons_of_neg (by simp [hl]), ← this, List.reverse_reverse]

/-- A bareword ends with a character that `trim` does not remove. -/
theorem bareword_last (w : List Char) (hw : bareword w) :
    ∃ w2 l, w = w2 ++ [l] ∧ trim_chars l = false := by
  obtain ⟨hne, hchars, -⟩ := hw
  rcases List.eq_nil_or_concat w with h | ⟨w2, l, h⟩
  · exact absurd h hne
  · refine ⟨w2, l, by simpa using h, trim_chars_of_word_char l (hchars l ?_)⟩
    rw [h]; simp

theorem build_not_not (w : List Char) (hw : bareword w) (hb : ∀ c ∈ w, c ≠ '\\') :
    build_pattern (not_not_pattern w) = .error .not_needs_operand := by
  have htrim : trim (not_not_pattern w) = not_not_pattern w := by
    obtain ⟨w2, l, rfl, hl⟩ := bareword_last w hw
    exact trim_of_ends 'N' l ("OT NOT ".toList ++ w2) (by decide) hl
  unfold build_pattern
  rw [htrim]
  unfold tokenize
  obtain ⟨k, hk⟩ : ∃ k, (not_not_pattern w).length = k + 5 :=
    ⟨(not_not_pattern w).length - 5, by simp [not_not_pattern]⟩
  have e : not_not_pattern w
      = 'N' :: 'O' :: 'T' :: ' ' :: 'N' :: 'O' :: 'T' :: ' ' :: (w ++ []) := by
    simp [not_not_pattern]
  rw [hk, e, tokenize_loop_not _ _ _ _ (by rfl), tokenize_loop_space,
    tokenize_loop_not _ _ _ _ (by rfl), tokenize_loop_space,
    tokenize_loop_bareword _ k w _ _ hw hb (by rfl) (by rfl)]
  cases k <;> rfl

theorem build_not_paren_not (w : List Char) (hw : bareword w) (hb : ∀ c ∈ w, c ≠ '\\') :
    build_pattern (not_paren_not_pattern w)
      = .ok (.node .NOT [] [.node .NOT [] [.node .WORD w []]]) := by
  have htrim : trim (not_paren_not_pattern w) = not_paren_not_pattern w :=
    trim_of_ends 'N' ')' ("OT (NOT ".toList ++ w) (by decide) (by decide)
  unfold build_pattern
  rw [htrim]
  unfold tokenize
  obtain ⟨k, hk⟩ : ∃ k, (not_paren_not_pattern w).length = k + 7 :=
    ⟨(not_paren_not_pattern w).length - 7, by simp [not_paren_not_pattern]⟩
  have e : not_paren_not_pattern w
      = 'N' :: 'O' :: 'T' :: ' ' :: '(' :: 'N' :: 'O' :: 'T' :: ' ' :: (w ++ [')']) := by
    simp [not_paren_not_pattern]
  rw [hk, e, tokenize_loop_not _ _ _ _ (by rfl), tokenize_loop_space, tokenize_loop_lparen,
    tokenize_loop_not _ _ _ _ (by rfl), tokenize_loop_space,
    tokenize_loop_bareword _ (k + 1) w _ _ hw hb (by rfl) (by rfl), tokenize_loop_rparen]
  cases k <;> rfl

/-- C25 (amended). `build_pattern` accepts `NOT` before a word or before a parenthesised
expression, and not directly before another `NOT`: for every bareword `w` without backslash,
`build_pattern("NOT NOT w")` fails with "NOT must be followed by a word or expression",
while `build_pattern("NOT (NOT w)")` succeeds and the resulting matcher matches exactly the
lines that contain `w`. -/
theorem not_needs_word_or_parenthesis (w : List Char) (hw : bareword w)
    (hb : ∀ c ∈ w, c ≠ '\\') :
    build_pattern (not_not_pattern w) = .error .not_needs_operand ∧
    ∃ root, build_pattern (not_paren_not_pattern w) = .ok root ∧
      ∀ (line : List Char) (matched : List matched_word) (with_res : Bool),
        (search_line root line matched with_res).1 = true ↔ w <:+: line := by
  refine ⟨build_not_not w hw hb, _, build_not_paren_not w hw hb, ?_⟩
  intro line matched with_res
  have hwf := build_pattern_well_formed _ _ (build_not_paren_not w hw hb)
  unfold search_line
  rw [match_node_fst line with_res _ _ hwf]
  simp [truth_value]

theorem not_needs_word_or_parenthesis_witness :
    bareword "foo".toList ∧
    build_pattern "NOT NOT foo".toList = .error .not_needs_operand ∧
    ∃ root, build_pattern "NOT (NOT foo)".toList = .ok root ∧
      ((search_line root "a foo b".toList [] false).1 = true
        ↔ "foo".toList <:+: "a foo b".toList) :=
  have hw : bareword "foo".toList := by unfold bareword; decide
  have h := not_needs_word_or_parenthesis "foo".toList hw (by decide)
  ⟨hw, h.1, h.2.choose, h.2.choose_spec.1, h.2.choose_spec.2 _ _ _⟩

/-- C25 as stated fails: `foo` is a bareword and `build_pattern("NOT NOT foo")` does not
succeed, it stops with "NOT must be followed by a word or expression"; the tokens are `NOT`,
`NOT`, `WORD foo`. -/
theorem double_not_counterexample :
    bareword "foo".toList ∧
    tokenize "NOT NOT foo".toList
      = .ok [⟨.NOT, "NOT".toList⟩, ⟨.NOT, "NOT".toList⟩, ⟨.WORD, "foo".toList⟩] ∧
    build_pattern "NOT NOT foo".toList = .error .not_needs_operand ∧
    ¬ ∃ root, build_pattern "NOT NOT foo".toList = .ok root := by
  refine ⟨by unfold bareword; decide, rfl, rfl, ?_⟩
  rintro ⟨root, h⟩
  have h2 : build_pattern "NOT NOT foo".toList = .error .not_needs_operand := rfl
  rw [h2] at h
  cases h

/-- A bareword starts with a character that `trim` does not remove. -/
theorem bareword_first (w : List Char) (hw : bareword w) :
    ∃ c w2, w = c :: w2 ∧ trim_chars c = false := by
  obtain ⟨hne, hchars, -⟩ := hw
  cases w with
  | nil => exact absurd rfl hne
  | cons c w2 => exact ⟨c, w2, rfl, trim_chars_of_word_char c (hchars c (by simp))⟩

theorem build_leading_and (w : List Char) (hw : bareword w) (hb : ∀ c ∈ w, c ≠ '\\') :
    build_pattern (leading_and_pattern w) = .ok (.node .WORD w []) := by
  have htrim : trim (leading_and_pattern w) = leading_and_pattern w := by
    obtain ⟨w2, l, rfl, hl⟩ := bareword_last w hw
    exact trim_of_ends 'A' l ("ND ".toList ++ w2) (by decide) hl
  unfold build_pattern
  rw [htrim]
  unfold tokenize
  obtain ⟨k, hk⟩ : ∃ k, (leading_and_pattern w).length = k + 3 :=
    ⟨(leading_and_pattern w).length - 3, by simp [leading_and_pattern]⟩
  have e : leading_and_pattern w = 'A' :: 'N' :: 'D' :: ' ' :: (w ++ []) := by
    simp [leading_and_pattern]
  rw [hk, e, tokenize_loop_and _ _ _ _ (by rfl), tokenize_loop_space,
    tokenize_loop_bareword _ k w _ _ hw hb (by rfl) (by rfl)]
  cases k <;> rfl

theorem build_trailing_and (w : List Char) (hw : bareword w) (hb : ∀ c ∈ w, c ≠ '\\') :
    build_pattern (trailing_and_pattern w) = .ok (.node .WORD w []) := by
  have htrim : trim (trailing_and_pattern w) = trailing_and_pattern w := by
    obtain ⟨c, w2, rfl, hc⟩ := bareword_first w hw
    have := trim_of_ends c 'D' (w2 ++ " AN".toList) hc (by decide)
    simpa [trailing_and_pattern] using this
  unfold build_pattern
  rw [htrim]
  unfold tokenize
  obtain ⟨k, hk⟩ : ∃ k, (trailing_and_pattern w).length = k + 3 :=
    ⟨(trailing_and_pattern w).length - 3, by simp [trailing_and_pattern]⟩
  have e : trailing_and_pattern w = w ++ (' ' :: 'A' :: 'N' :: 'D' :: []) := by
    simp [trailing_and_pattern]
  rw [hk, e, tokenize_loop_bareword _ (k + 2) w _ _ hw hb (by rfl) (by rfl),
    tokenize_loop_space, tokenize_loop_and _ _ _ _ (by rfl)]
  cases k <;> rfl

theorem build_doubled_and (w v : List Char) (hw : bareword w) (hv : bareword v)
    (hwb : ∀ c ∈ w, c ≠ '\\') (hvb : ∀ c ∈ v, c ≠ '\\') :
    build_pattern (doubled_and_pattern w v)
      = .ok (.node .AND [] [.node .WORD w [], .node .WORD v []]) := by
  have htrim : trim (doubled_and_pattern w v) = doubled_and_pattern w v := by
    obtain ⟨c, w2, rfl, hc⟩ := bareword_first w hw
    obtain ⟨v2, l, rfl, hl⟩ := bareword_last v hv
    have := trim_of_ends c l (w2 ++ (" AND AND ".toList ++ v2)) hc hl
    simpa [doubled_and_pattern] using this
  unfold build_pattern
  rw [htrim]
  unfold tokenize
  obtain ⟨k, hk⟩ : ∃ k, (doubled_and_pattern w v).length = k + 7 :=
    ⟨(doubled_and_pattern w v).length - 7, by simp [doubled_and_pattern]; omega⟩
  have e : doubled_and_pattern w v
      = w ++ (' ' :: 'A' :: 'N' :: 'D' :: ' ' :: 'A' :: 'N' :: 'D' :: ' ' :: (v ++ [])) := by
    simp [doubled_and_pattern]
  rw [hk, e, tokenize_loop_bareword _ (k + 6) w _ _ hw hwb (by rfl) (by rfl),
    tokenize_loop_space, tokenize_loop_and _ _ _ _ (by rfl), tokenize_loop_space,
    tokenize_loop_and _ _ _ _ (by rfl), tokenize_loop_space,
    tokenize_loop_bareword _ k v _ _ hv hvb (by rfl) (by rfl)]
  cases k <;> rfl

/-- C26 (amended). `build_pattern` does not test that an operator `AND`/`OR` stands between
two atoms; the operators of a level are only collected and compared with each other. For all
barewords `w` and `v` without backslash, the pattern with a leading operator (`AND w`) and
the pattern with a trailing operator (`w AND`) are accepted and give the matcher of the word
`w` alone, and the pattern with a doubled operator (`w AND AND v`) is accepted and gives the
conjunction of `w` and `v`. -/
theorem misplaced_operators_accepted (w v : List Char) (hw : bareword w) (hv : bareword v)
    (hwb : ∀ c ∈ w, c ≠ '\\') (hvb : ∀ c ∈ v, c ≠ '\\') :
    build_pattern (leading_and_pattern w) = .ok (.node .WORD w []) ∧
    build_pattern (trailing_and_pattern w) = .ok (.node .WORD w []) ∧
    build_pattern (doubled_and_pattern w v)
      = .ok (.node .AND [] [.node .WORD w [], .node .WORD v []]) ∧
    (∀ (line : List Char) (matched : List matched_word) (with_res : Bool),
      ((search_line (.node .WORD w []) line matched with_res).1 = true ↔ w <:+: line) ∧
      ((search_line (.node .AND [] [.node .WORD w [], .node .WORD v []]) line matched
          with_res).1 = true ↔ (w <:+: line ∧ v <:+: line))) := by
  refine ⟨build_leading_and w hw hwb, build_trailing_and w hw hwb,
    build_doubled_and w v hw hv hwb hvb, ?_⟩
  intro line matched with_res
  have h1 := build_pattern_well_formed _ _ (build_leading_and w hw hwb)
  have h2 := build_pattern_well_formed _ _ (build_doubled_and w v hw hv hwb hvb)
  unfold search_line
  rw [match_node_fst line with_res _ _ h1, match_node_fst line with_res _ _ h2]
  simp [truth_value, truth_all]

theorem misplaced_operators_accepted_witness :
    bareword "foo".toList ∧ bareword "bar".toList ∧
    build_pattern "AND foo".toList = .ok (.node .WORD "foo".toList []) ∧
    build_pattern "foo AND".toList = .ok (.node .WORD "foo".toList []) ∧
    build_pattern "foo AND AND bar".toList
      = .ok (.node .AND [] [.node .WORD "foo".toList [], .node .WORD "bar".toList []]) :=
  have hw : bareword "foo".toList := by unfold bareword; decide
  have hv : bareword "bar".toList := by unfold bareword; decide
  have h := misplaced_operators_accepted "foo".toList "bar".toList hw hv (by decide)
    (by decide)
  ⟨hw, hv, h.1, h.2.1, h.2.2.1⟩

/-- C26 as stated fails: in the pattern `AND foo` the operator `AND` has no atom before it,
and `build_pattern` does not fail: the tokens are `AND`, `WORD foo` and the result is the
matcher of the word `foo`, which matches the line `a foo b`. -/
theorem leading_operator_counterexample :
    tokenize "AND foo".toList = .ok [⟨.AND, "AND".toList⟩, ⟨.WORD, "foo".toList⟩] ∧
    build_pattern "AND foo".toList = .ok (.node .WORD "foo".toList []) ∧
    (search_line (.node .WORD "foo".toList []) "a foo b".toList [] false).1 = true := by
  refine ⟨rfl, rfl, by decide⟩

/-- C27 (code). The search of a text file misses a line of the window when an entry made
for the count threshold stands between that line and the window start. The file `busy_file`
has four lines with the time stamps 1735689600, 1735689720, 1735689780 and 1735689900; with
the interval 300 and the count threshold 2 the builder makes the entries (1735689600, 0),
(1735689600, 44), (1735689900, 66) and the final entry (1735689900, 66): the entry of line
`c` at offset 44 is made for the threshold and carries the bucket of line `a`. For the
window from 1735689700 to 1735689750 the pair of the entries 0 and 1 does not overlap the
window (1735689600 < 1735689700), so `find_index_pos` starts at offset 44, and line `b` at
offset 22, whose time stamp 1735689720 lies in the window and which the matcher `b`
matches, is not read: the search returns no record, with status 0. -/
theorem threshold_entry_hides_line :
    (busy_file_info.file_index.map (fun fi => fi.time_indexes))
      = some [⟨1735689600, 0⟩, ⟨1735689600, 44⟩, ⟨1735689900, 66⟩, ⟨1735689900, 66⟩] ∧
    (indexer_with 300 2).get_timestamp_from_log_line "2025-01-01 00:02:00 b".toList
      = 1735689720 ∧
    ((simple_query "b".toList).searcher.search_line "2025-01-01 00:02:00 b".toList []
      false).1 = true ∧
    ((find_index_pos (some busy_file_info)
        (context_for "app.log".toList 1735689700 1735689750)).2.index_start_pos = 44 ∧
      (find_index_pos (some busy_file_info)
        (context_for "app.log".toList 1735689700 1735689750)).2.index_end_pos = 66) ∧
    search_path (indexer_with 300 2) { text := some busy_file }
        { start_time := 1735689700, end_time := 1735689750, max_results := 500 }
        [simple_query "b".toList] (some busy_file_info) "app.log".toList
      = { path := "app.log".toList, lines := [], status := 0, error_msg := [] } ∧
    (search_path (indexer_with 300 2) { text := some busy_file }
        { start_time := 1735689600, end_time := 1735689750, max_results := 500 }
        [simple_query "b".toList] (some busy_file_info) "app.log".toList).lines
      = [⟨1735689720, "2025-01-01 00:02:00 b".toList⟩] := by
  refine ⟨by decide, by decide, by decide, ⟨by decide, by decide⟩, by decide, by decide⟩

/-- C28 (code). The comparison function that the gateway passes to `std::sort` is not a
strict weak ordering over all records: for a record `a` without a numeric `start_time` it
returns true for `comp(a, a)`, and for two such records it returns true in both directions,
so it is neither irreflexive nor asymmetric, and a range that holds such a record does not
meet the requirement of `std::sort`. The function is transitive, and on records that all
carry a numeric `start_time` it is a strict weak ordering. -/
theorem comparator_not_irreflexive :
    start_time_less record_without_time record_without_time = true ∧
    (start_time_less record_without_time { record_without_time with agent := "101".toList }
        = true ∧
      start_time_less { record_without_time with agent := "101".toList } record_without_time
        = true) ∧
    strict_weak_on start_time_less [record_without_time, record_at 5] = false ∧
    std_sort start_time_less [record_without_time, record_at 5] = none ∧
    (∀ a b c : json_record, start_time_less a b = true → start_time_less b c = true →
      start_time_less a c = true) ∧
    (∀ xs : List json_record, (∀ r ∈ xs, ∃ v, r.start_time = some v) →
      strict_weak_on start_time_less xs = true) := by
  refine ⟨by decide, ⟨by decide, by decide⟩, by decide, by decide, ?_,
    start_time_less_strict_weak⟩
  intro a b c hab hbc
  unfold start_time_less at hab hbc ⊢
  cases ha : a.start_time with
  | none => rfl
  | some x =>
    rw [ha] at hab
    cases hb : b.start_time with
    | none => rw [hb] at hab; simp at hab
    | some y =>
      rw [hb] at hab hbc
      cases hc : c.start_time with
      | none => rw [hc] at hbc; simp at hbc
      | some z =>
        rw [hc] at hbc
        simp only [decide_eq_true_eq] at hab hbc ⊢
        omega

theorem url_decode_cons_ne (c : Char) (rest : List Char) (h : c ≠ '%') :
    url_decode (c :: rest) = c :: url_decode rest := by
  match rest with
  | [] => simp [url_decode]
  | [a] => simp [url_decode]
  | a :: b :: r => simp [url_decode, h]

theorem url_decode_percent (a b : Char) (rest : List Char) :
    url_decode ('%' :: a :: b :: rest) = to_char (stream_hex a b) :: url_decode rest := by
  simp [url_decode]

theorem hex_digit_value_upper : ∀ d, d < 16 →
    hex_digit_value (upper_hex_digit d) = some d := by
  decide

theorem hex_byte_value (n : Nat) (h : n < 256) :
    to_char (stream_hex (upper_hex_digit (n / 16)) (upper_hex_digit (n % 16)))
      = Char.ofNat n := by
  unfold stream_hex
  rw [hex_digit_value_upper (n / 16) (by omega), hex_digit_value_upper (n % 16) (by omega)]
  simp only [to_char]
  congr 1
  omega

theorem safe_char_ne (c : Char)
    (h : (isalnum c || c = '-' || c = '_' || c = '.' || c = '~') = true) :
    c ≠ '%' ∧ c ≠ '&' ∧ c ≠ '=' := by
  refine ⟨?_, ?_, ?_⟩ <;> (rintro rfl; revert h; decide)

theorem upper_hex_digit_ne : ∀ d, d < 16 →
    upper_hex_digit d ≠ '&' ∧ upper_hex_digit d ≠ '=' := by
  decide

/-- The round trip of `url_encode` and `url_decode` on a byte string. -/
theorem url_decode_encode : ∀ s : List Char, (∀ c ∈ s, c.toNat < 256) →
    url_decode (url_encode s) = s
  | [], _ => rfl
  | c :: rest, h => by
    have ih := url_decode_encode rest (fun d hd => h d (List.mem_cons_of_mem _ hd))
    have hc := h c (List.mem_cons_self _ _)
    unfold url_encode
    by_cases hs : (isalnum c || c = '-' || c = '_' || c = '.' || c = '~') = true
    · rw [if_pos hs]
      simp only [List.singleton_append]
      rw [url_decode_cons_ne _ _ (safe_char_ne c hs).1, ih]
    · rw [if_neg hs]
      simp only [hex_byte, List.cons_append, List.nil_append]
      rw [url_decode_percent, Nat.mod_eq_of_lt hc, hex_byte_value _ hc, ih, Char.ofNat_toNat]

/-- The output of `url_encode` holds neither `&` nor `=`. -/
theorem url_encode_chars : ∀ (s : List Char), ∀ c ∈ url_encode s, c ≠ '&' ∧ c ≠ '='
  | [], c, hc => by simp [url_encode] at hc
  | d :: rest, c, hc => by
    unfold url_encode at hc
    rw [List.mem_append] at hc
    rcases hc with hc | hc
    · by_cases hs : (isalnum d || d = '-' || d = '_' || d = '.' || d = '~') = true
      · rw [if_pos hs, List.mem_singleton] at hc
        rw [hc]
        exact (safe_char_ne d hs).2
      · rw [if_neg hs] at hc
        simp only [hex_byte, List.mem_cons, List.mem_nil_iff, or_false] at hc
        rcases hc with hc | hc | hc
        · rw [hc]; decide
        · rw [hc]; exact upper_hex_digit_ne _ (Nat.div_lt_of_lt_mul (Nat.mod_lt _ (by decide)))
        · rw [hc]; exact upper_hex_digit_ne _ (Nat.mod_lt _ (by decide))
    · exact url_encode_chars rest c hc

theorem string_find_none (c : Char) : ∀ l : List Char, c ∉ l → string_find c l = none
  | [], _ => rfl
  | d :: rest, h => by
    have h1 : d ≠ c := fun e => h (by rw [e]; exact List.mem_cons_self _ _)
    have h2 : c ∉ rest := fun e => h (List.mem_cons_of_mem _ e)
    simp [string_find, h1, string_find_none c rest h2]

/-- The gateway reads the encoded address from the target of the announce request. -/
theorem get_param_announce (s : List Char) :
    get_param (parse_request (announce_target s)).2.2 "agent_addr".toList = url_encode s := by
  have hamp : string_find '&' (url_encode s) = none :=
    string_find_none _ _ (fun h => (url_encode_chars s _ h).1 rfl)
  have e : announce_target s = '/' :: 'a' :: 'g' :: 'e' :: 'n' :: 't' :: '/' :: 'a' :: 'n'
      :: 'n' :: 'o' :: 'u' :: 'n' :: 'c' :: 'e' :: '?' :: 'a' :: 'g' :: 'e' :: 'n' :: 't'
      :: '_' :: 'a' :: 'd' :: 'd' :: 'r' :: '=' :: url_encode s := by
    simp [announce_target]
  rw [e]
  simp [parse_request, string_find, parse_query, hamp, params_emplace, get_param]

theorem url_encode_ne_nil (s : List Char) (h : s ≠ []) : url_encode s ≠ [] := by
  cases s with
  | nil => exact absurd rfl h
  | cons c rest =>
    unfold url_encode
    split <;> simp

/-- C29. For every byte string `s`, `url_decode(url_encode(s)) = s`. The gateway reads the
parameter `agent_addr` of the announce request as the agent encoded it, and decoding it
gives the address of the agent: `GTHandler::announce` adds the agent under the address `s`
that `run_announce_task` encoded, for every address that is not empty (an empty parameter is
answered with the status 400). -/
theorem url_round_trip (s : List Char) (h : ∀ c ∈ s, c.toNat < 256) :
    url_decode (url_encode s) = s ∧
    url_decode (get_param (parse_request (announce_target s)).2.2 "agent_addr".toList) = s ∧
    (s ≠ [] → ∀ (now : Nat) (agents_ : AgentTable),
      announce now agents_ (announce_target s) = (200, add_agent now agents_ s)) := by
  have h1 := url_decode_encode s h
  refine ⟨h1, by rw [get_param_announce, h1], ?_⟩
  intro hne now agents_
  unfold announce
  simp only []
  rw [get_param_announce, if_neg (url_encode_ne_nil s hne), h1]

theorem url_round_trip_witness :
    (∀ c ∈ "10.0.0.7:8113 %/".toList, c.toNat < 256) ∧
    url_encode "10.0.0.7:8113 %/".toList = "10.0.0.7%3A8113%20%25%2F".toList ∧
    url_decode (url_encode "10.0.0.7:8113 %/".toList) = "10.0.0.7:8113 %/".toList :=
  ⟨by decide, by decide, (url_round_trip "10.0.0.7:8113 %/".toList (by decide)).1⟩

/-- C30 (code). The tokenizer tests for an unmatched quote only with
`i == n && src[n-1] != quote`, that is by looking at the last character of the pattern. For
the pattern `'abc\'`, whose last quote is escaped, the quoted word ends at the end of the
pattern without a closing quote and `build_pattern` succeeds with the word `abc'`; for the
pattern `'`, a lone opening quote, and for `foo AND '` it succeeds as well (with no matcher
and with the matcher of `foo`). The pattern `'abc`, which ends with another character, is
rejected with "Unmatched right quote". -/
theorem unmatched_quote_accepted :
    build_pattern "'abc\\'".toList = .ok (.node .WORD "abc'".toList []) ∧
    (quoted_word '\'' "abc\\'".toList []).2 = [] ∧
    build_pattern "'".toList = .ok .null ∧
    build_pattern "foo AND '".toList = .ok (.node .WORD "foo".toList []) ∧
    build_pattern "\"abc\\\"".toList = .ok (.node .WORD "abc\"".toList []) ∧
    build_pattern "'abc".toList = .error .unmatched_quote := by
  refine ⟨rfl, by decide, rfl, rfl, rfl, rfl⟩

/-- A file with no more lines than the count threshold never reaches the threshold. -/
theorem threshold_not_reached_of_length (ix : FileIndexer) : ∀ (lines : List (List Char))
    (last : Option Int) (n : Nat), n + lines.length ≤ ix.index_count_threshold_ →
    threshold_not_reached ix last n lines = true := by
  intro lines
  induction lines with
  | nil => intro last n _; cases last <;> rfl
  | cons l rest ih =>
    intro last n h
    simp only [List.length_cons] at h
    cases last with
    | none =>
      simp only [threshold_not_reached]
      exact ih _ 1 (by omega)
    | some lb =>
      simp only [threshold_not_reached]
      split
      · exact ih _ 1 (by omega)
      · simp only [Bool.and_eq_true, decide_eq_true_eq]
        exact ⟨by omega, ih _ (n + 1) (by omega)⟩

/-- C18 (code). An agent whose announce is stamped after `now` was sampled is dropped.
`get_active_agents` and `cleanup_expired_agents` read the clock before they take the lock,
and `add_agent` stamps `last_announce` inside the lock; when `add_agent` runs in between and
the second has changed, the registry holds an agent with `last_announce = now + 1`. For
`now = 1000` and an agent announced at 1001 the difference `now - last_announce` of the
`uint64_t` values is 2^64 - 1, not -1: `get_active_agents` does not return the agent and
`cleanup_expired_agents` erases it, whatever its address is, although `now - last_announce`
is at most 60. For the registry states in which every announce is at or before `now` the
functions do what the claim says (`active_agents_characterised`). -/
theorem agent_announced_after_now_dropped :
    (∀ agent_addr : List Char,
      add_agent 1001 [] agent_addr
        = [(Nat.toDigits 10 (MurMurHash64 agent_addr 0),
            ⟨agent_addr, Nat.toDigits 10 (MurMurHash64 agent_addr 0), 1001⟩)] ∧
      get_active_agents 1000 (add_agent 1001 [] agent_addr) = [] ∧
      cleanup_expired_agents 1000 (add_agent 1001 [] agent_addr) = []) ∧
    ((1000 : Int) - 1001 ≤ 60 ∧ uint64_sub 1000 1001 = 2 ^ 64 - 1) ∧
    get_active_agents 1000 [("17".toList, ⟨"10.0.0.1:8080".toList, "17".toList, 1001⟩),
        ("42".toList, ⟨"10.0.0.2:8080".toList, "42".toList, 950⟩)]
      = [⟨"10.0.0.2:8080".toList, "42".toList, 950⟩] ∧
    cleanup_expired_agents 1000 [("17".toList, ⟨"10.0.0.1:8080".toList, "17".toList, 1001⟩),
        ("42".toList, ⟨"10.0.0.2:8080".toList, "42".toList, 950⟩)]
      = [("42".toList, ⟨"10.0.0.2:8080".toList, "42".toList, 950⟩)] ∧
    (∀ (now : Nat) (agents_ : AgentTable), now < 2 ^ 64 → ∀ id a, (id, a) ∈ agents_ →
      a.last_announce ≤ now →
        (a ∈ get_active_agents now agents_ ↔ now - a.last_announce ≤ 60)) := by
  have hsub : uint64_sub 1000 1001 = 2 ^ 64 - 1 := by decide
  refine ⟨?_, ⟨by decide, hsub⟩, by decide, by decide, ?_⟩
  · intro agent_addr
    have e : add_agent 1001 [] agent_addr
        = [(Nat.toDigits 10 (MurMurHash64 agent_addr 0),
            ⟨agent_addr, Nat.toDigits 10 (MurMurHash64 agent_addr 0), 1001⟩)] := rfl
    rw [e]
    refine ⟨rfl, ?_, ?_⟩
    · simp only [get_active_agents, hsub, AGENT_TIMEOUT_SECONDS]
      rfl
    · simp only [cleanup_expired_agents, hsub, AGENT_TIMEOUT_SECONDS]
      rfl
  · intro now agents_ hnow id a hmem hle
    exact ((active_agents_characterised now agents_).2.1 hnow id a hmem hle).2.1

end drlog
